import Mathlib

/-!
Monkey interpreter: token, AST and object models

A shallow embedding of `token/token.go`, `ast/ast.go` and `object/object.go`.
The lexer and the parser, whose sources are not at hand, are modelled from the
specification (namespaces `lexer` and `parser`); namespace `roundtrip` holds
the definitions used to state and prove when parsing a canonical string gives
the program back.

Modelling conventions
* A Go `string` is a Lean `String`; its bytes are its UTF-8 encoding, so the
  model covers the Go strings that hold valid UTF-8.
* `int64` is `Int` (claims about 64-bit integers carry the range as a
  hypothesis) and `uint64` is `Nat` reduced modulo `2 ^ 64`.
* A Go map is an association list read in iteration order.
* An interface or pointer field that the code tests against `nil` is an
  `Option`; a field the code dereferences unconditionally is taken as present
  (a `nil` there makes the Go method panic and lies outside the model).
* A `bytes.Buffer` / `strings.Builder` that is only written to and then read
  once is the concatenation of the written strings.
* The parser functions recurse on a `fuel` argument; using it up is reported
  as a parse error, and the theorems show that the supplied fuel suffices.
-/

namespace token

/-- The Go type `TokenType`, a named string type. -/
abbrev TokenType := String

def ILLEGAL : TokenType := "ILLEGAL"
def EOF : TokenType := "EOF"
def IDENT : TokenType := "IDENT"
def INT : TokenType := "INT"
def STRING : TokenType := "STRING"
def ASSIGN : TokenType := "="
def PLUS : TokenType := "+"
def MINUS : TokenType := "-"
def BANG : TokenType := "!"
def ASTERISK : TokenType := "*"
def SLASH : TokenType := "/"
def LT : TokenType := "<"
def GT : TokenType := ">"
def EQ : TokenType := "=="
def NE : TokenType := "!="
def COMMA : TokenType := ","
def SEMICOLON : TokenType := ";"
def COLON : TokenType := ":"
def LPAREN : TokenType := "("
def RPAREN : TokenType := ")"
def LBRACE : TokenType := "\x7b"
def RBRACE : TokenType := "\x7d"
def LBRACKET : TokenType := "["
def RBRACKET : TokenType := "]"
def FUNCTION : TokenType := "FUNCTION"
def LET : TokenType := "LET"
def TRUE : TokenType := "TRUE"
def FALSE : TokenType := "FALSE"
def IF : TokenType := "IF"
def ELSE : TokenType := "ELSE"
def RETURN : TokenType := "RETURN"

/-- The package-level map `keywords`, as the list of its entries. -/
def keywords : List (String × TokenType) :=
  [("fn", FUNCTION), ("let", LET), ("true", TRUE), ("false", FALSE),
   ("if", IF), ("else", ELSE), ("return", RETURN)]

/-- The function `TextToTokenType`: the two-result map index `keywords[text]`
followed by the fall-through `return IDENT`. -/
def TextToTokenType (text : String) : TokenType :=
  match keywords.lookup text with
  | some tok => tok
  | none => IDENT

/-- The struct `Token`. -/
structure Token where
  Type_ : TokenType
  Literal : String
deriving DecidableEq, Repr

end token

namespace strings

/-- Go standard library `strings.Join`: nothing for no element, otherwise the
first element followed by `sep` and the next element for each further one. -/
def Join (elems : List String) (sep : String) : String :=
  match elems with
  | [] => ""
  | e :: rest => rest.foldl (fun b s => b ++ sep ++ s) e

end strings

namespace ast

/-- The struct `Identifier`. -/
structure Identifier where
  Token : token.Token
  Value : String
deriving DecidableEq, Repr

mutual
/-- The implementations of the interface `Expression`, one constructor per
struct type, fields in declaration order. -/
inductive Expression where
  | Identifier (i : ast.Identifier)
  | IntegerLiteral (Token : token.Token) (Value : Int)
  | PrefixExpression (Token : token.Token) (Operator : String) (Right : Expression)
  | InfixExpression (Token : token.Token) (Left Right : Expression) (Operator : String)
  | Boolean (Token : token.Token) (Value : Bool)
  | IfExpression (Token : token.Token) (Condition : Expression)
      (Consequence : BlockStatement) (Alternative : Option BlockStatement)
  | FunctionLiteral (Token : token.Token) (Parameters : List ast.Identifier)
      (Body : BlockStatement)
  | CallExpression (Token : token.Token) (Function : Expression)
      (Arguments : List Expression)
  | StringLiteral (Token : token.Token) (Value : String)
  | ArrayLiteral (Token : token.Token) (Elements : List Expression)
  | IndexExpression (Token : token.Token) (Left Index : Expression)
  | HashLiteral (Token : token.Token) (Pairs : List (Expression × Expression))
/-- The implementations of the interface `Statement`. -/
inductive Statement where
  | LetStatement (Token : token.Token) (Name : ast.Identifier) (Value : Option Expression)
  | ReturnStatement (Token : token.Token) (ReturnValue : Option Expression)
  | ExpressionStatement (Token : token.Token) (Expression : Option Expression)
  | BlockStatement (b : BlockStatement)
/-- The struct `BlockStatement`. -/
inductive BlockStatement where
  | mk (Token : token.Token) (Statements : List Statement)
end

/-- The struct `Program`. -/
structure Program where
  Statements : List Statement

/-- The method `Identifier.TokenLiteral`. -/
def Identifier.TokenLiteral (i : Identifier) : String := i.Token.Literal

/-- The `TokenLiteral` method of every expression node: the literal of the
token the node carries. -/
def Expression.TokenLiteral : Expression → String
  | .Identifier i => i.TokenLiteral
  | .IntegerLiteral t _ => t.Literal
  | .PrefixExpression t _ _ => t.Literal
  | .InfixExpression t _ _ _ => t.Literal
  | .Boolean t _ => t.Literal
  | .IfExpression t _ _ _ => t.Literal
  | .FunctionLiteral t _ _ => t.Literal
  | .CallExpression t _ _ => t.Literal
  | .StringLiteral t _ => t.Literal
  | .ArrayLiteral t _ => t.Literal
  | .IndexExpression t _ _ => t.Literal
  | .HashLiteral t _ => t.Literal

/-- The method `Identifier.String`. -/
def Identifier.String (i : Identifier) : String := i.Value

/-- The loop `for _, param := range fl.Parameters` collecting `param.String()`. -/
def Parameters_Strings (ps : List Identifier) : List String :=
  ps.map Identifier.String

mutual
/-- The `String` method of every expression node. -/
def Expression.String : Expression → String
  | .Identifier i => i.String
  | .IntegerLiteral t _ => t.Literal
  | .PrefixExpression _ op r => "(" ++ op ++ Expression.String r ++ ")"
  | .InfixExpression _ l r op =>
      "(" ++ Expression.String l ++ (" " ++ op ++ " ") ++ Expression.String r ++ ")"
  | .Boolean t _ => t.Literal
  | .IfExpression _ c cons alt =>
      "if" ++ Expression.String c ++ " " ++ BlockStatement.String cons
        ++ Alternative_String alt
  | .FunctionLiteral t ps body =>
      t.Literal ++ "(" ++ strings.Join (Parameters_Strings ps) ", " ++ ")"
        ++ BlockStatement.String body
  | .CallExpression _ f args =>
      Expression.String f ++ "(" ++ strings.Join (Expressions_Strings args) ", " ++ ")"
  | .StringLiteral t _ => t.Literal
  | .ArrayLiteral _ es => "[" ++ strings.Join (Expressions_Strings es) ", " ++ "]"
  | .IndexExpression _ l i =>
      "(" ++ Expression.String l ++ "[" ++ Expression.String i ++ "])"
  | .HashLiteral _ ps => "\x7b" ++ strings.Join (Pairs_Strings ps) ", " ++ "\x7d"
/-- The guarded tail of `IfExpression.String`: what is written when
`ie.Alternative != nil`, nothing otherwise. -/
def Alternative_String : Option BlockStatement → String
  | none => ""
  | some b => "else " ++ BlockStatement.String b
/-- The loops collecting `arg.String()` / `e.String()` of each element. -/
def Expressions_Strings : List Expression → List String
  | [] => []
  | e :: es => Expression.String e :: Expressions_Strings es
/-- The loop of `HashLiteral.String` collecting `key.String()+":"+value.String()`. -/
def Pairs_Strings : List (Expression × Expression) → List String
  | [] => []
  | (k, v) :: ps => (Expression.String k ++ ":" ++ Expression.String v) :: Pairs_Strings ps
/-- The guarded write `if v != nil { out.WriteString(v.String()) }`. -/
def Value_String : Option Expression → String
  | none => ""
  | some e => Expression.String e
/-- The `String` method of every statement node. -/
def Statement.String : Statement → String
  | .LetStatement t n v =>
      (t.Literal ++ " ") ++ n.String ++ " = " ++ Value_String v ++ ";"
  | .ReturnStatement t v => (t.Literal ++ " ") ++ Value_String v ++ ";"
  | .ExpressionStatement _ e => Value_String e
  | .BlockStatement b => BlockStatement.String b
/-- The method `BlockStatement.String`. -/
def BlockStatement.String : BlockStatement → String
  | .mk _ ss => Statements_String ss
/-- The loop `for _, s := range statements { out.WriteString(s.String()) }`. -/
def Statements_String : List Statement → String
  | [] => ""
  | s :: ss => Statement.String s ++ Statements_String ss
end

/-- The method `Program.String`. -/
def Program.String (p : Program) : String := Statements_String p.Statements

end ast

namespace fnv

/-- Go standard library `hash/fnv`: the constant `offset64`. -/
def offset64 : Nat := 14695981039346656037

/-- Go standard library `hash/fnv`: the constant `prime64`. -/
def prime64 : Nat := 1099511628211

/-- Go standard library `fnv.New64a`: the initial state of the hash. -/
def New64a : Nat := offset64

/-- Go standard library `(*sum64a).Write`: for each byte `c` of the data, in
order, `hash ^= uint64(c)` and then `hash *= prime64` in 64-bit arithmetic. -/
def Write (hash : Nat) : List Nat → Nat
  | [] => hash
  | c :: data => Write (((hash ^^^ c) * prime64) % 2 ^ 64) data

/-- Go standard library `(*sum64a).Sum64`: the current state. -/
def Sum64 (hash : Nat) : Nat := hash

end fnv

namespace object

/-- The Go type `ObjectType`, a named string type. -/
abbrev ObjectType := String

def INTEGER_OBJ : ObjectType := "INTEGER"
def BOOLEAN_OBJ : ObjectType := "BOOLEAN"
def NULL_OBJ : ObjectType := "NULL"
def RETURN_VALUE_OBJ : ObjectType := "RETURN_VALUE"
def ERROR_OBJ : ObjectType := "ERROR"
def FUNCTION_OBJ : ObjectType := "FUNCTION"
def STRING_OBJ : ObjectType := "STRING"
def BUILTIN_OBJ : ObjectType := "BUILTIN_OBJ"
def ARRAY_OBJ : ObjectType := "ARRAY_OBJ"
def HASH_OBJ : ObjectType := "HASH_OBJ"

/-- The struct `HashKey`; `Value` is a `uint64`. -/
structure HashKey where
  Type_ : ObjectType
  Value : Nat
deriving DecidableEq, Repr

mutual
/-- The implementations of the interface `Object`, one constructor per struct
type. `Environment` stands for the struct of that name, which `Function` only
points to and whose declaration is not part of the sources at hand;
`BuiltInFunction` stands for the Go function values of that type. -/
inductive Object (Environment BuiltInFunction : Type) where
  | Integer (Value : Int)
  | Boolean (Value : Bool)
  | Null
  | ReturnValue (Value : Object Environment BuiltInFunction)
  | Error (Message : String)
  | Function (Parameters : List ast.Identifier) (Body : ast.BlockStatement)
      (Environment_ : Environment)
  | String (Value : String)
  | BuiltIn (Fn : BuiltInFunction)
  | Array (Elements : List (Object Environment BuiltInFunction))
  | Hash (Pairs : List (HashKey × HashPair Environment BuiltInFunction))
/-- The struct `HashPair`. -/
inductive HashPair (Environment BuiltInFunction : Type) where
  | mk (Key Value : Object Environment BuiltInFunction)
end

/-- The conversion `uint64(v)` of an `int64`: the same 64 bits read unsigned. -/
def uint64 (v : Int) : Nat := (v % 2 ^ 64).toNat

/-- The conversion `[]byte(s)`: the bytes of the string. -/
def bytes (s : String) : List Nat := s.toUTF8.data.toList.map UInt8.toNat

section
variable {Environment BuiltInFunction : Type}

/-- The `Type` method of every object. -/
def Type_ : Object Environment BuiltInFunction → ObjectType
  | .Integer _ => INTEGER_OBJ
  | .Boolean _ => BOOLEAN_OBJ
  | .Null => NULL_OBJ
  | .ReturnValue _ => RETURN_VALUE_OBJ
  | .Error _ => ERROR_OBJ
  | .Function _ _ _ => FUNCTION_OBJ
  | .String _ => STRING_OBJ
  | .BuiltIn _ => BUILTIN_OBJ
  | .Array _ => ARRAY_OBJ
  | .Hash _ => HASH_OBJ

/-- The method `Integer.HashKey`; `i.Type()` is `INTEGER_OBJ`. -/
def Integer_HashKey (Value : Int) : HashKey :=
  { Type_ := INTEGER_OBJ, Value := uint64 Value }

/-- The method `Boolean.HashKey`; `b.Type()` is `BOOLEAN_OBJ`. -/
def Boolean_HashKey (Value : Bool) : HashKey :=
  let val : Int := 0
  let val := if Value then 1 else val
  { Type_ := BOOLEAN_OBJ, Value := uint64 val }

/-- The method `String.HashKey`; `s.Type()` is `STRING_OBJ`. -/
def String_HashKey (Value : String) : HashKey :=
  let h := fnv.New64a
  let h := fnv.Write h (bytes Value)
  { Type_ := STRING_OBJ, Value := fnv.Sum64 h }

/-- The interface `Hashable`: the `HashKey` method of an object whose type
declares one, and `none` for an object whose type declares none (the type
assertion to `Hashable` fails). -/
def Hashable_HashKey : Object Environment BuiltInFunction → Option HashKey
  | .Integer v => some (Integer_HashKey v)
  | .Boolean v => some (Boolean_HashKey v)
  | .String v => some (String_HashKey v)
  | _ => none

mutual
/-- The `Inspect` method of every object. -/
def Inspect : Object Environment BuiltInFunction → String
  | .Integer v => toString v
  | .Boolean v => if v then "true" else "false"
  | .Null => "null"
  | .ReturnValue v => Inspect v
  | .Error m => "ERROR: " ++ m
  | .Function ps body _ =>
      "fn" ++ "(" ++ strings.Join (ast.Parameters_Strings ps) ", " ++ ") \x7b\n"
        ++ body.String ++ "\n\x7d"
  | .String v => v
  | .BuiltIn _ => "builtin function"
  | .Array es => "[" ++ strings.Join (Elements_Inspect es) ", " ++ "]"
  | .Hash ps => "\x7b" ++ strings.Join (Pairs_Inspect ps) ", " ++ "\x7d"
/-- The loop of `Array.Inspect` collecting `e.Inspect()` of each element. -/
def Elements_Inspect : List (Object Environment BuiltInFunction) → List String
  | [] => []
  | e :: es => Inspect e :: Elements_Inspect es
/-- The loop of `Hash.Inspect` collecting `Key.Inspect() + ": " + Value.Inspect()`
of each pair. -/
def Pairs_Inspect :
    List (HashKey × HashPair Environment BuiltInFunction) → List String
  | [] => []
  | (_, .mk k v) :: ps => (Inspect k ++ ": " ++ Inspect v) :: Pairs_Inspect ps
end

end

end object


namespace spec

/-- The 64-bit FNV-1a hash as the specification words it: starting from the
offset basis, for each byte in order `h := ((h XOR byte) * 1099511628211) mod 2^64`. -/
def FNV1a64 (data : List Nat) : Nat :=
  data.foldl (fun h byte => ((h ^^^ byte) * 1099511628211) % 2 ^ 64) 14695981039346656037

end spec

namespace lexer

/-- Modelled from the spec: the character classes of the lexer (package
`lexer`, whose source is not at hand): a letter is an ASCII letter or the
underscore. -/
def isLetter (c : Char) : Bool :=
  ('a' ≤ c && c ≤ 'z') || ('A' ≤ c && c ≤ 'Z') || c == '_'

/-- Modelled from the spec: the decimal digits of the lexer. -/
def isDigit (c : Char) : Bool := '0' ≤ c && c ≤ '9'

/-- Modelled from the spec: the whitespace the lexer advances past: space, tab,
carriage return, newline. -/
def isWhitespace (c : Char) : Bool := c == ' ' || c == '\t' || c == '\r' || c == '\n'

/-- Modelled from the spec: the token the lexer emits on the current character
`c`, in front of the rest `rest` of the source text, and the text after that
token (package `lexer`, whose source is not at hand). A character outside
ASCII stands for the bytes that encode it and is emitted as one `ILLEGAL`
token. -/
def readToken (c : Char) (rest : List Char) : token.Token × List Char :=
  if c = '=' then
    match rest with
    | '=' :: rest2 => (⟨token.EQ, "=="⟩, rest2)
    | _ => (⟨token.ASSIGN, "="⟩, rest)
  else if c = '!' then
    match rest with
    | '=' :: rest2 => (⟨token.NE, "!="⟩, rest2)
    | _ => (⟨token.BANG, "!"⟩, rest)
  else if c = '+' then (⟨token.PLUS, "+"⟩, rest)
  else if c = '-' then (⟨token.MINUS, "-"⟩, rest)
  else if c = '*' then (⟨token.ASTERISK, "*"⟩, rest)
  else if c = '/' then (⟨token.SLASH, "/"⟩, rest)
  else if c = '<' then (⟨token.LT, "<"⟩, rest)
  else if c = '>' then (⟨token.GT, ">"⟩, rest)
  else if c = ',' then (⟨token.COMMA, ","⟩, rest)
  else if c = ';' then (⟨token.SEMICOLON, ";"⟩, rest)
  else if c = ':' then (⟨token.COLON, ":"⟩, rest)
  else if c = '(' then (⟨token.LPAREN, "("⟩, rest)
  else if c = ')' then (⟨token.RPAREN, ")"⟩, rest)
  else if c = '\x7b' then (⟨token.LBRACE, "\x7b"⟩, rest)
  else if c = '\x7d' then (⟨token.RBRACE, "\x7d"⟩, rest)
  else if c = '[' then (⟨token.LBRACKET, "["⟩, rest)
  else if c = ']' then (⟨token.RBRACKET, "]"⟩, rest)
  else if c = '"' then
    (⟨token.STRING, String.mk (rest.takeWhile (fun d => d != '"'))⟩,
      (rest.dropWhile (fun d => d != '"')).tail)
  else if isLetter c then
    (⟨token.TextToTokenType (String.mk ((c :: rest).takeWhile isLetter)),
        String.mk ((c :: rest).takeWhile isLetter)⟩,
      (c :: rest).dropWhile isLetter)
  else if isDigit c then
    (⟨token.INT, String.mk ((c :: rest).takeWhile isDigit)⟩, (c :: rest).dropWhile isDigit)
  else (⟨token.ILLEGAL, String.mk [c]⟩, rest)

/-- Modelled from the spec: the lexer operation `next_token` (package `lexer`,
whose source is not at hand). The state is the source text from the read
cursor on; the lexer advances past whitespace and emits the token on the
current character, or `EOF` with an empty literal at the end of input. The
result is the token and the state after it. -/
def NextToken (input : List Char) : token.Token × List Char :=
  match input.dropWhile isWhitespace with
  | [] => (⟨token.EOF, ""⟩, [])
  | c :: rest => readToken c rest

/-- Modelled from the spec: the token sequence `Lex(source)`, the tokens that
repeated `next_token` calls emit up to and including the first `EOF`. Each call
before `EOF` consumes a character, so `fuel` above the length of the input is
never used up. -/
def Tokens : Nat → List Char → List token.Token
  | 0, _ => [⟨token.EOF, ""⟩]
  | fuel + 1, input =>
    if (NextToken input).1.Type_ = token.EOF then [(NextToken input).1]
    else (NextToken input).1 :: Tokens fuel (NextToken input).2

/-- Modelled from the spec: the entry point `Lex(source) → tokens`. -/
def Lex (source : String) : List token.Token :=
  Tokens (source.data.length + 1) source.data

end lexer

namespace parser

open token ast

/-- Modelled from the spec: the precedence levels of the parser (package
`parser`, whose source is not at hand), lowest to highest: `LOWEST`. -/
def LOWEST : Nat := 1
/-- Modelled from the spec: the precedence level of `==` and `!=`. -/
def EQUALS : Nat := 2
/-- Modelled from the spec: the precedence level of `<` and `>`. -/
def LESSGREATER : Nat := 3
/-- Modelled from the spec: the precedence level of `+` and `-`. -/
def SUM : Nat := 4
/-- Modelled from the spec: the precedence level of `*` and `/`. -/
def PRODUCT : Nat := 5
/-- Modelled from the spec: the precedence level of the operators `!` and `-`
in front of an operand. -/
def PREFIX : Nat := 6
/-- Modelled from the spec: the precedence level of the `(` of a call. -/
def CALL : Nat := 7
/-- Modelled from the spec: the precedence level of the `[` of an index. -/
def INDEX : Nat := 8

/-- Modelled from the spec: the precedence table of the parser (package
`parser`, whose source is not at hand): the level of a token category as an
operator on the left, `LOWEST` for every category that is none. -/
def precedences (t : TokenType) : Nat :=
  if t = EQ ∨ t = NE then EQUALS
  else if t = token.LT ∨ t = token.GT then LESSGREATER
  else if t = PLUS ∨ t = MINUS then SUM
  else if t = ASTERISK ∨ t = SLASH then PRODUCT
  else if t = LPAREN then CALL
  else if t = LBRACKET then INDEX
  else LOWEST

/-- Modelled from the spec: the categories with a handler for an operator on
the left: the eight arithmetic and comparison operators, `(` and `[`. -/
def hasInfixHandler (t : TokenType) : Bool :=
  t = PLUS ∨ t = MINUS ∨ t = ASTERISK ∨ t = SLASH ∨ t = token.LT ∨ t = token.GT ∨ t = EQ ∨ t = NE
    ∨ t = LPAREN ∨ t = LBRACKET

/-- Modelled from the spec: the state of the parser. `tokens` is the token
stream from the current token on: its first element is the current token, its
second the peek token, and past its end every token is `EOF`. -/
structure Parser where
  tokens : List Token
  errors : List String

/-- Modelled from the spec: the current token. -/
def Parser.curToken (p : Parser) : Token := p.tokens.headD ⟨EOF, ""⟩

/-- Modelled from the spec: the peek token, one token ahead. -/
def Parser.peekToken (p : Parser) : Token := p.tokens.tail.headD ⟨EOF, ""⟩

/-- Modelled from the spec: `advance()` shifts peek into current. -/
def Parser.nextToken (p : Parser) : Parser := { p with tokens := p.tokens.tail }

/-- Modelled from the spec: appending a message to the error list. -/
def Parser.addError (p : Parser) (msg : String) : Parser :=
  { p with errors := p.errors ++ [msg] }

/-- Modelled from the spec: a missing-token condition: when the peek token has
the required category the parser advances, otherwise it appends an error
message (whose wording the specification leaves open). -/
def Parser.expectPeek (p : Parser) (t : TokenType) : Bool × Parser :=
  if p.peekToken.Type_ = t then (true, p.nextToken)
  else (false, p.addError
    ("expected next token to be " ++ t ++ ", got " ++ p.peekToken.Type_ ++ " instead"))

/-- Modelled from the spec: the value of a digit run as a 64-bit signed
integer, `none` when it does not fit. -/
def parseInt (literal : String) : Option Int :=
  let v : Nat := literal.data.foldl (fun acc c => 10 * acc + (c.toNat - '0'.toNat)) 0
  if v < 2 ^ 63 then some (v : Int) else none

/-- Modelled from the spec: the parameter list of a function literal after the
first parameter: further identifiers, each after a comma, up to the closing
parenthesis. The current token is the last parameter read. -/
def parseFunctionParametersRest :
    Nat → List Identifier → Parser → Option (List Identifier) × Parser
  | 0, _, p => (none, p.addError "out of fuel")
  | fuel + 1, acc, p =>
    if p.peekToken.Type_ = COMMA then
      let p1 := p.nextToken.nextToken
      if p1.curToken.Type_ = IDENT then
        parseFunctionParametersRest fuel (acc ++ [⟨p1.curToken, p1.curToken.Literal⟩]) p1
      else
        (none, p1.addError
          ("expected next token to be " ++ IDENT ++ ", got " ++ p1.curToken.Type_ ++ " instead"))
    else
      match p.expectPeek RPAREN with
      | (true, p1) => (some acc, p1)
      | (false, p1) => (none, p1)

/-- Modelled from the spec: the parameter list `( p1, p2, ... )` of a function
literal; the current token is the opening parenthesis and an empty list is
legal. -/
def parseFunctionParameters (p : Parser) : Option (List Identifier) × Parser :=
  if p.peekToken.Type_ = RPAREN then (some [], p.nextToken)
  else
    match p.expectPeek IDENT with
    | (true, p1) =>
      parseFunctionParametersRest p1.tokens.length [⟨p1.curToken, p1.curToken.Literal⟩] p1
    | (false, p1) => (none, p1)

mutual
/-- Modelled from the spec: `parse_expression(precedence)`: the handler of the
current category for an operand, then the loop over operators on the left.
`fuel` bounds the depth of the recursion; using it up is reported as an error. -/
def parseExpression : Nat → Nat → Parser → Option Expression × Parser
  | 0, _, p => (none, p.addError "out of fuel")
  | fuel + 1, precedence, p =>
    match parsePrefixExpression fuel p with
    | (some left, p1) => parseInfixLoop fuel precedence left p1
    | (none, p1) => (none, p1)
/-- Modelled from the spec: the handlers that start an expression, chosen by
the category of the current token; a category without one records the error
`no prefix parse function for <category>`. -/
def parsePrefixExpression : Nat → Parser → Option Expression × Parser
  | 0, p => (none, p.addError "out of fuel")
  | fuel + 1, p =>
    let tok := p.curToken
    if tok.Type_ = IDENT then (some (.Identifier ⟨tok, tok.Literal⟩), p)
    else if tok.Type_ = INT then
      match parseInt tok.Literal with
      | some v => (some (.IntegerLiteral tok v), p)
      | none => (none, p.addError ("could not parse " ++ tok.Literal ++ " as integer"))
    else if tok.Type_ = STRING then (some (.StringLiteral tok tok.Literal), p)
    else if tok.Type_ = TRUE ∨ tok.Type_ = FALSE then
      (some (.Boolean tok (decide (tok.Type_ = TRUE))), p)
    else if tok.Type_ = BANG ∨ tok.Type_ = MINUS then
      match parseExpression fuel PREFIX p.nextToken with
      | (some right, p1) => (some (.PrefixExpression tok tok.Literal right), p1)
      | (none, p1) => (none, p1)
    else if tok.Type_ = LPAREN then
      match parseExpression fuel LOWEST p.nextToken with
      | (some e, p1) =>
        (match p1.expectPeek RPAREN with
         | (true, p2) => (some e, p2)
         | (false, p2) => (none, p2))
      | (none, p1) => (none, p1)
    else if tok.Type_ = IF then
      match p.expectPeek LPAREN with
      | (false, p1) => (none, p1)
      | (true, p1) =>
        match parseExpression fuel LOWEST p1.nextToken with
        | (none, p2) => (none, p2)
        | (some condition, p2) =>
          match p2.expectPeek RPAREN with
          | (false, p3) => (none, p3)
          | (true, p3) =>
            match p3.expectPeek LBRACE with
            | (false, p4) => (none, p4)
            | (true, p4) =>
              match parseBlockStatement fuel p4 with
              | (none, p5) => (none, p5)
              | (some consequence, p5) =>
                if p5.peekToken.Type_ = ELSE then
                  match p5.nextToken.expectPeek LBRACE with
                  | (false, p6) => (none, p6)
                  | (true, p6) =>
                    match parseBlockStatement fuel p6 with
                    | (none, p7) => (none, p7)
                    | (some alternative, p7) =>
                      (some (.IfExpression tok condition consequence (some alternative)), p7)
                else (some (.IfExpression tok condition consequence none), p5)
    else if tok.Type_ = FUNCTION then
      match p.expectPeek LPAREN with
      | (false, p1) => (none, p1)
      | (true, p1) =>
        match parseFunctionParameters p1 with
        | (none, p2) => (none, p2)
        | (some parameters, p2) =>
          match p2.expectPeek LBRACE with
          | (false, p3) => (none, p3)
          | (true, p3) =>
            match parseBlockStatement fuel p3 with
            | (none, p4) => (none, p4)
            | (some body, p4) => (some (.FunctionLiteral tok parameters body), p4)
    else if tok.Type_ = LBRACKET then
      match parseExpressionList fuel RBRACKET p with
      | (some elements, p1) => (some (.ArrayLiteral tok elements), p1)
      | (none, p1) => (none, p1)
    else if tok.Type_ = LBRACE then
      if p.peekToken.Type_ = RBRACE then (some (.HashLiteral tok []), p.nextToken)
      else
        match parseHashPairs fuel [] p with
        | (some pairs, p1) => (some (.HashLiteral tok pairs), p1)
        | (none, p1) => (none, p1)
    else (none, p.addError ("no prefix parse function for " ++ tok.Type_))
/-- Modelled from the spec: step 3 of `parse_expression`: while the next token
is not a semicolon and its precedence is above `precedence`, look up the
handler for an operator on the left; without one return `left`, otherwise
advance and run it with `left` as its left-hand side. -/
def parseInfixLoop : Nat → Nat → Expression → Parser → Option Expression × Parser
  | fuel, precedence, left, p =>
    if p.peekToken.Type_ ≠ SEMICOLON ∧ precedence < precedences p.peekToken.Type_ then
      if hasInfixHandler p.peekToken.Type_ then
        match fuel with
        | 0 => (none, p.addError "out of fuel")
        | fuel + 1 =>
          match parseInfixExpression fuel left p.nextToken with
          | (some left2, p1) => parseInfixLoop fuel precedence left2 p1
          | (none, p1) => (none, p1)
      else (some left, p)
    else (some left, p)
/-- Modelled from the spec: the handlers for an operator on the left; the
current token is the operator, `(` or `[`. -/
def parseInfixExpression : Nat → Expression → Parser → Option Expression × Parser
  | 0, _, p => (none, p.addError "out of fuel")
  | fuel + 1, left, p =>
    let tok := p.curToken
    if tok.Type_ = LPAREN then
      match parseExpressionList fuel RPAREN p with
      | (some arguments, p1) => (some (.CallExpression tok left arguments), p1)
      | (none, p1) => (none, p1)
    else if tok.Type_ = LBRACKET then
      match parseExpression fuel LOWEST p.nextToken with
      | (some index, p1) =>
        (match p1.expectPeek RBRACKET with
         | (true, p2) => (some (.IndexExpression tok left index), p2)
         | (false, p2) => (none, p2))
      | (none, p1) => (none, p1)
    else
      match parseExpression fuel (precedences tok.Type_) p.nextToken with
      | (some right, p1) => (some (.InfixExpression tok left right tok.Literal), p1)
      | (none, p1) => (none, p1)
/-- Modelled from the spec: comma-separated expressions up to the category
`closing`; the current token is the opening one and an empty list is legal. -/
def parseExpressionList : Nat → TokenType → Parser → Option (List Expression) × Parser
  | 0, _, p => (none, p.addError "out of fuel")
  | fuel + 1, closing, p =>
    if p.peekToken.Type_ = closing then (some [], p.nextToken)
    else
      match parseExpression fuel LOWEST p.nextToken with
      | (some e, p1) => parseExpressionListRest fuel closing [e] p1
      | (none, p1) => (none, p1)
/-- Modelled from the spec: the expressions after the first of a
comma-separated list, then the required closing category. -/
def parseExpressionListRest :
    Nat → TokenType → List Expression → Parser → Option (List Expression) × Parser
  | 0, _, _, p => (none, p.addError "out of fuel")
  | fuel + 1, closing, acc, p =>
    if p.peekToken.Type_ = COMMA then
      match parseExpression fuel LOWEST p.nextToken.nextToken with
      | (some e, p1) => parseExpressionListRest fuel closing (acc ++ [e]) p1
      | (none, p1) => (none, p1)
    else
      match p.expectPeek closing with
      | (true, p1) => (some acc, p1)
      | (false, p1) => (none, p1)
/-- Modelled from the spec: comma-separated `<expr> : <expr>` pairs of a hash
literal up to `RBRACE`, in source order; the current token is the token before
the next key. -/
def parseHashPairs :
    Nat → List (Expression × Expression) → Parser →
      Option (List (Expression × Expression)) × Parser
  | 0, _, p => (none, p.addError "out of fuel")
  | fuel + 1, acc, p =>
    match parseExpression fuel LOWEST p.nextToken with
    | (none, p1) => (none, p1)
    | (some key, p1) =>
      match p1.expectPeek COLON with
      | (false, p2) => (none, p2)
      | (true, p2) =>
        match parseExpression fuel LOWEST p2.nextToken with
        | (none, p3) => (none, p3)
        | (some value, p3) =>
          if p3.peekToken.Type_ = RBRACE then (some (acc ++ [(key, value)]), p3.nextToken)
          else
            match p3.expectPeek COMMA with
            | (false, p4) => (none, p4)
            | (true, p4) => parseHashPairs fuel (acc ++ [(key, value)]) p4
/-- Modelled from the spec: the statement dispatch on the current category:
`let IDENT = <expression>`, `return <expression>` with the expression optional
before a semicolon, otherwise an expression statement; each consumes a trailing
semicolon when there is one. A let statement with a missing identifier, a
missing `=` or a failed expression is skipped (`none`). -/
def parseStatement : Nat → Parser → Option Statement × Parser
  | 0, p => (none, p.addError "out of fuel")
  | fuel + 1, p =>
    let tok := p.curToken
    if tok.Type_ = LET then
      match p.expectPeek IDENT with
      | (false, p1) => (none, p1)
      | (true, p1) =>
        let name : Identifier := ⟨p1.curToken, p1.curToken.Literal⟩
        match p1.expectPeek ASSIGN with
        | (false, p2) => (none, p2)
        | (true, p2) =>
          match parseExpression fuel LOWEST p2.nextToken with
          | (none, p3) => (none, p3)
          | (some value, p3) =>
            (some (.LetStatement tok name (some value)),
              if p3.peekToken.Type_ = SEMICOLON then p3.nextToken else p3)
    else if tok.Type_ = RETURN then
      if p.peekToken.Type_ = SEMICOLON then (some (.ReturnStatement tok none), p.nextToken)
      else
        match parseExpression fuel LOWEST p.nextToken with
        | (value, p1) =>
          (some (.ReturnStatement tok value),
            if p1.peekToken.Type_ = SEMICOLON then p1.nextToken else p1)
    else
      match parseExpression fuel LOWEST p with
      | (expression, p1) =>
        (some (.ExpressionStatement tok expression),
          if p1.peekToken.Type_ = SEMICOLON then p1.nextToken else p1)
/-- Modelled from the spec: a block `{ statements }`; the current token is the
opening brace, and the block ends at the closing brace or at the end of input. -/
def parseBlockStatement : Nat → Parser → Option BlockStatement × Parser
  | 0, p => (none, p.addError "out of fuel")
  | fuel + 1, p =>
    match parseBlockStatements fuel [] p.nextToken with
    | (some statements, p1) => (some (.mk p.curToken statements), p1)
    | (none, p1) => (none, p1)
/-- Modelled from the spec: the statements of a block, in order, until the
current token is `RBRACE` or `EOF`. -/
def parseBlockStatements : Nat → List Statement → Parser → Option (List Statement) × Parser
  | 0, _, p => (none, p.addError "out of fuel")
  | fuel + 1, acc, p =>
    if p.curToken.Type_ = RBRACE ∨ p.curToken.Type_ = EOF then (some acc, p)
    else
      match parseStatement fuel p with
      | (some s, p1) => parseBlockStatements fuel (acc ++ [s]) p1.nextToken
      | (none, p1) => parseBlockStatements fuel acc p1.nextToken
end

/-- Modelled from the spec: the loop of `parse_program`: statements are parsed
and collected in order until the current token is `EOF`; a skipped statement
adds nothing. -/
def parseProgramLoop : Nat → List Statement → Parser → List Statement × Parser
  | 0, acc, p => (acc, p.addError "out of fuel")
  | fuel + 1, acc, p =>
    if p.curToken.Type_ = EOF then (acc, p)
    else
      match parseStatement (4 * p.tokens.length + 4) p with
      | (some s, p1) => parseProgramLoop fuel (acc ++ [s]) p1.nextToken
      | (none, p1) => parseProgramLoop fuel acc p1.nextToken

/-- Modelled from the spec: the entry point `Parse(tokens) → program`, with the
list of error messages. -/
def ParseProgram (tokens : List Token) : Program × List String :=
  let r := parseProgramLoop (tokens.length + 1) [] ⟨tokens, []⟩
  (⟨r.1⟩, r.2.errors)

/-- Modelled from the spec: `parse(P)` for a source text `P`: lexing followed
by parsing. -/
def Parse (source : String) : Program × List String :=
  ParseProgram (lexer.Lex source)

end parser

namespace roundtrip

open token ast

/-- The tokens of the eight arithmetic and comparison operators, as the lexer
emits them. -/
def operatorTokens : List Token :=
  [⟨PLUS, "+"⟩, ⟨MINUS, "-"⟩, ⟨ASTERISK, "*"⟩, ⟨SLASH, "/"⟩, ⟨token.LT, "<"⟩,
   ⟨token.GT, ">"⟩, ⟨EQ, "=="⟩, ⟨NE, "!="⟩]

/-- A name the lexer reads as one identifier: a non-empty run of letters that
is no keyword. -/
def okName (s : String) : Bool :=
  !s.data.isEmpty && s.data.all lexer.isLetter && TextToTokenType s == IDENT

/-- An identifier node as the parser builds it from an `IDENT` token. -/
def okIdentifier (i : Identifier) : Bool :=
  i.Token == ⟨IDENT, i.Value⟩ && okName i.Value

mutual
/-- The expressions built from identifiers, integer literals, boolean literals,
prefix, infix, index and call expressions, array literals and hash literals,
each node carrying the token and the fields the parser gives it. -/
def okExpression : Expression → Bool
  | .Identifier i => okIdentifier i
  | .IntegerLiteral t v =>
      t.Type_ == INT && !t.Literal.data.isEmpty && t.Literal.data.all lexer.isDigit
        && parser.parseInt t.Literal == some v
  | .Boolean t v => (t == ⟨TRUE, "true"⟩ && v) || (t == ⟨FALSE, "false"⟩ && !v)
  | .PrefixExpression t op r =>
      (t == ⟨BANG, "!"⟩ || t == ⟨MINUS, "-"⟩) && op == t.Literal && okExpression r
  | .InfixExpression t l r op =>
      operatorTokens.contains t && op == t.Literal && okExpression l && okExpression r
  | .IndexExpression t l i => t == ⟨LBRACKET, "["⟩ && okExpression l && okExpression i
  | .CallExpression t f args => t == ⟨LPAREN, "("⟩ && okExpression f && okExpressions args
  | .ArrayLiteral t es => t == ⟨LBRACKET, "["⟩ && okExpressions es
  | .HashLiteral t ps => t == ⟨LBRACE, "\x7b"⟩ && okPairs ps
  | _ => false
/-- Every expression of the list is `okExpression`. -/
def okExpressions : List Expression → Bool
  | [] => true
  | e :: es => okExpression e && okExpressions es
/-- Every key and every value of the list of pairs is `okExpression`. -/
def okPairs : List (Expression × Expression) → Bool
  | [] => true
  | (k, v) :: ps => okExpression k && okExpression v && okPairs ps
end

mutual
/-- The token sequence of the canonical string of an `okExpression`. -/
def tokensOf : Expression → List Token
  | .Identifier i => [i.Token]
  | .IntegerLiteral t _ => [t]
  | .Boolean t _ => [t]
  | .PrefixExpression t _ r => ⟨LPAREN, "("⟩ :: t :: (tokensOf r ++ [⟨RPAREN, ")"⟩])
  | .InfixExpression t l r _ =>
      ⟨LPAREN, "("⟩ :: (tokensOf l ++ t :: (tokensOf r ++ [⟨RPAREN, ")"⟩]))
  | .IndexExpression t l i =>
      ⟨LPAREN, "("⟩ :: (tokensOf l ++ t :: (tokensOf i ++ [⟨RBRACKET, "]"⟩, ⟨RPAREN, ")"⟩]))
  | .CallExpression t f args => tokensOf f ++ t :: (listTokens args ++ [⟨RPAREN, ")"⟩])
  | .ArrayLiteral t es => t :: (listTokens es ++ [⟨RBRACKET, "]"⟩])
  | .HashLiteral t ps => t :: (pairTokens ps ++ [⟨RBRACE, "\x7d"⟩])
  | _ => []
/-- The token sequence of a comma-separated list of expressions. -/
def listTokens : List Expression → List Token
  | [] => []
  | e :: es => tokensOf e ++ commaTokens es
/-- The token sequence of the expressions after the first one of a list, each
preceded by its comma. -/
def commaTokens : List Expression → List Token
  | [] => []
  | e :: es => ⟨COMMA, ","⟩ :: (tokensOf e ++ commaTokens es)
/-- The token sequence of a comma-separated list of `key : value` pairs. -/
def pairTokens : List (Expression × Expression) → List Token
  | [] => []
  | (k, v) :: ps => tokensOf k ++ ⟨COLON, ":"⟩ :: (tokensOf v ++ commaPairTokens ps)
/-- The token sequence of the pairs after the first one of a list, each
preceded by its comma. -/
def commaPairTokens : List (Expression × Expression) → List Token
  | [] => []
  | (k, v) :: ps =>
      ⟨COMMA, ","⟩ :: (tokensOf k ++ ⟨COLON, ":"⟩ :: (tokensOf v ++ commaPairTokens ps))
end

/-- The last token of the canonical string of an expression. -/
def lastToken (e : Expression) : Token := (tokensOf e).getLastD ⟨EOF, ""⟩

/-- The number of call layers at the top of an expression, plus one: the fuel
`parseExpression` spends before its operator loop holds the expression. -/
def callDepth : Expression → Nat
  | .CallExpression _ f _ => callDepth f + 1
  | _ => 1

mutual
/-- Fuel that suffices for the operator loop after an expression was parsed. -/
def fuelFor : Expression → Nat
  | .PrefixExpression _ _ r => 3 + callDepth r + fuelFor r
  | .InfixExpression _ l r _ => 4 + callDepth l + callDepth r + fuelFor l + fuelFor r
  | .IndexExpression _ l i => 4 + callDepth l + callDepth i + fuelFor l + fuelFor i
  | .CallExpression _ f args => 3 + fuelFor f + listFuel args
  | .ArrayLiteral _ es => 3 + listFuel es
  | .HashLiteral _ ps => 3 + pairsFuel ps
  | _ => 1
/-- Fuel that suffices for a comma-separated list of expressions. -/
def listFuel : List Expression → Nat
  | [] => 1
  | e :: es => 1 + callDepth e + fuelFor e + listFuel es
/-- Fuel that suffices for a comma-separated list of pairs. -/
def pairsFuel : List (Expression × Expression) → Nat
  | [] => 1
  | (k, v) :: ps => 1 + callDepth k + fuelFor k + callDepth v + fuelFor v + pairsFuel ps
end

/-- The statements that parsing a canonical string gives back: a Let statement
with a value, a Return statement with a value or with none, and an Expression
statement whose token is the first token of its expression's canonical string;
every expression is `okExpression`. -/
def okStatement : Statement → Bool
  | .LetStatement t n (some v) => t == ⟨LET, "let"⟩ && okIdentifier n && okExpression v
  | .ReturnStatement t (some v) => t == ⟨RETURN, "return"⟩ && okExpression v
  | .ReturnStatement t none => t == ⟨RETURN, "return"⟩
  | .ExpressionStatement t (some e) => okExpression e && (tokensOf e).head? == some t
  | _ => false

/-- Two adjacent characters that the lexer keeps apart and that do not make
the second statement an operand of the first: the second is neither `(` nor
`[`, and the two are neither both letters nor both digits. -/
def separable (a b : Char) : Bool :=
  b != '(' && b != '[' && !(lexer.isLetter a && lexer.isLetter b)
    && !(lexer.isDigit a && lexer.isDigit b)

/-- The statement `next` can follow the statement `s` in a canonical string: a
Let or Return statement ends with `;` and can be followed by anything, while
the last character of an Expression statement and the first character of what
follows must be `separable`. -/
def canFollow (s next : Statement) : Bool :=
  match s with
  | .ExpressionStatement _ _ =>
    (match s.String.data.getLast?, next.String.data.head? with
     | some a, some b => separable a b
     | _, _ => false)
  | _ => true

/-- Every statement is `okStatement` and every statement `canFollow` its
predecessor. -/
def okStatements : List Statement → Bool
  | [] => true
  | s :: ss =>
    okStatement s && okStatements ss &&
      (match ss with
       | [] => true
       | next :: _ => canFollow s next)

/-- The programs whose statement sequence is `okStatements`. -/
def okProgram (p : Program) : Bool := okStatements p.Statements

/-- The token sequence of the canonical string of an `okStatement`. -/
def statementTokens : Statement → List Token
  | .LetStatement t n (some v) =>
      t :: n.Token :: ⟨ASSIGN, "="⟩ :: (tokensOf v ++ [⟨SEMICOLON, ";"⟩])
  | .ReturnStatement t (some v) => t :: (tokensOf v ++ [⟨SEMICOLON, ";"⟩])
  | .ReturnStatement t none => [t, ⟨SEMICOLON, ";"⟩]
  | .ExpressionStatement _ (some e) => tokensOf e
  | _ => []

/-- The token sequence of the canonical string of an `okProgram`, without the
closing `EOF`. -/
def programTokens : List Statement → List Token
  | [] => []
  | s :: ss => statementTokens s ++ programTokens ss

/-- With fuel `n` left for its operator loop, `parseExpression` reads the
tokens of `e` as the operand `e` and goes on with the operator loop. -/
def Reparses (n : Nat) (e : ast.Expression) : Prop :=
  ∀ (prec : Nat) (rest : List token.Token) (errs : List String), prec < parser.CALL →
    parser.parseExpression (n + callDepth e) prec ⟨tokensOf e ++ rest, errs⟩
      = parser.parseInfixLoop n prec e ⟨lastToken e :: rest, errs⟩

/-- The lexer reads the characters `cs`, in front of `tail`, as the tokens
`toks` and goes on with `tail`, one unit of fuel per token. -/
def LexesTo (cs : List Char) (toks : List token.Token) (tail : List Char) : Prop :=
  ∀ n, lexer.Tokens (n + toks.length) (cs ++ tail) = toks ++ lexer.Tokens n tail

/-- A rest of the input whose first character, if any, continues neither a
word nor a digit run. -/
def SafeTail (tail : List Char) : Prop :=
  ∀ c, tail.head? = some c → lexer.isLetter c = false ∧ lexer.isDigit c = false

/-- The last character of `cs` and the first character of `tail`, if both
exist, are neither both letters nor both digits, so that the lexer ends the
last token of `cs` where `cs` ends. -/
def Separated (cs tail : List Char) : Prop :=
  ∀ a b, cs.getLast? = some a → tail.head? = some b →
    (lexer.isLetter a = true → lexer.isLetter b = false)
      ∧ (lexer.isDigit a = true → lexer.isDigit b = false)

end roundtrip
namespace token

/-- C1: `TextToTokenType` maps each of the seven keywords to its own category
and every other text to `IDENT`; the result is `IDENT` exactly when the text is
none of the seven case-sensitive keyword spellings. -/
theorem TextToTokenType_keywords_else_IDENT (w : String) :
    TextToTokenType w =
      (if w = "fn" then "FUNCTION" else if w = "let" then "LET"
       else if w = "true" then "TRUE" else if w = "false" then "FALSE"
       else if w = "if" then "IF" else if w = "else" then "ELSE"
       else if w = "return" then "RETURN" else "IDENT")
    ∧ (TextToTokenType w = IDENT ↔
        ¬ (w = "fn" ∨ w = "let" ∨ w = "true" ∨ w = "false" ∨ w = "if" ∨ w = "else"
            ∨ w = "return")) := by
  have key : TextToTokenType w =
      (if w = "fn" then "FUNCTION" else if w = "let" then "LET"
       else if w = "true" then "TRUE" else if w = "false" then "FALSE"
       else if w = "if" then "IF" else if w = "else" then "ELSE"
       else if w = "return" then "RETURN" else "IDENT") := by
    simp only [TextToTokenType, keywords, List.lookup, FUNCTION, LET, TRUE, FALSE, IF, ELSE,
      RETURN, IDENT]
    by_cases h1 : w = "fn"
    · subst h1; rfl
    by_cases h2 : w = "let"
    · subst h2; rfl
    by_cases h3 : w = "true"
    · subst h3; rfl
    by_cases h4 : w = "false"
    · subst h4; rfl
    by_cases h5 : w = "if"
    · subst h5; rfl
    by_cases h6 : w = "else"
    · subst h6; rfl
    by_cases h7 : w = "return"
    · subst h7; rfl
    have e1 : (w == "fn") = false := by simpa using h1
    have e2 : (w == "let") = false := by simpa using h2
    have e3 : (w == "true") = false := by simpa using h3
    have e4 : (w == "false") = false := by simpa using h4
    have e5 : (w == "if") = false := by simpa using h5
    have e6 : (w == "else") = false := by simpa using h6
    have e7 : (w == "return") = false := by simpa using h7
    simp [e1, e2, e3, e4, e5, e6, e7, h1, h2, h3, h4, h5, h6, h7]
  refine ⟨key, ?_⟩
  rw [key]
  simp only [IDENT]
  constructor
  · intro h hw
    rcases hw with h1 | h1 | h1 | h1 | h1 | h1 | h1 <;> subst h1 <;> revert h <;> decide
  · intro h
    simp only [not_or] at h
    obtain ⟨h1, h2, h3, h4, h5, h6, h7⟩ := h
    simp [h1, h2, h3, h4, h5, h6, h7]

end token

namespace object

/-- C2: for a 64-bit signed integer `n`, the HashKey of `Integer n` carries the
Integer type tag and the value `n mod 2^64`, the two's-complement reading of
`n` as an unsigned 64-bit integer; 5 maps to 5 and -1 to 18446744073709551615. -/
theorem Integer_HashKey_bitcast (n : Int) (hlo : -(2 : Int) ^ 63 ≤ n) (hhi : n < (2 : Int) ^ 63) :
    (Integer_HashKey n).Type_ = "INTEGER"
    ∧ ((Integer_HashKey n).Value : Int) = n % 2 ^ 64
    ∧ (Integer_HashKey n).Value < 2 ^ 64
    ∧ ((Integer_HashKey n).Value : Int) = (if 0 ≤ n then n else n + 2 ^ 64)
    ∧ Integer_HashKey 5 = ⟨"INTEGER", 5⟩
    ∧ Integer_HashKey (-1) = ⟨"INTEGER", 18446744073709551615⟩ := by
  have hmod : ((Integer_HashKey n).Value : Int) = n % 2 ^ 64 := by
    show (((n % 2 ^ 64).toNat : Nat) : Int) = n % 2 ^ 64
    exact Int.toNat_of_nonneg (Int.emod_nonneg _ (by norm_num))
  refine ⟨rfl, hmod, ?_, ?_, by decide, by decide⟩
  · have h2 : n % 2 ^ 64 < 2 ^ 64 := Int.emod_lt_of_pos _ (by norm_num)
    have h3 : ((Integer_HashKey n).Value : Int) < 2 ^ 64 := by rw [hmod]; exact h2
    exact_mod_cast h3
  · rw [hmod]
    split_ifs with h
    · exact Int.emod_eq_of_lt h (by omega)
    · have : (n + 2 ^ 64) % 2 ^ 64 = n + 2 ^ 64 :=
        Int.emod_eq_of_lt (by omega) (by omega)
      rw [← this]
      simp

/-- Witness of C2 at `n = -1`. -/
theorem Integer_HashKey_bitcast_witness :
    (-(2 : Int) ^ 63 ≤ -1 ∧ (-1 : Int) < (2 : Int) ^ 63)
    ∧ ((Integer_HashKey (-1)).Value : Int) = (-1) % 2 ^ 64
    ∧ ((Integer_HashKey (-1)).Value : Int) = -1 + 2 ^ 64 :=
  ⟨⟨by decide, by decide⟩,
   (Integer_HashKey_bitcast (-1) (by decide) (by decide)).2.1,
   (Integer_HashKey_bitcast (-1) (by decide) (by decide)).2.2.2.1⟩

theorem fnv_Write_eq_foldl (data : List Nat) (h : Nat) :
    fnv.Write h data
      = data.foldl (fun h byte => ((h ^^^ byte) * 1099511628211) % 2 ^ 64) h := by
  induction data generalizing h with
  | nil => rfl
  | cons c data ih => simp only [fnv.Write, List.foldl_cons, ih, fnv.prime64]

/-- C3: the HashKey of `String s` carries the String type tag and the 64-bit
FNV-1a hash of the bytes of `s`; the empty string hashes to the offset basis
and String values of equal content have equal HashKeys. -/
theorem String_HashKey_fnv1a64 (s : String) :
    (String_HashKey s).Type_ = "STRING"
    ∧ (String_HashKey s).Value = spec.FNV1a64 (bytes s)
    ∧ (String_HashKey "").Value = 14695981039346656037
    ∧ ∀ t : String, s = t → String_HashKey s = String_HashKey t := by
  refine ⟨rfl, ?_, by decide, ?_⟩
  · simp only [String_HashKey, fnv.Sum64, fnv.New64a, fnv.offset64, spec.FNV1a64,
      fnv_Write_eq_foldl]
  · intro t h
    rw [h]

/-- Witness of C3 at the string `a`, with the published FNV-1a test vector. -/
theorem String_HashKey_fnv1a64_witness :
    String_HashKey "a" = String_HashKey "a"
    ∧ (String_HashKey "a").Value = spec.FNV1a64 [97]
    ∧ spec.FNV1a64 [97] = 0xaf63dc4c8601ec8c :=
  ⟨(String_HashKey_fnv1a64 "a").2.2.2 "a" rfl, (String_HashKey_fnv1a64 "a").2.1, by decide⟩

/-- C4: the HashKey of `Boolean true` is the Boolean tag with value 1, that of
`Boolean false` the Boolean tag with value 0, and the two differ. -/
theorem Boolean_HashKey_values :
    Boolean_HashKey true = ⟨"BOOLEAN", 1⟩
    ∧ Boolean_HashKey false = ⟨"BOOLEAN", 0⟩
    ∧ Boolean_HashKey true ≠ Boolean_HashKey false := by
  decide

/-- C5: an object has a HashKey exactly when it is an Integer, a Boolean or a
String; Null, Array, Hash, Function, Built-in, ReturnValue and Error have none. -/
theorem Hashable_iff_Integer_Boolean_String {Environment BuiltInFunction : Type}
    (o : Object Environment BuiltInFunction) :
    ((Hashable_HashKey o).isSome ↔
        ((∃ v, o = .Integer v) ∨ (∃ v, o = .Boolean v) ∨ (∃ v, o = .String v)))
    ∧ Hashable_HashKey (.Null : Object Environment BuiltInFunction) = none
    ∧ (∀ es, Hashable_HashKey (.Array es : Object Environment BuiltInFunction) = none)
    ∧ (∀ ps, Hashable_HashKey (.Hash ps : Object Environment BuiltInFunction) = none)
    ∧ (∀ ps body env,
        Hashable_HashKey (.Function ps body env : Object Environment BuiltInFunction) = none)
    ∧ (∀ f, Hashable_HashKey (.BuiltIn f : Object Environment BuiltInFunction) = none)
    ∧ (∀ v, Hashable_HashKey (.ReturnValue v : Object Environment BuiltInFunction) = none)
    ∧ (∀ m, Hashable_HashKey (.Error m : Object Environment BuiltInFunction) = none) := by
  refine ⟨?_, rfl, fun _ => rfl, fun _ => rfl, fun _ _ _ => rfl, fun _ => rfl, fun _ => rfl,
    fun _ => rfl⟩
  cases o <;> simp [Hashable_HashKey]

end object

namespace object

/-- C6: the type tags the code returns for Array, Hash and Built-in values are
the strings `ARRAY_OBJ`, `HASH_OBJ` and `BUILTIN_OBJ`, none of which is the tag
`ARRAY`, `HASH` or `BUILTIN`. -/
theorem Type_Array_Hash_BuiltIn_suffixed {Environment BuiltInFunction : Type}
    (es : List (Object Environment BuiltInFunction))
    (ps : List (HashKey × HashPair Environment BuiltInFunction)) (f : BuiltInFunction) :
    (Type_ (.Array es : Object Environment BuiltInFunction) = "ARRAY_OBJ"
      ∧ Type_ (.Array es : Object Environment BuiltInFunction) ≠ "ARRAY")
    ∧ (Type_ (.Hash ps : Object Environment BuiltInFunction) = "HASH_OBJ"
      ∧ Type_ (.Hash ps : Object Environment BuiltInFunction) ≠ "HASH")
    ∧ (Type_ (.BuiltIn f : Object Environment BuiltInFunction) = "BUILTIN_OBJ"
      ∧ Type_ (.BuiltIn f : Object Environment BuiltInFunction) ≠ "BUILTIN") := by
  refine ⟨⟨rfl, ?_⟩, ⟨rfl, ?_⟩, ⟨rfl, ?_⟩⟩ <;> simp only [Type_] <;> decide

/-- C7: the type tag is `INTEGER` for an Integer, `BOOLEAN` for a Boolean,
`NULL` for Null, `STRING` for a String and `FUNCTION` for a Function, and the
tag stored in the HashKey of a hashable object is the object's own type tag. -/
theorem Type_tags_and_HashKey_tag {Environment BuiltInFunction : Type} :
    (∀ v, Type_ (.Integer v : Object Environment BuiltInFunction) = "INTEGER")
    ∧ (∀ v, Type_ (.Boolean v : Object Environment BuiltInFunction) = "BOOLEAN")
    ∧ Type_ (.Null : Object Environment BuiltInFunction) = "NULL"
    ∧ (∀ v, Type_ (.String v : Object Environment BuiltInFunction) = "STRING")
    ∧ (∀ ps body env,
        Type_ (.Function ps body env : Object Environment BuiltInFunction) = "FUNCTION")
    ∧ (∀ (o : Object Environment BuiltInFunction) (k : HashKey),
        Hashable_HashKey o = some k → k.Type_ = Type_ o) := by
  refine ⟨fun _ => rfl, fun _ => rfl, rfl, fun _ => rfl, fun _ _ _ => rfl, ?_⟩
  intro o k h
  cases o <;> simp only [Hashable_HashKey, Option.some.injEq, reduceCtorEq] at h
    <;> subst h <;> rfl

/-- Witness of C7 at the object `String "one"`. -/
theorem Type_tags_and_HashKey_tag_witness :
    Hashable_HashKey (.String "one" : Object Unit Unit) = some (String_HashKey "one")
    ∧ (String_HashKey "one").Type_ = Type_ (.String "one" : Object Unit Unit) :=
  ⟨rfl, Type_tags_and_HashKey_tag.2.2.2.2.2 (.String "one") (String_HashKey "one") rfl⟩

/-- C8: an Error with message `m` inspects as `ERROR: ` followed by `m`. -/
theorem Error_Inspect {Environment BuiltInFunction : Type} (m : String) :
    Inspect (.Error m : Object Environment BuiltInFunction) = "ERROR: " ++ m
    ∧ Inspect (.Error "unusable as hash key: FUNCTION" : Object Environment BuiltInFunction)
        = "ERROR: unusable as hash key: FUNCTION" := by
  constructor
  · simp only [Inspect]
  · simp only [Inspect]; decide

end object

namespace strings

theorem intercalate_go_eq_foldl (sep : String) (rest : List String) (acc : String) :
    String.intercalate.go acc sep rest = rest.foldl (fun b s => b ++ sep ++ s) acc := by
  induction rest generalizing acc with
  | nil => rfl
  | cons a rest ih => simp only [String.intercalate.go, List.foldl_cons, ih]

theorem Join_eq_intercalate (elems : List String) (sep : String) :
    Join elems sep = sep.intercalate elems := by
  cases elems with
  | nil => rfl
  | cons e rest => simp only [Join, String.intercalate, intercalate_go_eq_foldl]

end strings

namespace object

theorem Elements_Inspect_eq_map {Environment BuiltInFunction : Type}
    (es : List (Object Environment BuiltInFunction)) :
    Elements_Inspect es = es.map Inspect := by
  induction es with
  | nil => simp only [Elements_Inspect, List.map_nil]
  | cons e es ih => simp only [Elements_Inspect, List.map_cons, ih]

/-- C9: an Array inspects as `[`, then the Inspect strings of its elements in
order separated by `, `, then `]`; the empty array inspects as `[]`, the array
of the Integers 3 and 4 as `[3, 4]`, and Null as `null`. -/
theorem Array_Inspect {Environment BuiltInFunction : Type}
    (es : List (Object Environment BuiltInFunction)) :
    Inspect (.Array es) = "[" ++ ", ".intercalate (es.map Inspect) ++ "]"
    ∧ Inspect (.Array [] : Object Environment BuiltInFunction) = "[]"
    ∧ Inspect (.Array [.Integer 3, .Integer 4] : Object Environment BuiltInFunction) = "[3, 4]"
    ∧ Inspect (.Null : Object Environment BuiltInFunction) = "null" := by
  refine ⟨?_, ?_, ?_, ?_⟩
  · simp only [Inspect, Elements_Inspect_eq_map, strings.Join_eq_intercalate]
  · simp only [Inspect, Elements_Inspect]; decide
  · simp only [Inspect, Elements_Inspect]; decide
  · simp only [Inspect]

end object

namespace ast

theorem getLast_append_semicolon (s : String) : (s ++ ";").data.getLast? = some ';' := by
  rw [String.data_append]
  show (s.data ++ [';']).getLast? = some ';'
  simp

/-- C10 as stated fails: the expression statement holding the identifier `a`
has the canonical string `a`, which does not end with a semicolon. -/
theorem ExpressionStatement_String_not_terminated :
    (Statement.ExpressionStatement ⟨token.IDENT, "a"⟩
        (some (.Identifier ⟨⟨token.IDENT, "a"⟩, "a"⟩))).String = "a"
    ∧ (Statement.ExpressionStatement ⟨token.IDENT, "a"⟩
        (some (.Identifier ⟨⟨token.IDENT, "a"⟩, "a"⟩))).String.data.getLast? ≠ some ';' := by
  decide

/-- C10 amended: the canonical string of every Let statement and of every
Return statement ends with a semicolon, while that of an Expression statement
is the canonical string of its expression (empty when there is none) with no
terminator added. -/
theorem Let_Return_String_terminated (t : token.Token) (n : Identifier)
    (v : Option Expression) :
    (Statement.LetStatement t n v).String.data.getLast? = some ';'
    ∧ (Statement.ReturnStatement t v).String.data.getLast? = some ';'
    ∧ (∀ e, (Statement.ExpressionStatement t (some e)).String = e.String)
    ∧ (Statement.ExpressionStatement t none).String = "" := by
  refine ⟨?_, ?_, ?_, ?_⟩
  · simp only [Statement.String]; exact getLast_append_semicolon _
  · simp only [Statement.String]; exact getLast_append_semicolon _
  · intro e; simp only [Statement.String, Value_String]
  · simp only [Statement.String, Value_String]

end ast

namespace ast

theorem Expressions_Strings_eq_map (es : List Expression) :
    Expressions_Strings es = es.map Expression.String := by
  induction es with
  | nil => simp only [Expressions_Strings, List.map_nil]
  | cons e es ih => simp only [Expressions_Strings, List.map_cons, ih]

theorem join_foldl_append (l : List String) (acc : String) :
    l.foldl (fun r s => r ++ s) acc = acc ++ String.join l := by
  induction l generalizing acc with
  | nil => simp [String.join]
  | cons a l ih =>
    simp only [List.foldl_cons, String.join]
    rw [ih (acc ++ a), ih ("" ++ a)]
    simp [String.append_assoc]

theorem Statements_String_eq_join (ss : List Statement) :
    Statements_String ss = String.join (ss.map Statement.String) := by
  induction ss with
  | nil => simp [Statements_String, String.join]
  | cons s ss ih =>
    simp only [Statements_String, List.map_cons, ih]
    show s.String ++ String.join _ = List.foldl (fun r s => r ++ s) ("" ++ s.String) _
    rw [join_foldl_append]
    simp

/-- C11: an Infix expression renders as `(` left ` ` operator ` ` right `)`, a
Prefix expression as `(` operator right `)` and an Index expression as
`(` left `[` index `])`; the tree of `a + b * c` renders as `(a + (b * c))`. -/
theorem Infix_Prefix_Index_String (t : token.Token) (l r : Expression) (op : String) :
    (Expression.InfixExpression t l r op).String
        = "(" ++ l.String ++ " " ++ op ++ " " ++ r.String ++ ")"
    ∧ (Expression.PrefixExpression t op r).String = "(" ++ op ++ r.String ++ ")"
    ∧ (Expression.IndexExpression t l r).String = "(" ++ l.String ++ "[" ++ r.String ++ "])"
    ∧ (Expression.InfixExpression ⟨token.PLUS, "+"⟩
          (.Identifier ⟨⟨token.IDENT, "a"⟩, "a"⟩)
          (.InfixExpression ⟨token.ASTERISK, "*"⟩
            (.Identifier ⟨⟨token.IDENT, "b"⟩, "b"⟩)
            (.Identifier ⟨⟨token.IDENT, "c"⟩, "c"⟩) "*") "+").String = "(a + (b * c))" := by
  refine ⟨?_, ?_, ?_, by decide⟩
  · simp only [Expression.String, String.append_assoc]
  · simp only [Expression.String]
  · simp only [Expression.String]

/-- C12: an If expression renders as `if`, the condition, a space and the
consequence block, followed by `else ` and the alternative block when there is
one; a block renders as the concatenation of its statements' strings, without
braces. -/
theorem If_String (t : token.Token) (c : Expression) (B A : BlockStatement)
    (tb : token.Token) (ss : List Statement) :
    (Expression.IfExpression t c B (some A)).String
        = "if" ++ c.String ++ " " ++ B.String ++ "else " ++ A.String
    ∧ (Expression.IfExpression t c B none).String = "if" ++ c.String ++ " " ++ B.String
    ∧ (BlockStatement.mk tb ss).String = String.join (ss.map Statement.String) := by
  refine ⟨?_, ?_, ?_⟩
  · simp only [Expression.String, Alternative_String, String.append_assoc]
  · simp [Expression.String, Alternative_String]
  · simp only [BlockStatement.String, Statements_String_eq_join]

/-- C13: a function literal whose token literal is `fn` renders as `fn(`, the
parameter names joined by `, `, `)` and the body block; with no parameter it
renders as `fn()` followed by the body block. -/
theorem FunctionLiteral_String (t : token.Token) (ps : List Identifier) (B : BlockStatement)
    (ht : t.Literal = "fn") :
    (Expression.FunctionLiteral t ps B).String
        = "fn(" ++ ", ".intercalate (ps.map (fun p => p.Value)) ++ ")" ++ B.String
    ∧ (Expression.FunctionLiteral t [] B).String = "fn()" ++ B.String := by
  constructor
  · simp only [Expression.String, ht, Parameters_Strings, strings.Join_eq_intercalate]
    rfl
  · simp only [Expression.String, ht, Parameters_Strings, strings.Join, List.map_nil]
    rfl

/-- Witness of C13 at the literal with the parameters `x` and `y` and the body
block holding the expression statement `x`. -/
theorem FunctionLiteral_String_witness :
    (Expression.FunctionLiteral ⟨token.FUNCTION, "fn"⟩
        [⟨⟨token.IDENT, "x"⟩, "x"⟩, ⟨⟨token.IDENT, "y"⟩, "y"⟩]
        (.mk ⟨token.LBRACE, "\x7b"⟩
          [.ExpressionStatement ⟨token.IDENT, "x"⟩ (some (.Identifier ⟨⟨token.IDENT, "x"⟩, "x"⟩))])).String
      = "fn(" ++ ", ".intercalate ["x", "y"] ++ ")" ++ "x" :=
  (FunctionLiteral_String ⟨token.FUNCTION, "fn"⟩
    [⟨⟨token.IDENT, "x"⟩, "x"⟩, ⟨⟨token.IDENT, "y"⟩, "y"⟩]
    (.mk ⟨token.LBRACE, "\x7b"⟩
      [.ExpressionStatement ⟨token.IDENT, "x"⟩ (some (.Identifier ⟨⟨token.IDENT, "x"⟩, "x"⟩))])
    rfl).1

/-- C15: a Let statement renders as token literal, space, name, ` = `, the
value's string and `;`, a Return statement as token literal, space, the value's
string and `;`; an absent value renders as the empty string, so a bare return
is `return ;` and a let without value `let x = ;`. -/
theorem Let_Return_String_form (t : token.Token) (n : Identifier) (v : Expression) :
    (Statement.LetStatement t n (some v)).String
        = t.Literal ++ " " ++ n.Value ++ " = " ++ v.String ++ ";"
    ∧ (Statement.ReturnStatement t (some v)).String = t.Literal ++ " " ++ v.String ++ ";"
    ∧ (Statement.LetStatement t n none).String = t.Literal ++ " " ++ n.Value ++ " = " ++ "" ++ ";"
    ∧ (Statement.ReturnStatement t none).String = t.Literal ++ " " ++ "" ++ ";"
    ∧ (Statement.LetStatement ⟨token.LET, "let"⟩ ⟨⟨token.IDENT, "x"⟩, "x"⟩
          (some (.IntegerLiteral ⟨token.INT, "5"⟩ 5))).String = "let x = 5;"
    ∧ (Statement.ReturnStatement ⟨token.RETURN, "return"⟩ none).String = "return ;"
    ∧ (Statement.LetStatement ⟨token.LET, "let"⟩ ⟨⟨token.IDENT, "x"⟩, "x"⟩ none).String
        = "let x = ;" := by
  refine ⟨?_, ?_, ?_, ?_, by decide, by decide, by decide⟩ <;>
    simp only [Statement.String, Value_String, Identifier.String]

end ast

namespace object

/-- C16: on 64-bit signed integers the Integer HashKey is injective: the
HashKeys of `Integer a` and `Integer b` are equal exactly when `a = b`. -/
theorem Integer_HashKey_injective (a b : Int)
    (ha : -(2 : Int) ^ 63 ≤ a ∧ a < (2 : Int) ^ 63)
    (hb : -(2 : Int) ^ 63 ≤ b ∧ b < (2 : Int) ^ 63) :
    Integer_HashKey a = Integer_HashKey b ↔ a = b := by
  constructor
  · intro h
    have hv : uint64 a = uint64 b := congrArg HashKey.Value h
    have hz : ((uint64 a : Nat) : Int) = ((uint64 b : Nat) : Int) := by rw [hv]
    have ea : ((uint64 a : Nat) : Int) = a % 2 ^ 64 :=
      Int.toNat_of_nonneg (Int.emod_nonneg _ (by norm_num))
    have eb : ((uint64 b : Nat) : Int) = b % 2 ^ 64 :=
      Int.toNat_of_nonneg (Int.emod_nonneg _ (by norm_num))
    rw [ea, eb] at hz
    obtain ⟨ha1, ha2⟩ := ha
    obtain ⟨hb1, hb2⟩ := hb
    omega
  · intro h
    rw [h]

/-- Witness of C16 at the integers -1 and 5. -/
theorem Integer_HashKey_injective_witness :
    ((-(2 : Int) ^ 63 ≤ -1 ∧ (-1 : Int) < (2 : Int) ^ 63)
      ∧ (-(2 : Int) ^ 63 ≤ 5 ∧ (5 : Int) < (2 : Int) ^ 63))
    ∧ (Integer_HashKey (-1) = Integer_HashKey 5 ↔ (-1 : Int) = 5) :=
  ⟨⟨⟨by decide, by decide⟩, ⟨by decide, by decide⟩⟩,
   Integer_HashKey_injective (-1) 5 ⟨by decide, by decide⟩ ⟨by decide, by decide⟩⟩

/-- C17: the HashKeys of an Integer, a Boolean and a String are pairwise
different, because their type tags differ; Integer 1 and Boolean true both
carry the value 1 and still have different HashKeys. -/
theorem HashKey_kinds_disjoint (i : Int) (b : Bool) (s : String) :
    Integer_HashKey i ≠ Boolean_HashKey b
    ∧ Integer_HashKey i ≠ String_HashKey s
    ∧ Boolean_HashKey b ≠ String_HashKey s
    ∧ (Integer_HashKey i).Type_ ≠ (Boolean_HashKey b).Type_
    ∧ (Integer_HashKey i).Type_ ≠ (String_HashKey s).Type_
    ∧ (Boolean_HashKey b).Type_ ≠ (String_HashKey s).Type_
    ∧ (Integer_HashKey 1).Value = 1 ∧ (Boolean_HashKey true).Value = 1
    ∧ Integer_HashKey 1 ≠ Boolean_HashKey true := by
  have h1 : (Integer_HashKey i).Type_ ≠ (Boolean_HashKey b).Type_ := by
    show INTEGER_OBJ ≠ BOOLEAN_OBJ
    decide
  have h2 : (Integer_HashKey i).Type_ ≠ (String_HashKey s).Type_ := by
    show INTEGER_OBJ ≠ STRING_OBJ
    decide
  have h3 : (Boolean_HashKey b).Type_ ≠ (String_HashKey s).Type_ := by
    show BOOLEAN_OBJ ≠ STRING_OBJ
    decide
  exact ⟨fun h => h1 (congrArg HashKey.Type_ h), fun h => h2 (congrArg HashKey.Type_ h),
    fun h => h3 (congrArg HashKey.Type_ h), h1, h2, h3, by decide, by decide, by decide⟩

theorem fnv_Write_lt (data : List Nat) (h : Nat) (hh : h < 2 ^ 64) :
    fnv.Write h data < 2 ^ 64 := by
  induction data generalizing h with
  | nil => exact hh
  | cons c data ih =>
    simp only [fnv.Write]
    exact ih _ (Nat.mod_lt _ (by norm_num))

theorem String_HashKey_Value_lt (s : String) : (String_HashKey s).Value < 2 ^ 64 := by
  show fnv.Write fnv.New64a (bytes s) < 2 ^ 64
  exact fnv_Write_lt _ _ (by decide)

/-- C18: the String HashKey is not injective: two String values of different
content have equal HashKeys, and already among the sequences of nine bytes two
different ones receive the same 64-bit FNV-1a value. -/
theorem String_HashKey_not_injective :
    (∃ s t : String, s ≠ t ∧ String_HashKey s = String_HashKey t)
    ∧ (∃ d e : List Nat, d.length = 9 ∧ e.length = 9 ∧ (∀ x ∈ d, x < 256)
        ∧ (∀ x ∈ e, x < 256) ∧ d ≠ e
        ∧ fnv.Sum64 (fnv.Write fnv.New64a d) = fnv.Sum64 (fnv.Write fnv.New64a e)) := by
  constructor
  · let f : ℕ → Fin (2 ^ 64) := fun n =>
      ⟨(String_HashKey (String.mk (List.replicate n 'a'))).Value, String_HashKey_Value_lt _⟩
    obtain ⟨x, y, hxy, hf⟩ := Finite.exists_ne_map_eq_of_infinite f
    refine ⟨String.mk (List.replicate x 'a'), String.mk (List.replicate y 'a'), ?_, ?_⟩
    · intro h
      apply hxy
      have h2 := congrArg (fun s : String => s.data.length) h
      simpa using h2
    · have hv : (String_HashKey (String.mk (List.replicate x 'a'))).Value
          = (String_HashKey (String.mk (List.replicate y 'a'))).Value :=
        congrArg Fin.val hf
      show HashKey.mk STRING_OBJ _ = HashKey.mk STRING_OBJ _
      exact congrArg (HashKey.mk STRING_OBJ) hv
  · let g : (Fin 9 → Fin 256) → Fin (2 ^ 64) := fun v =>
      ⟨fnv.Write fnv.New64a ((List.ofFn v).map Fin.val), fnv_Write_lt _ _ (by decide)⟩
    have hcard : Fintype.card (Fin (2 ^ 64)) < Fintype.card (Fin 9 → Fin 256) := by
      simp only [Fintype.card_fun, Fintype.card_fin]
      norm_num
    obtain ⟨v, w, hvw, hg⟩ := Fintype.exists_ne_map_eq_of_card_lt g hcard
    refine ⟨(List.ofFn v).map Fin.val, (List.ofFn w).map Fin.val, by simp, by simp, ?_, ?_, ?_,
      congrArg Fin.val hg⟩
    · intro x hx
      obtain ⟨a, _, rfl⟩ := List.mem_map.mp hx
      exact a.isLt
    · intro x hx
      obtain ⟨a, _, rfl⟩ := List.mem_map.mp hx
      exact a.isLt
    · intro h
      apply hvw
      have h2 : List.ofFn v = List.ofFn w :=
        List.map_injective_iff.mpr Fin.val_injective h
      exact List.ofFn_injective h2

end object

namespace ast

/-- C19 as stated fails: a string literal and an identifier with the same token
literal `a` render differently when the identifier's value is `b`, because an
identifier renders its value and not its token literal. -/
theorem StringLiteral_Identifier_String_differ :
    (Expression.StringLiteral ⟨token.STRING, "a"⟩ "a").TokenLiteral
        = (Expression.Identifier ⟨⟨token.IDENT, "a"⟩, "b"⟩).TokenLiteral
    ∧ (Expression.StringLiteral ⟨token.STRING, "a"⟩ "a").String = "a"
    ∧ (Expression.Identifier ⟨⟨token.IDENT, "a"⟩, "b"⟩).String = "b"
    ∧ (Expression.StringLiteral ⟨token.STRING, "a"⟩ "a").String
        ≠ (Expression.Identifier ⟨⟨token.IDENT, "a"⟩, "b"⟩).String := by
  decide

/-- C19 amended: the canonical string form is not injective: the program of the
two expression statements `a` and `b` and the program of the single expression
statement `ab` have different statement sequences and both render as `ab`, and
a string literal renders exactly as every identifier whose value is the string
literal's token literal, whatever token the identifier carries. -/
theorem Program_String_not_injective :
    (∃ p q : Program, p.Statements ≠ q.Statements ∧ p.String = q.String)
    ∧ (Program.mk
          [.ExpressionStatement ⟨token.IDENT, "a"⟩ (some (.Identifier ⟨⟨token.IDENT, "a"⟩, "a"⟩)),
           .ExpressionStatement ⟨token.IDENT, "b"⟩
             (some (.Identifier ⟨⟨token.IDENT, "b"⟩, "b"⟩))]).String = "ab"
    ∧ (Program.mk
          [.ExpressionStatement ⟨token.IDENT, "ab"⟩
             (some (.Identifier ⟨⟨token.IDENT, "ab"⟩, "ab"⟩))]).String = "ab"
    ∧ (∀ (ts : token.Token) (v : String) (i : Identifier),
        i.Value = (Expression.StringLiteral ts v).TokenLiteral →
        Expression.StringLiteral ts v ≠ Expression.Identifier i
        ∧ (Expression.StringLiteral ts v).String = (Expression.Identifier i).String) := by
  refine ⟨⟨Program.mk
      [.ExpressionStatement ⟨token.IDENT, "a"⟩ (some (.Identifier ⟨⟨token.IDENT, "a"⟩, "a"⟩)),
       .ExpressionStatement ⟨token.IDENT, "b"⟩ (some (.Identifier ⟨⟨token.IDENT, "b"⟩, "b"⟩))],
    Program.mk
      [.ExpressionStatement ⟨token.IDENT, "ab"⟩
         (some (.Identifier ⟨⟨token.IDENT, "ab"⟩, "ab"⟩))], ?_, by decide⟩,
    by decide, by decide, ?_⟩
  · intro h
    have h2 := congrArg List.length h
    simp at h2
  · intro ts v i hi
    refine ⟨?_, ?_⟩
    · intro h
      cases h
    · simp only [Expression.String, Identifier.String, hi, Expression.TokenLiteral]

/-- Witness of C19 amended at the string literal and the identifier the parser
builds from a `STRING` token and an `IDENT` token of the same literal `foo`. -/
theorem Program_String_not_injective_witness :
    (⟨⟨token.IDENT, "foo"⟩, "foo"⟩ : Identifier).Value
        = (Expression.StringLiteral ⟨token.STRING, "foo"⟩ "foo").TokenLiteral
    ∧ (Expression.StringLiteral ⟨token.STRING, "foo"⟩ "foo").TokenLiteral
        = (Expression.Identifier ⟨⟨token.IDENT, "foo"⟩, "foo"⟩).TokenLiteral
    ∧ Expression.StringLiteral ⟨token.STRING, "foo"⟩ "foo"
        ≠ Expression.Identifier ⟨⟨token.IDENT, "foo"⟩, "foo"⟩
    ∧ (Expression.StringLiteral ⟨token.STRING, "foo"⟩ "foo").String
        = (Expression.Identifier ⟨⟨token.IDENT, "foo"⟩, "foo"⟩).String :=
  ⟨rfl, rfl,
   Program_String_not_injective.2.2.2 ⟨token.STRING, "foo"⟩ "foo"
    ⟨⟨token.IDENT, "foo"⟩, "foo"⟩ rfl⟩

end ast

namespace roundtrip
open token ast parser

@[simp] theorem curToken_cons (a : Token) (ts : List Token) (errs : List String) :
    (Parser.mk (a :: ts) errs).curToken = a := rfl

@[simp] theorem peekToken_cons (a b : Token) (ts : List Token) (errs : List String) :
    (Parser.mk (a :: b :: ts) errs).peekToken = b := rfl

@[simp] theorem nextToken_cons (a : Token) (ts : List Token) (errs : List String) :
    (Parser.mk (a :: ts) errs).nextToken = Parser.mk ts errs := rfl

theorem expectPeek_cons (a b : Token) (ts : List Token) (errs : List String) (t : TokenType)
    (h : b.Type_ = t) :
    (Parser.mk (a :: b :: ts) errs).expectPeek t = (true, Parser.mk (b :: ts) errs) := by
  simp [Parser.expectPeek, h]

/-- The operator loop stops in front of a token that is a semicolon or binds no
tighter than the current level. -/
theorem parseInfixLoop_stop (n prec : Nat) (e : Expression) (a b : Token) (ts : List Token)
    (errs : List String)
    (h : b.Type_ = SEMICOLON ∨ precedences b.Type_ ≤ prec) :
    parseInfixLoop n prec e (Parser.mk (a :: b :: ts) errs)
      = (some e, Parser.mk (a :: b :: ts) errs) := by
  unfold parseInfixLoop
  rcases h with h | h
  · simp [h]
  · simp [Nat.not_lt.mpr h]

end roundtrip

namespace roundtrip
open token ast parser

theorem prefix_IDENT (fuel : Nat) (p : Parser) (h : p.curToken.Type_ = IDENT) :
    parsePrefixExpression (fuel + 1) p
      = (some (.Identifier ⟨p.curToken, p.curToken.Literal⟩), p) := by
  rw [parsePrefixExpression]
  simp [h]

theorem prefix_INT (fuel : Nat) (p : Parser) (v : Int) (h : p.curToken.Type_ = INT)
    (hv : parseInt p.curToken.Literal = some v) :
    parsePrefixExpression (fuel + 1) p = (some (.IntegerLiteral p.curToken v), p) := by
  rw [parsePrefixExpression]
  have h1 : ¬ (INT = IDENT) := by decide
  simp [h, hv, h1]

theorem prefix_TRUE (fuel : Nat) (p : Parser) (h : p.curToken.Type_ = TRUE) :
    parsePrefixExpression (fuel + 1) p = (some (.Boolean p.curToken true), p) := by
  rw [parsePrefixExpression]
  have h1 : ¬ (TRUE = IDENT) := by decide
  have h2 : ¬ (TRUE = INT) := by decide
  have h3 : ¬ (TRUE = STRING) := by decide
  simp [h, h1, h2, h3]

theorem prefix_FALSE (fuel : Nat) (p : Parser) (h : p.curToken.Type_ = FALSE) :
    parsePrefixExpression (fuel + 1) p = (some (.Boolean p.curToken false), p) := by
  rw [parsePrefixExpression]
  have h1 : ¬ (FALSE = IDENT) := by decide
  have h2 : ¬ (FALSE = INT) := by decide
  have h3 : ¬ (FALSE = STRING) := by decide
  have h4 : ¬ (FALSE = TRUE) := by decide
  simp [h, h1, h2, h3, h4]

theorem prefix_operator (fuel : Nat) (p : Parser)
    (h : p.curToken.Type_ = BANG ∨ p.curToken.Type_ = MINUS) :
    parsePrefixExpression (fuel + 1) p
      = match parseExpression fuel PREFIX p.nextToken with
        | (some right, p1) =>
          (some (.PrefixExpression p.curToken p.curToken.Literal right), p1)
        | (none, p1) => (none, p1) := by
  rw [parsePrefixExpression]
  rcases h with h | h
  · have h1 : ¬ (BANG = IDENT) := by decide
    have h2 : ¬ (BANG = INT) := by decide
    have h3 : ¬ (BANG = STRING) := by decide
    have h4 : ¬ (BANG = TRUE) := by decide
    have h5 : ¬ (BANG = FALSE) := by decide
    simp [h, h1, h2, h3, h4, h5]
  · have h1 : ¬ (MINUS = IDENT) := by decide
    have h2 : ¬ (MINUS = INT) := by decide
    have h3 : ¬ (MINUS = STRING) := by decide
    have h4 : ¬ (MINUS = TRUE) := by decide
    have h5 : ¬ (MINUS = FALSE) := by decide
    simp [h, h1, h2, h3, h4, h5]

theorem prefix_LPAREN (fuel : Nat) (p : Parser) (h : p.curToken.Type_ = LPAREN) :
    parsePrefixExpression (fuel + 1) p
      = match parseExpression fuel LOWEST p.nextToken with
        | (some e, p1) =>
          (match p1.expectPeek RPAREN with
           | (true, p2) => (some e, p2)
           | (false, p2) => (none, p2))
        | (none, p1) => (none, p1) := by
  rw [parsePrefixExpression]
  have h1 : ¬ (LPAREN = IDENT) := by decide
  have h2 : ¬ (LPAREN = INT) := by decide
  have h3 : ¬ (LPAREN = STRING) := by decide
  have h4 : ¬ (LPAREN = TRUE) := by decide
  have h5 : ¬ (LPAREN = FALSE) := by decide
  have h6 : ¬ (LPAREN = BANG) := by decide
  have h7 : ¬ (LPAREN = MINUS) := by decide
  simp [h, h1, h2, h3, h4, h5, h6, h7]

theorem prefix_LBRACKET (fuel : Nat) (p : Parser) (h : p.curToken.Type_ = LBRACKET) :
    parsePrefixExpression (fuel + 1) p
      = match parseExpressionList fuel RBRACKET p with
        | (some elements, p1) => (some (.ArrayLiteral p.curToken elements), p1)
        | (none, p1) => (none, p1) := by
  rw [parsePrefixExpression]
  have h1 : ¬ (LBRACKET = IDENT) := by decide
  have h2 : ¬ (LBRACKET = INT) := by decide
  have h3 : ¬ (LBRACKET = STRING) := by decide
  have h4 : ¬ (LBRACKET = TRUE) := by decide
  have h5 : ¬ (LBRACKET = FALSE) := by decide
  have h6 : ¬ (LBRACKET = BANG) := by decide
  have h7 : ¬ (LBRACKET = MINUS) := by decide
  have h8 : ¬ (LBRACKET = LPAREN) := by decide
  have h9 : ¬ (LBRACKET = IF) := by decide
  have h10 : ¬ (LBRACKET = FUNCTION) := by decide
  simp [h, h1, h2, h3, h4, h5, h6, h7, h8, h9, h10]

theorem infix_LPAREN (fuel : Nat) (left : Expression) (p : Parser)
    (h : p.curToken.Type_ = LPAREN) :
    parseInfixExpression (fuel + 1) left p
      = match parseExpressionList fuel RPAREN p with
        | (some arguments, p1) => (some (.CallExpression p.curToken left arguments), p1)
        | (none, p1) => (none, p1) := by
  rw [parseInfixExpression]
  simp [h]

theorem infix_LBRACKET (fuel : Nat) (left : Expression) (p : Parser)
    (h : p.curToken.Type_ = LBRACKET) :
    parseInfixExpression (fuel + 1) left p
      = match parseExpression fuel LOWEST p.nextToken with
        | (some index, p1) =>
          (match p1.expectPeek RBRACKET with
           | (true, p2) => (some (.IndexExpression p.curToken left index), p2)
           | (false, p2) => (none, p2))
        | (none, p1) => (none, p1) := by
  rw [parseInfixExpression]
  have h1 : ¬ (LBRACKET = LPAREN) := by decide
  simp [h, h1]

theorem infix_operator (fuel : Nat) (left : Expression) (p : Parser)
    (h1 : p.curToken.Type_ ≠ LPAREN) (h2 : p.curToken.Type_ ≠ LBRACKET) :
    parseInfixExpression (fuel + 1) left p
      = match parseExpression fuel (precedences p.curToken.Type_) p.nextToken with
        | (some right, p1) =>
          (some (.InfixExpression p.curToken left right p.curToken.Literal), p1)
        | (none, p1) => (none, p1) := by
  rw [parseInfixExpression]
  simp [h1, h2]

/-- The operator loop goes on at a token that has a handler and binds tighter
than the current level. -/
theorem parseInfixLoop_continue (n prec : Nat) (e : Expression) (a b : Token)
    (ts : List Token) (errs : List String)
    (h1 : b.Type_ ≠ SEMICOLON) (h2 : prec < precedences b.Type_)
    (h3 : hasInfixHandler b.Type_ = true) :
    parseInfixLoop (n + 1) prec e (Parser.mk (a :: b :: ts) errs)
      = match parseInfixExpression n e (Parser.mk (b :: ts) errs) with
        | (some left2, p1) => parseInfixLoop n prec left2 p1
        | (none, p1) => (none, p1) := by
  rw [parseInfixLoop]
  simp [h1, h2, h3]

end roundtrip

namespace roundtrip
open token ast parser

theorem prefix_IDENT_cons (fuel : Nat) (val : String) (ts : List Token) (errs : List String) :
    parsePrefixExpression (fuel + 1) ⟨⟨IDENT, val⟩ :: ts, errs⟩
      = (some (.Identifier ⟨⟨IDENT, val⟩, val⟩), ⟨⟨IDENT, val⟩ :: ts, errs⟩) :=
  prefix_IDENT fuel _ rfl

theorem prefix_INT_cons (fuel : Nat) (t : Token) (v : Int) (ts : List Token)
    (errs : List String) (h : t.Type_ = INT) (hv : parseInt t.Literal = some v) :
    parsePrefixExpression (fuel + 1) ⟨t :: ts, errs⟩
      = (some (.IntegerLiteral t v), ⟨t :: ts, errs⟩) :=
  prefix_INT fuel _ v h hv

theorem prefix_TRUE_cons (fuel : Nat) (ts : List Token) (errs : List String) :
    parsePrefixExpression (fuel + 1) ⟨⟨TRUE, "true"⟩ :: ts, errs⟩
      = (some (.Boolean ⟨TRUE, "true"⟩ true), ⟨⟨TRUE, "true"⟩ :: ts, errs⟩) :=
  prefix_TRUE fuel _ rfl

theorem prefix_FALSE_cons (fuel : Nat) (ts : List Token) (errs : List String) :
    parsePrefixExpression (fuel + 1) ⟨⟨FALSE, "false"⟩ :: ts, errs⟩
      = (some (.Boolean ⟨FALSE, "false"⟩ false), ⟨⟨FALSE, "false"⟩ :: ts, errs⟩) :=
  prefix_FALSE fuel _ rfl

theorem prefix_operator_cons (fuel : Nat) (t : Token) (ts : List Token) (errs : List String)
    (h : t.Type_ = BANG ∨ t.Type_ = MINUS) :
    parsePrefixExpression (fuel + 1) ⟨t :: ts, errs⟩
      = match parseExpression fuel PREFIX ⟨ts, errs⟩ with
        | (some right, p1) => (some (.PrefixExpression t t.Literal right), p1)
        | (none, p1) => (none, p1) :=
  prefix_operator fuel _ h

theorem prefix_LPAREN_cons (fuel : Nat) (ts : List Token) (errs : List String) :
    parsePrefixExpression (fuel + 1) ⟨⟨LPAREN, "("⟩ :: ts, errs⟩
      = match parseExpression fuel LOWEST ⟨ts, errs⟩ with
        | (some e, p1) =>
          (match p1.expectPeek RPAREN with
           | (true, p2) => (some e, p2)
           | (false, p2) => (none, p2))
        | (none, p1) => (none, p1) :=
  prefix_LPAREN fuel _ rfl

theorem prefix_LBRACKET_cons (fuel : Nat) (ts : List Token) (errs : List String) :
    parsePrefixExpression (fuel + 1) ⟨⟨LBRACKET, "["⟩ :: ts, errs⟩
      = match parseExpressionList fuel RBRACKET ⟨⟨LBRACKET, "["⟩ :: ts, errs⟩ with
        | (some elements, p1) => (some (.ArrayLiteral ⟨LBRACKET, "["⟩ elements), p1)
        | (none, p1) => (none, p1) :=
  prefix_LBRACKET fuel _ rfl

theorem infix_LPAREN_cons (fuel : Nat) (left : Expression) (ts : List Token)
    (errs : List String) :
    parseInfixExpression (fuel + 1) left ⟨⟨LPAREN, "("⟩ :: ts, errs⟩
      = match parseExpressionList fuel RPAREN ⟨⟨LPAREN, "("⟩ :: ts, errs⟩ with
        | (some arguments, p1) => (some (.CallExpression ⟨LPAREN, "("⟩ left arguments), p1)
        | (none, p1) => (none, p1) :=
  infix_LPAREN fuel left _ rfl

theorem infix_LBRACKET_cons (fuel : Nat) (left : Expression) (ts : List Token)
    (errs : List String) :
    parseInfixExpression (fuel + 1) left ⟨⟨LBRACKET, "["⟩ :: ts, errs⟩
      = match parseExpression fuel LOWEST ⟨ts, errs⟩ with
        | (some index, p1) =>
          (match p1.expectPeek RBRACKET with
           | (true, p2) => (some (.IndexExpression ⟨LBRACKET, "["⟩ left index), p2)
           | (false, p2) => (none, p2))
        | (none, p1) => (none, p1) :=
  infix_LBRACKET fuel left _ rfl

theorem infix_operator_cons (fuel : Nat) (left : Expression) (t : Token) (ts : List Token)
    (errs : List String) (h1 : t.Type_ ≠ LPAREN) (h2 : t.Type_ ≠ LBRACKET) :
    parseInfixExpression (fuel + 1) left ⟨t :: ts, errs⟩
      = match parseExpression fuel (precedences t.Type_) ⟨ts, errs⟩ with
        | (some right, p1) => (some (.InfixExpression t left right t.Literal), p1)
        | (none, p1) => (none, p1) :=
  infix_operator fuel left _ h1 h2

theorem expectPeek_RPAREN (a : Token) (ts : List Token) (errs : List String) :
    (Parser.mk (a :: ⟨RPAREN, ")"⟩ :: ts) errs).expectPeek RPAREN
      = (true, Parser.mk (⟨RPAREN, ")"⟩ :: ts) errs) :=
  expectPeek_cons _ _ _ _ _ rfl

theorem expectPeek_RBRACKET (a : Token) (ts : List Token) (errs : List String) :
    (Parser.mk (a :: ⟨RBRACKET, "]"⟩ :: ts) errs).expectPeek RBRACKET
      = (true, Parser.mk (⟨RBRACKET, "]"⟩ :: ts) errs) :=
  expectPeek_cons _ _ _ _ _ rfl

theorem stop_RPAREN (n prec : Nat) (hp : LOWEST ≤ prec) (e : Expression) (a : Token)
    (ts : List Token) (errs : List String) :
    parseInfixLoop n prec e (Parser.mk (a :: ⟨RPAREN, ")"⟩ :: ts) errs)
      = (some e, Parser.mk (a :: ⟨RPAREN, ")"⟩ :: ts) errs) :=
  parseInfixLoop_stop _ _ _ _ _ _ _ (Or.inr hp)

theorem stop_RBRACKET (n prec : Nat) (hp : LOWEST ≤ prec) (e : Expression) (a : Token)
    (ts : List Token) (errs : List String) :
    parseInfixLoop n prec e (Parser.mk (a :: ⟨RBRACKET, "]"⟩ :: ts) errs)
      = (some e, Parser.mk (a :: ⟨RBRACKET, "]"⟩ :: ts) errs) :=
  parseInfixLoop_stop _ _ _ _ _ _ _ (Or.inr hp)

end roundtrip

namespace roundtrip
open token ast parser

theorem prefix_LBRACE (fuel : Nat) (p : Parser) (h : p.curToken.Type_ = LBRACE) :
    parsePrefixExpression (fuel + 1) p
      = if p.peekToken.Type_ = RBRACE then (some (.HashLiteral p.curToken []), p.nextToken)
        else
          match parseHashPairs fuel [] p with
          | (some pairs, p1) => (some (.HashLiteral p.curToken pairs), p1)
          | (none, p1) => (none, p1) := by
  rw [parsePrefixExpression]
  have h1 : ¬ (LBRACE = IDENT) := by decide
  have h2 : ¬ (LBRACE = INT) := by decide
  have h3 : ¬ (LBRACE = STRING) := by decide
  have h4 : ¬ (LBRACE = TRUE) := by decide
  have h5 : ¬ (LBRACE = FALSE) := by decide
  have h6 : ¬ (LBRACE = BANG) := by decide
  have h7 : ¬ (LBRACE = MINUS) := by decide
  have h8 : ¬ (LBRACE = LPAREN) := by decide
  have h9 : ¬ (LBRACE = IF) := by decide
  have h10 : ¬ (LBRACE = FUNCTION) := by decide
  have h11 : ¬ (LBRACE = LBRACKET) := by decide
  simp [h, h1, h2, h3, h4, h5, h6, h7, h8, h9, h10, h11]

theorem prefix_LBRACE_empty (fuel : Nat) (ts : List Token) (errs : List String) :
    parsePrefixExpression (fuel + 1) ⟨⟨LBRACE, "\x7b"⟩ :: ⟨RBRACE, "\x7d"⟩ :: ts, errs⟩
      = (some (.HashLiteral ⟨LBRACE, "\x7b"⟩ []), ⟨⟨RBRACE, "\x7d"⟩ :: ts, errs⟩) := by
  rw [prefix_LBRACE fuel ⟨⟨LBRACE, "\x7b"⟩ :: ⟨RBRACE, "\x7d"⟩ :: ts, errs⟩ rfl]
  rfl

theorem prefix_LBRACE_cons (fuel : Nat) (b : Token) (ts : List Token) (errs : List String)
    (hb : b.Type_ ≠ RBRACE) :
    parsePrefixExpression (fuel + 1) ⟨⟨LBRACE, "\x7b"⟩ :: b :: ts, errs⟩
      = match parseHashPairs fuel [] ⟨⟨LBRACE, "\x7b"⟩ :: b :: ts, errs⟩ with
        | (some pairs, p1) => (some (.HashLiteral ⟨LBRACE, "\x7b"⟩ pairs), p1)
        | (none, p1) => (none, p1) := by
  rw [prefix_LBRACE fuel ⟨⟨LBRACE, "\x7b"⟩ :: b :: ts, errs⟩ rfl]
  simp only [peekToken_cons, hb, if_false, curToken_cons]

theorem expectPeek_COLON (a : Token) (ts : List Token) (errs : List String) :
    (Parser.mk (a :: ⟨COLON, ":"⟩ :: ts) errs).expectPeek COLON
      = (true, Parser.mk (⟨COLON, ":"⟩ :: ts) errs) :=
  expectPeek_cons _ _ _ _ _ rfl

theorem expectPeek_COMMA (a : Token) (ts : List Token) (errs : List String) :
    (Parser.mk (a :: ⟨COMMA, ","⟩ :: ts) errs).expectPeek COMMA
      = (true, Parser.mk (⟨COMMA, ","⟩ :: ts) errs) :=
  expectPeek_cons _ _ _ _ _ rfl

end roundtrip

namespace roundtrip
open token ast parser

theorem getLastD_concat_cons (a c d : Token) (xs : List Token) :
    (a :: (xs ++ [c])).getLastD d = c := by
  have h : a :: (xs ++ [c]) = (a :: xs) ++ [c] := rfl
  rw [h, List.getLastD_concat]

theorem lastToken_Prefix (t : Token) (op : String) (r : Expression) :
    lastToken (.PrefixExpression t op r) = ⟨RPAREN, ")"⟩ := by
  have h : tokensOf (.PrefixExpression t op r)
      = (⟨LPAREN, "("⟩ :: t :: tokensOf r) ++ [⟨RPAREN, ")"⟩] := by simp [tokensOf]
  rw [lastToken, h, List.getLastD_concat]

theorem lastToken_Infix (t : Token) (op : String) (l r : Expression) :
    lastToken (.InfixExpression t l r op) = ⟨RPAREN, ")"⟩ := by
  have h : tokensOf (.InfixExpression t l r op)
      = (⟨LPAREN, "("⟩ :: (tokensOf l ++ t :: tokensOf r)) ++ [⟨RPAREN, ")"⟩] := by
    simp [tokensOf]
  rw [lastToken, h, List.getLastD_concat]

theorem lastToken_Index (t : Token) (l r : Expression) :
    lastToken (.IndexExpression t l r) = ⟨RPAREN, ")"⟩ := by
  have h : tokensOf (.IndexExpression t l r)
      = (⟨LPAREN, "("⟩ :: (tokensOf l ++ t :: (tokensOf r ++ [⟨RBRACKET, "]"⟩])))
          ++ [⟨RPAREN, ")"⟩] := by
    simp [tokensOf]
  rw [lastToken, h, List.getLastD_concat]

theorem lastToken_Call (t : Token) (f : Expression) (args : List Expression) :
    lastToken (.CallExpression t f args) = ⟨RPAREN, ")"⟩ := by
  have h : tokensOf (.CallExpression t f args)
      = (tokensOf f ++ t :: listTokens args) ++ [⟨RPAREN, ")"⟩] := by
    simp [tokensOf]
  rw [lastToken, h, List.getLastD_concat]

theorem lastToken_Array (t : Token) (es : List Expression) :
    lastToken (.ArrayLiteral t es) = ⟨RBRACKET, "]"⟩ := by
  have h : tokensOf (.ArrayLiteral t es) = (t :: listTokens es) ++ [⟨RBRACKET, "]"⟩] := by
    simp [tokensOf]
  rw [lastToken, h, List.getLastD_concat]

/-- An expression that `Reparses`, read in front of a token at which the
operator loop stops, is the whole result. -/
theorem Reparses.stop {m : Nat} {e : Expression} (h : Reparses m e) (prec : Nat)
    (hprec : prec < CALL) (b : Token) (ts : List Token) (errs : List String)
    (hstop : b.Type_ = SEMICOLON ∨ precedences b.Type_ ≤ prec) :
    parseExpression (m + callDepth e) prec ⟨tokensOf e ++ b :: ts, errs⟩
      = (some e, ⟨lastToken e :: b :: ts, errs⟩) := by
  rw [h prec (b :: ts) errs hprec]
  exact parseInfixLoop_stop _ _ _ _ _ _ _ hstop

/-- What follows an element of a list is a comma or the closing token, neither
of which binds as an operator. -/
theorem commaTokens_head (closing : Token) (hc : precedences closing.Type_ ≤ LOWEST)
    (es : List Expression) (rest : List Token) :
    ∃ b ts, commaTokens es ++ closing :: rest = b :: ts ∧ precedences b.Type_ ≤ LOWEST := by
  cases es with
  | nil => exact ⟨closing, rest, by simp [commaTokens], hc⟩
  | cons e es =>
    refine ⟨⟨COMMA, ","⟩, _, by simp only [commaTokens, List.cons_append]; rfl, by decide⟩

theorem listRest (closing : Token) (hc1 : closing.Type_ ≠ COMMA)
    (hc2 : precedences closing.Type_ ≤ LOWEST) (es : List Expression) :
    ∀ (n : Nat) (acc : List Expression) (x : Token) (rest : List Token) (errs : List String),
      (∀ e ∈ es, ∀ m, fuelFor e ≤ m → Reparses m e) → listFuel es ≤ n →
      parseExpressionListRest n closing.Type_ acc
          ⟨x :: (commaTokens es ++ closing :: rest), errs⟩
        = (some (acc ++ es), ⟨closing :: rest, errs⟩) := by
  induction es with
  | nil =>
    intro n acc x rest errs _ hn
    simp only [listFuel] at hn
    obtain ⟨m, rfl⟩ : ∃ m, n = m + 1 := ⟨n - 1, by omega⟩
    rw [parseExpressionListRest]
    simp [commaTokens, hc1, expectPeek_cons]
  | cons e es ih =>
    intro n acc x rest errs hes hn
    simp only [listFuel] at hn
    obtain ⟨m, rfl⟩ : ∃ m, n = m + callDepth e + 1 := ⟨n - callDepth e - 1, by omega⟩
    rw [parseExpressionListRest]
    obtain ⟨b, ts, hb, hprec⟩ := commaTokens_head closing hc2 es rest
    have he : parseExpression (m + callDepth e) LOWEST
          ⟨tokensOf e ++ (commaTokens es ++ closing :: rest), errs⟩
        = (some e, ⟨lastToken e :: (commaTokens es ++ closing :: rest), errs⟩) := by
      rw [hb]
      exact (hes e (List.mem_cons_self _ _) m (by omega)).stop LOWEST (by decide) b ts errs
        (Or.inr hprec)
    have hcomma : (⟨COMMA, ","⟩ : Token).Type_ = COMMA := rfl
    simp only [commaTokens, List.cons_append, List.append_assoc, peekToken_cons, hcomma, if_true,
      nextToken_cons, he]
    rw [ih (m + callDepth e) (acc ++ [e]) (lastToken e) rest errs
      (fun e' he' => hes e' (List.mem_cons_of_mem _ he')) (by omega)]
    simp

/-- The first token of an expression of the fragment starts an operand. -/
theorem tokensOf_head_mem : ∀ (n : Nat) (e : Expression), fuelFor e ≤ n →
    okExpression e = true →
    ∃ t ts, tokensOf e = t :: ts
      ∧ t.Type_ ∈ [IDENT, INT, TRUE, FALSE, LPAREN, LBRACKET, LBRACE] := by
  intro n
  induction n with
  | zero =>
    intro e hn _
    cases e <;> simp [fuelFor] at hn
  | succ n ih =>
    intro e hn hok
    cases e with
    | Identifier i =>
      simp only [okExpression, okIdentifier, Bool.and_eq_true, beq_iff_eq] at hok
      refine ⟨i.Token, [], rfl, ?_⟩
      rw [hok.1]
      simp
    | IntegerLiteral t v =>
      simp only [okExpression, Bool.and_eq_true, beq_iff_eq] at hok
      refine ⟨t, [], rfl, ?_⟩
      rw [hok.1.1.1]
      simp
    | Boolean t v =>
      simp only [okExpression, Bool.or_eq_true, Bool.and_eq_true, beq_iff_eq] at hok
      refine ⟨t, [], rfl, ?_⟩
      rcases hok with h | h <;> rw [h.1] <;> simp
    | PrefixExpression t op r => exact ⟨_, _, rfl, by simp⟩
    | InfixExpression t l r op => exact ⟨_, _, rfl, by simp⟩
    | IndexExpression t l r => exact ⟨_, _, rfl, by simp⟩
    | CallExpression t f args =>
      simp only [okExpression, Bool.and_eq_true, beq_iff_eq] at hok
      simp only [fuelFor] at hn
      obtain ⟨t2, ts, h1, h2⟩ := ih f (by omega) hok.1.2
      exact ⟨t2, ts ++ t :: (listTokens args ++ [⟨RPAREN, ")"⟩]), by simp [tokensOf, h1], h2⟩
    | ArrayLiteral t es =>
      simp only [okExpression, Bool.and_eq_true, beq_iff_eq] at hok
      refine ⟨t, _, rfl, ?_⟩
      rw [hok.1]
      simp
    | HashLiteral t ps =>
      simp only [okExpression, Bool.and_eq_true, beq_iff_eq] at hok
      refine ⟨t, _, rfl, ?_⟩
      rw [hok.1]
      simp
    | IfExpression _ _ _ _ => simp [okExpression] at hok
    | FunctionLiteral _ _ _ => simp [okExpression] at hok
    | StringLiteral _ _ => simp [okExpression] at hok

theorem firstType_facts (ty : TokenType)
    (h : ty ∈ [IDENT, INT, TRUE, FALSE, LPAREN, LBRACKET, LBRACE]) :
    ty ≠ RPAREN ∧ ty ≠ RBRACKET ∧ ty ≠ SEMICOLON ∧ ty ≠ RBRACE ∧ ty ≠ LET ∧ ty ≠ RETURN
      ∧ ty ≠ EOF := by
  simp only [List.mem_cons, List.mem_singleton, List.not_mem_nil, or_false] at h
  rcases h with h | h | h | h | h | h | h <;> subst h <;> decide

/-- The first token of an expression of the fragment closes no list and starts
no other kind of statement. -/
theorem tokensOf_head (n : Nat) (e : Expression) (hn : fuelFor e ≤ n)
    (hok : okExpression e = true) :
    ∃ t ts, tokensOf e = t :: ts ∧ t.Type_ ≠ RPAREN ∧ t.Type_ ≠ RBRACKET
      ∧ t.Type_ ≠ SEMICOLON ∧ t.Type_ ≠ RBRACE ∧ t.Type_ ≠ LET ∧ t.Type_ ≠ RETURN
      ∧ t.Type_ ≠ EOF := by
  obtain ⟨t, ts, h1, h2⟩ := tokensOf_head_mem n e hn hok
  exact ⟨t, ts, h1, firstType_facts _ h2⟩

end roundtrip

namespace roundtrip
open token ast parser

theorem okExpressions_mem (es : List Expression) (h : okExpressions es = true) :
    ∀ e ∈ es, okExpression e = true := by
  induction es with
  | nil => intro e he; cases he
  | cons a es ih =>
    simp only [okExpressions, Bool.and_eq_true] at h
    intro e he
    rcases List.mem_cons.mp he with rfl | he
    · exact h.1
    · exact ih h.2 e he

theorem fuelFor_le_listFuel (es : List Expression) : ∀ e ∈ es, fuelFor e < listFuel es := by
  induction es with
  | nil => intro e he; cases he
  | cons a es ih =>
    intro e he
    simp only [listFuel]
    rcases List.mem_cons.mp he with rfl | he
    · omega
    · have := ih e he
      omega

theorem parseExpressionList_ok (closing : Token) (hc1 : closing.Type_ ≠ COMMA)
    (hc2 : precedences closing.Type_ ≤ LOWEST)
    (hcl : closing.Type_ = RPAREN ∨ closing.Type_ = RBRACKET)
    (es : List Expression) (opening : Token) (n : Nat) (rest : List Token) (errs : List String)
    (hes : ∀ e ∈ es, ∀ m, fuelFor e ≤ m → Reparses m e) (hok : okExpressions es = true)
    (hn : listFuel es + 1 ≤ n) :
    parseExpressionList n closing.Type_ ⟨opening :: (listTokens es ++ closing :: rest), errs⟩
      = (some es, ⟨closing :: rest, errs⟩) := by
  cases es with
  | nil =>
    obtain ⟨m, rfl⟩ : ∃ m, n = m + 1 := ⟨n - 1, by omega⟩
    rw [parseExpressionList]
    simp [listTokens]
  | cons e es =>
    simp only [listFuel] at hn
    obtain ⟨m, rfl⟩ : ∃ m, n = m + callDepth e + 1 := ⟨n - callDepth e - 1, by omega⟩
    simp only [okExpressions, Bool.and_eq_true] at hok
    obtain ⟨t, ts, ht, ht1, ht2, -⟩ := tokensOf_head (fuelFor e) e (Nat.le_refl _) hok.1
    have hne : ¬ (t.Type_ = closing.Type_) := by
      rcases hcl with h | h <;> rw [h] <;> assumption
    obtain ⟨b, ts2, hb, hprec⟩ := commaTokens_head closing hc2 es rest
    have he : parseExpression (m + callDepth e) LOWEST
          ⟨tokensOf e ++ (commaTokens es ++ closing :: rest), errs⟩
        = (some e, ⟨lastToken e :: (commaTokens es ++ closing :: rest), errs⟩) := by
      rw [hb]
      exact (hes e (List.mem_cons_self _ _) m (by omega)).stop LOWEST (by decide) b ts2 errs
        (Or.inr hprec)
    rw [parseExpressionList]
    have hpeek : (Parser.mk (opening :: (listTokens (e :: es) ++ closing :: rest)) errs).peekToken
        = t := by
      simp [listTokens, ht]
    rw [hpeek]
    simp only [hne, if_false, nextToken_cons, listTokens, List.append_assoc, he]
    rw [listRest closing hc1 hc2 es (m + callDepth e) [e] (lastToken e) rest errs
      (fun e' he' => hes e' (List.mem_cons_of_mem _ he')) (by omega)]
    simp

end roundtrip

namespace roundtrip
open token ast parser

theorem okPairs_mem (ps : List (Expression × Expression)) (h : okPairs ps = true) :
    ∀ p ∈ ps, okExpression p.1 = true ∧ okExpression p.2 = true := by
  induction ps with
  | nil => intro p hp; cases hp
  | cons a ps ih =>
    obtain ⟨k, v⟩ := a
    simp only [okPairs, Bool.and_eq_true] at h
    intro p hp
    rcases List.mem_cons.mp hp with rfl | hp
    · exact ⟨h.1.1, h.1.2⟩
    · exact ih h.2 p hp

theorem fuelFor_le_pairsFuel (ps : List (Expression × Expression)) :
    ∀ p ∈ ps, fuelFor p.1 < pairsFuel ps ∧ fuelFor p.2 < pairsFuel ps := by
  induction ps with
  | nil => intro p hp; cases hp
  | cons a ps ih =>
    obtain ⟨k, v⟩ := a
    intro p hp
    simp only [pairsFuel]
    rcases List.mem_cons.mp hp with rfl | hp
    · constructor <;> simp only <;> omega
    · have := ih p hp
      constructor <;> omega

/-- An expression that is read back with any sufficient fuel, read in front of
a token at which the operator loop stops, is the whole result. -/
theorem stop_of {e : Expression} (h : ∀ m, fuelFor e ≤ m → Reparses m e) (m : Nat)
    (hm : callDepth e + fuelFor e ≤ m) (prec : Nat) (hprec : prec < CALL) (b : Token)
    (ts : List Token) (errs : List String)
    (hstop : b.Type_ = SEMICOLON ∨ precedences b.Type_ ≤ prec) :
    parseExpression m prec ⟨tokensOf e ++ b :: ts, errs⟩
      = (some e, ⟨lastToken e :: b :: ts, errs⟩) := by
  obtain ⟨a, rfl⟩ : ∃ a, m = a + callDepth e := ⟨m - callDepth e, by omega⟩
  exact (h a (by omega)).stop prec hprec b ts errs hstop

theorem hashPairs (ps : List (Expression × Expression)) :
    ∀ (n : Nat) (acc : List (Expression × Expression)) (x : Token) (k v : Expression)
      (rest : List Token) (errs : List String),
      (∀ m, fuelFor k ≤ m → Reparses m k) → (∀ m, fuelFor v ≤ m → Reparses m v) →
      (∀ p ∈ ps, (∀ m, fuelFor p.1 ≤ m → Reparses m p.1)
        ∧ (∀ m, fuelFor p.2 ≤ m → Reparses m p.2)) →
      pairsFuel ((k, v) :: ps) ≤ n →
      parseHashPairs n acc
          ⟨x :: (tokensOf k ++ ⟨COLON, ":"⟩ :: (tokensOf v
            ++ (commaPairTokens ps ++ ⟨RBRACE, "\x7d"⟩ :: rest))), errs⟩
        = (some (acc ++ (k, v) :: ps), ⟨⟨RBRACE, "\x7d"⟩ :: rest, errs⟩) := by
  induction ps with
  | nil =>
    intro n acc x k v rest errs hk hv _ hn
    simp only [pairsFuel] at hn
    obtain ⟨m, rfl⟩ : ∃ m, n = m + 1 := ⟨n - 1, by omega⟩
    rw [parseHashPairs]
    simp only [nextToken_cons, commaPairTokens, List.nil_append]
    rw [stop_of hk m (by omega) LOWEST (by decide) ⟨COLON, ":"⟩ _ errs (Or.inr (by decide))]
    simp only [expectPeek_COLON, nextToken_cons]
    rw [stop_of hv m (by omega) LOWEST (by decide) ⟨RBRACE, "\x7d"⟩ _ errs
      (Or.inr (by decide))]
    simp only [peekToken_cons, if_true, nextToken_cons]
  | cons a ps ih =>
    obtain ⟨k2, v2⟩ := a
    intro n acc x k v rest errs hk hv hps hn
    simp only [pairsFuel] at hn
    obtain ⟨m, rfl⟩ : ∃ m, n = m + 1 := ⟨n - 1, by omega⟩
    have h2 := hps (k2, v2) (List.mem_cons_self _ _)
    rw [parseHashPairs]
    simp only [nextToken_cons, commaPairTokens, List.cons_append]
    rw [stop_of hk m (by omega) LOWEST (by decide) ⟨COLON, ":"⟩ _ errs (Or.inr (by decide))]
    simp only [expectPeek_COLON, nextToken_cons]
    rw [stop_of hv m (by omega) LOWEST (by decide) ⟨COMMA, ","⟩ _ errs (Or.inr (by decide))]
    have hne : ¬ ((⟨COMMA, ","⟩ : Token).Type_ = RBRACE) := by decide
    simp only [peekToken_cons, hne, if_false, expectPeek_COMMA]
    simp only [List.append_assoc, List.cons_append]
    rw [ih m (acc ++ [(k, v)]) ⟨COMMA, ","⟩ k2 v2 rest errs h2.1 h2.2
        (fun p hp => hps p (List.mem_cons_of_mem _ hp)) (by simp only [pairsFuel]; omega)]
    simp

end roundtrip

namespace roundtrip
open token ast parser

theorem operatorTokens_facts (t : Token) (h : operatorTokens.contains t = true) :
    t.Type_ ≠ SEMICOLON ∧ LOWEST < precedences t.Type_ ∧ hasInfixHandler t.Type_ = true
      ∧ t.Type_ ≠ LPAREN ∧ t.Type_ ≠ LBRACKET ∧ precedences t.Type_ < CALL
      ∧ LOWEST ≤ precedences t.Type_ := by
  simp only [operatorTokens, List.contains_eq_any_beq, List.any_cons, List.any_nil,
    Bool.or_false, Bool.or_eq_true, beq_iff_eq] at h
  rcases h with h | h | h | h | h | h | h | h <;> subst h <;> decide

theorem lastToken_Identifier (i : Identifier) : lastToken (.Identifier i) = i.Token := by
  simp [lastToken, tokensOf]

theorem lastToken_IntegerLiteral (t : Token) (v : Int) :
    lastToken (.IntegerLiteral t v) = t := by
  simp [lastToken, tokensOf]

theorem lastToken_Boolean (t : Token) (v : Bool) : lastToken (.Boolean t v) = t := by
  simp [lastToken, tokensOf]

theorem callDepth_Prefix (t : Token) (op : String) (r : Expression) :
    callDepth (.PrefixExpression t op r) = 1 := by
  simp [callDepth]

theorem callDepth_Infix (t : Token) (op : String) (l r : Expression) :
    callDepth (.InfixExpression t l r op) = 1 := by
  simp [callDepth]

theorem callDepth_Index (t : Token) (l r : Expression) :
    callDepth (.IndexExpression t l r) = 1 := by
  simp [callDepth]

theorem callDepth_Array (t : Token) (es : List Expression) :
    callDepth (.ArrayLiteral t es) = 1 := by
  simp [callDepth]

theorem callDepth_Hash (t : Token) (ps : List (Expression × Expression)) :
    callDepth (.HashLiteral t ps) = 1 := by
  simp [callDepth]

theorem lastToken_Hash (t : Token) (ps : List (Expression × Expression)) :
    lastToken (.HashLiteral t ps) = ⟨RBRACE, "\x7d"⟩ := by
  have h : tokensOf (.HashLiteral t ps) = (t :: pairTokens ps) ++ [⟨RBRACE, "\x7d"⟩] := by
    simp [tokensOf]
  rw [lastToken, h, List.getLastD_concat]

/-- The hash handler starts the pair loop when an expression of the fragment
follows the opening brace. -/
theorem prefix_LBRACE_tokens (fuel : Nat) (e : Expression) (hok : okExpression e = true)
    (ts : List Token) (errs : List String) :
    parsePrefixExpression (fuel + 1) ⟨⟨LBRACE, "\x7b"⟩ :: (tokensOf e ++ ts), errs⟩
      = match parseHashPairs fuel [] ⟨⟨LBRACE, "\x7b"⟩ :: (tokensOf e ++ ts), errs⟩ with
        | (some pairs, p1) => (some (.HashLiteral ⟨LBRACE, "\x7b"⟩ pairs), p1)
        | (none, p1) => (none, p1) := by
  obtain ⟨t, ts2, h1, -, -, -, h2, -⟩ := tokensOf_head (fuelFor e) e (Nat.le_refl _) hok
  rw [h1, List.cons_append]
  exact prefix_LBRACE_cons fuel t _ errs h2

theorem callDepth_Call (t : Token) (f : Expression) (args : List Expression) :
    callDepth (.CallExpression t f args) = callDepth f + 1 := by
  simp [callDepth]

theorem reparses_aux : ∀ (k : Nat) (e : Expression), fuelFor e ≤ k → okExpression e = true →
    ∀ n, fuelFor e ≤ n → Reparses n e := by
  intro k
  induction k with
  | zero =>
    intro e hk
    cases e <;> simp [fuelFor] at hk
  | succ k ih =>
    intro e hk hok n hn
    cases e with
    | Identifier i =>
      obtain ⟨tok, val⟩ := i
      simp only [okExpression, okIdentifier, Bool.and_eq_true, beq_iff_eq] at hok
      obtain ⟨rfl, -⟩ := hok
      simp only [fuelFor] at hn
      obtain ⟨m, rfl⟩ : ∃ m, n = m + 1 := ⟨n - 1, by omega⟩
      intro prec rest errs _
      rw [lastToken_Identifier]
      simp only [callDepth, tokensOf, List.singleton_append]
      rw [parseExpression, prefix_IDENT_cons]
    | IntegerLiteral t v =>
      simp only [okExpression, Bool.and_eq_true, beq_iff_eq] at hok
      obtain ⟨⟨⟨h1, -⟩, -⟩, hv⟩ := hok
      simp only [fuelFor] at hn
      obtain ⟨m, rfl⟩ : ∃ m, n = m + 1 := ⟨n - 1, by omega⟩
      intro prec rest errs _
      rw [lastToken_IntegerLiteral]
      simp only [callDepth, tokensOf, List.singleton_append]
      rw [parseExpression, prefix_INT_cons m t v rest errs h1 hv]
    | Boolean t v =>
      simp only [okExpression, Bool.or_eq_true, Bool.and_eq_true, beq_iff_eq,
        Bool.not_eq_true'] at hok
      simp only [fuelFor] at hn
      obtain ⟨m, rfl⟩ : ∃ m, n = m + 1 := ⟨n - 1, by omega⟩
      intro prec rest errs _
      rcases hok with ⟨rfl, rfl⟩ | ⟨rfl, rfl⟩
      · rw [lastToken_Boolean]
        simp only [callDepth, tokensOf, List.singleton_append]
        rw [parseExpression, prefix_TRUE_cons]
      · rw [lastToken_Boolean]
        simp only [callDepth, tokensOf, List.singleton_append]
        rw [parseExpression, prefix_FALSE_cons]
    | PrefixExpression t op r =>
      simp only [okExpression, Bool.or_eq_true, Bool.and_eq_true, beq_iff_eq] at hok
      obtain ⟨⟨ht, rfl⟩, hr⟩ := hok
      simp only [fuelFor] at hn hk
      obtain ⟨m, rfl⟩ : ∃ m, n = m + callDepth r + 1 + 1 + 1 :=
        ⟨n - callDepth r - 3, by omega⟩
      have hR := ih r (by omega) hr m (by omega)
      intro prec rest errs _
      have htt : t.Type_ = BANG ∨ t.Type_ = MINUS := by
        rcases ht with h | h <;> subst h
        · exact Or.inl rfl
        · exact Or.inr rfl
      rw [lastToken_Prefix, callDepth_Prefix, tokensOf]
      rw [parseExpression, List.cons_append, List.cons_append, List.append_assoc,
        List.singleton_append, prefix_LPAREN_cons, parseExpression,
        prefix_operator_cons _ t _ _ htt,
        hR.stop PREFIX (by decide) _ _ _ (Or.inr (by decide))]
      simp only []
      rw [stop_RPAREN _ _ (Nat.le_refl _)]
      simp only [expectPeek_RPAREN]
    | InfixExpression t l r op =>
      simp only [okExpression, Bool.and_eq_true, beq_iff_eq] at hok
      obtain ⟨⟨⟨ht, rfl⟩, hl⟩, hr⟩ := hok
      obtain ⟨t1, t2, t3, t4, t5, t6, t7⟩ := operatorTokens_facts t ht
      simp only [fuelFor] at hn hk
      obtain ⟨m, rfl⟩ : ∃ m, n = m + callDepth r + 1 + 1 + callDepth l + 1 :=
        ⟨n - callDepth r - callDepth l - 3, by omega⟩
      have hR := ih r (by omega) hr m (by omega)
      have hL := ih l (by omega) hl (m + callDepth r + 1 + 1) (by omega)
      intro prec rest errs _
      rw [lastToken_Infix, callDepth_Infix, tokensOf]
      rw [parseExpression, List.cons_append, List.append_assoc, List.cons_append,
        List.append_assoc, List.singleton_append, prefix_LPAREN_cons,
        hL LOWEST _ errs (by decide), parseInfixLoop_continue _ _ _ _ _ _ _ t1 t2 t3,
        infix_operator_cons _ _ t _ _ t4 t5,
        hR.stop _ t6 ⟨RPAREN, ")"⟩ _ _ (Or.inr t7)]
      simp only []
      rw [stop_RPAREN _ _ (Nat.le_refl _)]
      simp only [expectPeek_RPAREN]
    | IndexExpression t l r =>
      simp only [okExpression, Bool.and_eq_true, beq_iff_eq] at hok
      obtain ⟨⟨rfl, hl⟩, hr⟩ := hok
      simp only [fuelFor] at hn hk
      obtain ⟨m, rfl⟩ : ∃ m, n = m + callDepth r + 1 + 1 + callDepth l + 1 :=
        ⟨n - callDepth r - callDepth l - 3, by omega⟩
      have hR := ih r (by omega) hr m (by omega)
      have hL := ih l (by omega) hl (m + callDepth r + 1 + 1) (by omega)
      intro prec rest errs _
      rw [lastToken_Index, callDepth_Index, tokensOf]
      rw [parseExpression, List.cons_append, List.append_assoc, List.cons_append,
        List.append_assoc, List.cons_append, List.singleton_append, prefix_LPAREN_cons,
        hL LOWEST _ errs (by decide),
        parseInfixLoop_continue _ _ _ _ ⟨LBRACKET, "["⟩ _ _ (by decide) (by decide) (by decide),
        infix_LBRACKET_cons,
        hR.stop LOWEST (by decide) ⟨RBRACKET, "]"⟩ _ _ (Or.inr (by decide))]
      simp only [expectPeek_RBRACKET]
      rw [stop_RPAREN _ _ (Nat.le_refl _)]
      simp only [expectPeek_RPAREN]
    | CallExpression t f args =>
      simp only [okExpression, Bool.and_eq_true, beq_iff_eq] at hok
      obtain ⟨⟨rfl, hf⟩, hargs⟩ := hok
      simp only [fuelFor] at hn hk
      obtain ⟨m, rfl⟩ : ∃ m, n = m + 1 := ⟨n - 1, by omega⟩
      have hF := ih f (by omega) hf (m + 1 + 1) (by omega)
      have hA : ∀ e ∈ args, ∀ j, fuelFor e ≤ j → Reparses j e := by
        intro e he j hj
        have h1 := fuelFor_le_listFuel args e he
        exact ih e (by omega) (okExpressions_mem args hargs e he) j hj
      intro prec rest errs hprec
      rw [lastToken_Call, callDepth_Call, tokensOf]
      have hfuel : m + 1 + (callDepth f + 1) = m + 1 + 1 + callDepth f := by omega
      rw [hfuel, List.append_assoc, List.cons_append, List.append_assoc, List.singleton_append,
        hF prec _ errs hprec,
        parseInfixLoop_continue _ _ _ _ ⟨LPAREN, "("⟩ _ _ (by decide) hprec (by decide),
        infix_LPAREN_cons,
        parseExpressionList_ok ⟨RPAREN, ")"⟩ (by decide) (by decide) (Or.inl rfl) args _ m rest
          errs hA hargs (by omega)]
    | ArrayLiteral t es =>
      simp only [okExpression, Bool.and_eq_true, beq_iff_eq] at hok
      obtain ⟨rfl, hes⟩ := hok
      simp only [fuelFor] at hn hk
      obtain ⟨m, rfl⟩ : ∃ m, n = m + 1 + 1 := ⟨n - 2, by omega⟩
      have hA : ∀ e ∈ es, ∀ j, fuelFor e ≤ j → Reparses j e := by
        intro e he j hj
        have h1 := fuelFor_le_listFuel es e he
        exact ih e (by omega) (okExpressions_mem es hes e he) j hj
      intro prec rest errs hprec
      rw [lastToken_Array, callDepth_Array, tokensOf]
      rw [parseExpression, List.cons_append, List.append_assoc, List.singleton_append,
        prefix_LBRACKET_cons,
        parseExpressionList_ok ⟨RBRACKET, "]"⟩ (by decide) (by decide) (Or.inr rfl) es _ (m + 1)
          rest errs hA hes (by omega)]
    | IfExpression _ _ _ _ => simp [okExpression] at hok
    | FunctionLiteral _ _ _ => simp [okExpression] at hok
    | StringLiteral _ _ => simp [okExpression] at hok
    | HashLiteral t ps =>
      simp only [okExpression, Bool.and_eq_true, beq_iff_eq] at hok
      obtain ⟨rfl, hps⟩ := hok
      simp only [fuelFor] at hn hk
      obtain ⟨m, rfl⟩ : ∃ m, n = m + 1 + 1 := ⟨n - 2, by omega⟩
      intro prec rest errs hprec
      rw [lastToken_Hash, callDepth_Hash, tokensOf]
      cases ps with
      | nil =>
        rw [parseExpression]
        simp only [pairTokens, List.nil_append, List.cons_append]
        rw [prefix_LBRACE_empty]
      | cons a ps =>
        obtain ⟨key, value⟩ := a
        have hmem := okPairs_mem _ hps
        have hfu := fuelFor_le_pairsFuel ((key, value) :: ps)
        have hK := hmem (key, value) (List.mem_cons_self _ _)
        have hF : fuelFor key < pairsFuel ((key, value) :: ps)
            ∧ fuelFor value < pairsFuel ((key, value) :: ps) :=
          hfu (key, value) (List.mem_cons_self _ _)
        have hk1 : ∀ j, fuelFor key ≤ j → Reparses j key :=
          fun j hj => ih key (by omega) hK.1 j hj
        have hv1 : ∀ j, fuelFor value ≤ j → Reparses j value :=
          fun j hj => ih value (by omega) hK.2 j hj
        have hP : ∀ p ∈ ps, (∀ j, fuelFor p.1 ≤ j → Reparses j p.1)
            ∧ (∀ j, fuelFor p.2 ≤ j → Reparses j p.2) := by
          intro p hp
          have h1 := hmem p (List.mem_cons_of_mem _ hp)
          have h2 := hfu p (List.mem_cons_of_mem _ hp)
          exact ⟨fun j hj => ih p.1 (by omega) h1.1 j hj,
            fun j hj => ih p.2 (by omega) h1.2 j hj⟩
        rw [parseExpression]
        simp only [pairTokens, List.append_assoc, List.cons_append, List.singleton_append,
          List.nil_append]
        rw [prefix_LBRACE_tokens _ key hK.1,
          hashPairs ps (m + 1) [] ⟨LBRACE, "\x7b"⟩ key value rest errs hk1 hv1 hP (by omega)]
        simp only [List.nil_append]

/-- Every expression of the fragment is read back by `parseExpression` from its
tokens, given the fuel `fuelFor` asks for. -/
theorem reparses (e : Expression) (hok : okExpression e = true) (n : Nat)
    (hn : fuelFor e ≤ n) : Reparses n e :=
  reparses_aux (fuelFor e) e (Nat.le_refl _) hok n hn

end roundtrip

namespace roundtrip
open token ast lexer

theorem LexesTo.append {cs1 cs2 tail : List Char} {toks1 toks2 : List Token}
    (h1 : LexesTo cs1 toks1 (cs2 ++ tail)) (h2 : LexesTo cs2 toks2 tail) :
    LexesTo (cs1 ++ cs2) (toks1 ++ toks2) tail := by
  intro n
  have e : n + (toks1 ++ toks2).length = (n + toks2.length) + toks1.length := by
    simp only [List.length_append]
    omega
  rw [e, List.append_assoc, h1 (n + toks2.length), h2 n, List.append_assoc]

theorem LexesTo.nil (tail : List Char) : LexesTo [] [] tail := by
  intro n
  rfl

theorem takeWhile_append_stop (p : Char → Bool) (w tail : List Char)
    (hw : ∀ c ∈ w, p c = true) (ht : ∀ c, tail.head? = some c → p c = false) :
    (w ++ tail).takeWhile p = w ∧ (w ++ tail).dropWhile p = tail := by
  induction w with
  | nil =>
    cases tail with
    | nil => simp
    | cons c cs =>
      have := ht c rfl
      simp [List.takeWhile, List.dropWhile, this]
  | cons a w ih =>
    have ha := hw a (List.mem_cons_self _ _)
    have := ih (fun c hc => hw c (List.mem_cons_of_mem _ hc))
    simp [List.takeWhile, List.dropWhile, ha, this]

theorem Tokens_space (n : Nat) (cs : List Char) : Tokens n (' ' :: cs) = Tokens n cs := by
  cases n with
  | zero => rfl
  | succ n =>
    have h : NextToken (' ' :: cs) = NextToken cs := by
      simp only [NextToken]
      have : isWhitespace ' ' = true := by decide
      simp only [List.dropWhile, this]
    simp only [Tokens, h]

theorem LexesTo.space (tail : List Char) : LexesTo [' '] [] tail := by
  intro n
  exact Tokens_space n tail

theorem LexesTo.of_next (cs tail : List Char) (t : Token)
    (h : NextToken (cs ++ tail) = (t, tail)) (hne : t.Type_ ≠ EOF) : LexesTo cs [t] tail := by
  intro n
  show Tokens (n + 1) (cs ++ tail) = t :: Tokens n tail
  simp only [Tokens, h, hne, if_false]

theorem LexesTo.LPAREN (tail : List Char) : LexesTo ['('] [⟨LPAREN, "("⟩] tail :=
  LexesTo.of_next ['('] _ _ rfl (by decide)

theorem LexesTo.RPAREN (tail : List Char) : LexesTo [')'] [⟨RPAREN, ")"⟩] tail :=
  LexesTo.of_next [')'] _ _ rfl (by decide)

theorem LexesTo.LBRACKET (tail : List Char) : LexesTo ['['] [⟨LBRACKET, "["⟩] tail :=
  LexesTo.of_next ['['] _ _ rfl (by decide)

theorem LexesTo.RBRACKET (tail : List Char) : LexesTo [']'] [⟨RBRACKET, "]"⟩] tail :=
  LexesTo.of_next [']'] _ _ rfl (by decide)

theorem LexesTo.COMMA (tail : List Char) : LexesTo [','] [⟨COMMA, ","⟩] tail :=
  LexesTo.of_next [','] _ _ rfl (by decide)

theorem LexesTo.COLON (tail : List Char) : LexesTo [':'] [⟨COLON, ":"⟩] tail :=
  LexesTo.of_next [':'] _ _ rfl (by decide)

theorem LexesTo.LBRACE (tail : List Char) : LexesTo ['\x7b'] [⟨LBRACE, "\x7b"⟩] tail :=
  LexesTo.of_next ['\x7b'] _ _ rfl (by decide)

theorem LexesTo.RBRACE (tail : List Char) : LexesTo ['\x7d'] [⟨RBRACE, "\x7d"⟩] tail :=
  LexesTo.of_next ['\x7d'] _ _ rfl (by decide)

theorem LexesTo.SEMICOLON (tail : List Char) : LexesTo [';'] [⟨SEMICOLON, ";"⟩] tail :=
  LexesTo.of_next [';'] _ _ rfl (by decide)

theorem LexesTo.MINUS (tail : List Char) : LexesTo ['-'] [⟨MINUS, "-"⟩] tail :=
  LexesTo.of_next ['-'] _ _ rfl (by decide)

theorem LexesTo.ASSIGN (tail : List Char) :
    LexesTo ['='] [⟨ASSIGN, "="⟩] (' ' :: tail) :=
  LexesTo.of_next ['='] _ _ rfl (by decide)

theorem LexesTo.BANG (c : Char) (tail : List Char) (hc : c ≠ '=') :
    LexesTo ['!'] [⟨BANG, "!"⟩] (c :: tail) := by
  apply LexesTo.of_next ['!'] _ _ _ (by decide)
  have hw : isWhitespace '!' = false := by decide
  have h1 : ('!' : Char) ≠ '=' := by decide
  unfold NextToken
  simp only [List.singleton_append, List.dropWhile, hw]
  unfold readToken
  simp only [h1, if_false, if_true]
  split
  · rename_i rest2 h
    have h2 : c :: tail = '=' :: rest2 := h
    exact absurd (List.cons.inj h2).1 hc
  · rfl

/-- The eight operators, each between two spaces as `InfixExpression.String`
writes them. -/
theorem LexesTo.operator (t : Token) (h : operatorTokens.contains t = true) (tail : List Char) :
    LexesTo (' ' :: (t.Literal.data ++ [' '])) [t] tail := by
  simp only [operatorTokens, List.contains_eq_any_beq, List.any_cons, List.any_nil,
    Bool.or_false, Bool.or_eq_true, beq_iff_eq] at h
  have key : ∀ (cs : List Char) (t : Token), t.Type_ ≠ token.EOF →
      (∀ tl, NextToken (cs ++ ' ' :: tl) = (t, ' ' :: tl)) →
      LexesTo (' ' :: (cs ++ [' '])) [t] tail := by
    intro cs t hne hnext
    have h1 : LexesTo [' '] [] ((cs ++ [' ']) ++ tail) := LexesTo.space _
    have h2 : LexesTo cs [t] ([' '] ++ tail) := LexesTo.of_next _ _ _ (hnext tail) hne
    have h3 : LexesTo [' '] [] tail := LexesTo.space _
    exact h1.append (h2.append h3)
  rcases h with h | h | h | h | h | h | h | h <;> subst h
  · exact key ['+'] _ (by decide) (fun _ => rfl)
  · exact key ['-'] _ (by decide) (fun _ => rfl)
  · exact key ['*'] _ (by decide) (fun _ => rfl)
  · exact key ['/'] _ (by decide) (fun _ => rfl)
  · exact key ['<'] _ (by decide) (fun _ => rfl)
  · exact key ['>'] _ (by decide) (fun _ => rfl)
  · exact key ['=', '='] _ (by decide) (fun _ => rfl)
  · exact key ['!', '='] _ (by decide) (fun _ => rfl)

end roundtrip

namespace roundtrip
open token ast lexer

theorem letter_ne (c d : Char) (h : isLetter c = true) (hd : isLetter d = false) : c ≠ d := by
  rintro rfl
  rw [h] at hd
  cases hd

theorem digit_ne (c d : Char) (h : isDigit c = true) (hd : isDigit d = false) : c ≠ d := by
  rintro rfl
  rw [h] at hd
  cases hd

theorem letter_not_whitespace (c : Char) (h : isLetter c = true) : isWhitespace c = false := by
  by_contra hw
  simp only [isWhitespace, Bool.not_eq_false, Bool.or_eq_true, beq_iff_eq] at hw
  rcases hw with ((hw | hw) | hw) | hw <;> subst hw <;> revert h <;> decide

theorem digit_not_whitespace (c : Char) (h : isDigit c = true) : isWhitespace c = false := by
  by_contra hw
  simp only [isWhitespace, Bool.not_eq_false, Bool.or_eq_true, beq_iff_eq] at hw
  rcases hw with ((hw | hw) | hw) | hw <;> subst hw <;> revert h <;> decide

theorem digit_not_letter (c : Char) (h : isDigit c = true) : isLetter c = false := by
  simp only [isDigit, Bool.and_eq_true, decide_eq_true_eq] at h
  obtain ⟨h1, h2⟩ := h
  have h1' : ('0' : Char).toNat ≤ c.toNat := h1
  have h2' : c.toNat ≤ ('9' : Char).toNat := h2
  have e0 : ('0' : Char).toNat = 48 := rfl
  have e9 : ('9' : Char).toNat = 57 := rfl
  rw [e0] at h1'
  rw [e9] at h2'
  by_contra hl
  simp only [isLetter, Bool.not_eq_false, Bool.or_eq_true, Bool.and_eq_true, decide_eq_true_eq,
    beq_iff_eq] at hl
  rcases hl with (⟨a, b⟩ | ⟨a, b⟩) | a
  · have a' : ('a' : Char).toNat ≤ c.toNat := a
    have ea : ('a' : Char).toNat = 97 := rfl
    omega
  · have a' : ('A' : Char).toNat ≤ c.toNat := a
    have ea : ('A' : Char).toNat = 65 := rfl
    omega
  · subst a
    revert h2'
    decide

theorem NextToken_word (c : Char) (w tail : List Char) (hc : isLetter c = true)
    (hw : ∀ d ∈ w, isLetter d = true)
    (ht : ∀ d, tail.head? = some d → isLetter d = false) :
    NextToken ((c :: w) ++ tail)
      = (⟨TextToTokenType (String.mk (c :: w)), String.mk (c :: w)⟩, tail) := by
  have hws := letter_not_whitespace c hc
  have n1 := letter_ne c '=' hc (by decide)
  have n2 := letter_ne c '!' hc (by decide)
  have n3 := letter_ne c '+' hc (by decide)
  have n4 := letter_ne c '-' hc (by decide)
  have n5 := letter_ne c '*' hc (by decide)
  have n6 := letter_ne c '/' hc (by decide)
  have n7 := letter_ne c '<' hc (by decide)
  have n8 := letter_ne c '>' hc (by decide)
  have n9 := letter_ne c ',' hc (by decide)
  have n10 := letter_ne c ';' hc (by decide)
  have n11 := letter_ne c ':' hc (by decide)
  have n12 := letter_ne c '(' hc (by decide)
  have n13 := letter_ne c ')' hc (by decide)
  have n14 := letter_ne c '\x7b' hc (by decide)
  have n15 := letter_ne c '\x7d' hc (by decide)
  have n16 := letter_ne c '[' hc (by decide)
  have n17 := letter_ne c ']' hc (by decide)
  have n18 := letter_ne c '"' hc (by decide)
  have htw := takeWhile_append_stop isLetter (c :: w) tail
    (fun d hd => by
      rcases List.mem_cons.mp hd with rfl | hd
      · exact hc
      · exact hw d hd) ht
  rw [List.cons_append] at htw ⊢
  have hd2 : List.dropWhile isLetter (w ++ tail) = tail := by
    have := htw.2
    simpa only [List.dropWhile, hc] using this
  unfold NextToken
  simp only [List.dropWhile, hws]
  unfold readToken
  simp only [List.dropWhile, n1, n2, n3, n4, n5, n6, n7, n8, n9, n10, n11, n12, n13, n14,
    n15, n16, n17, n18, if_false, hc, if_true, htw.1, hd2]

theorem NextToken_digits (c : Char) (w tail : List Char) (hc : isDigit c = true)
    (hw : ∀ d ∈ w, isDigit d = true)
    (ht : ∀ d, tail.head? = some d → isDigit d = false) :
    NextToken ((c :: w) ++ tail) = (⟨INT, String.mk (c :: w)⟩, tail) := by
  have hws := digit_not_whitespace c hc
  have hl := digit_not_letter c hc
  have n1 := digit_ne c '=' hc (by decide)
  have n2 := digit_ne c '!' hc (by decide)
  have n3 := digit_ne c '+' hc (by decide)
  have n4 := digit_ne c '-' hc (by decide)
  have n5 := digit_ne c '*' hc (by decide)
  have n6 := digit_ne c '/' hc (by decide)
  have n7 := digit_ne c '<' hc (by decide)
  have n8 := digit_ne c '>' hc (by decide)
  have n9 := digit_ne c ',' hc (by decide)
  have n10 := digit_ne c ';' hc (by decide)
  have n11 := digit_ne c ':' hc (by decide)
  have n12 := digit_ne c '(' hc (by decide)
  have n13 := digit_ne c ')' hc (by decide)
  have n14 := digit_ne c '\x7b' hc (by decide)
  have n15 := digit_ne c '\x7d' hc (by decide)
  have n16 := digit_ne c '[' hc (by decide)
  have n17 := digit_ne c ']' hc (by decide)
  have n18 := digit_ne c '"' hc (by decide)
  have htw := takeWhile_append_stop isDigit (c :: w) tail
    (fun d hd => by
      rcases List.mem_cons.mp hd with rfl | hd
      · exact hc
      · exact hw d hd) ht
  rw [List.cons_append] at htw ⊢
  have hd2 : List.dropWhile isDigit (w ++ tail) = tail := by
    have := htw.2
    simpa only [List.dropWhile, hc] using this
  unfold NextToken
  simp only [List.dropWhile, hws]
  unfold readToken
  simp only [List.dropWhile, n1, n2, n3, n4, n5, n6, n7, n8, n9, n10, n11, n12, n13, n14,
    n15, n16, n17, n18, if_false, hc, hl, if_true, htw.1, hd2, Bool.false_eq_true]

/-- A name of the fragment, in front of a rest that does not start with a
letter, is read as its `IDENT` token. -/
theorem LexesTo.name (s : String) (h : okName s = true) (tail : List Char)
    (ht : ∀ d, tail.head? = some d → isLetter d = false) : LexesTo s.data [⟨IDENT, s⟩] tail := by
  simp only [okName, Bool.and_eq_true, Bool.not_eq_true', List.isEmpty_eq_false,
    List.all_eq_true, beq_iff_eq] at h
  obtain ⟨⟨hne, hall⟩, hty⟩ := h
  obtain ⟨cs⟩ := s
  cases cs with
  | nil => exact absurd rfl hne
  | cons c w =>
    have hn := NextToken_word c w tail (hall c (List.mem_cons_self _ _))
      (fun d hd => hall d (List.mem_cons_of_mem _ hd)) ht
    have hty2 : TextToTokenType (String.mk (c :: w)) = IDENT := hty
    rw [hty2] at hn
    exact LexesTo.of_next _ _ _ hn (show IDENT ≠ EOF by decide)

/-- A digit run, in front of a rest that does not start with a digit, is read
as its `INT` token. -/
theorem LexesTo.digits (t : Token) (h1 : t.Type_ = INT) (h2 : t.Literal.data.isEmpty = false)
    (h3 : t.Literal.data.all isDigit = true) (tail : List Char)
    (ht : ∀ d, tail.head? = some d → isDigit d = false) :
    LexesTo t.Literal.data [t] tail := by
  obtain ⟨ty, ⟨cs⟩⟩ := t
  simp only at h1 h2 h3 ⊢
  subst h1
  simp only [List.all_eq_true] at h3
  cases cs with
  | nil => simp at h2
  | cons c w =>
    have hn := NextToken_digits c w tail (h3 c (List.mem_cons_self _ _))
      (fun d hd => h3 d (List.mem_cons_of_mem _ hd)) ht
    exact LexesTo.of_next _ _ _ hn (show INT ≠ EOF by decide)

theorem LexesTo.true_ (tail : List Char)
    (ht : ∀ d, tail.head? = some d → isLetter d = false) :
    LexesTo "true".data [⟨TRUE, "true"⟩] tail := by
  have hn := NextToken_word 't' ['r', 'u', 'e'] tail (by decide) (by decide) ht
  exact LexesTo.of_next _ _ _ hn (by decide)

theorem LexesTo.false_ (tail : List Char)
    (ht : ∀ d, tail.head? = some d → isLetter d = false) :
    LexesTo "false".data [⟨FALSE, "false"⟩] tail := by
  have hn := NextToken_word 'f' ['a', 'l', 's', 'e'] tail (by decide) (by decide) ht
  exact LexesTo.of_next _ _ _ hn (by decide)

theorem LexesTo.let_ (tail : List Char) : LexesTo "let".data [⟨LET, "let"⟩] (' ' :: tail) := by
  have hn := NextToken_word 'l' ['e', 't'] (' ' :: tail) (by decide) (by decide)
    (fun d hd => by
      simp only [List.head?_cons, Option.some.injEq] at hd
      subst hd
      decide)
  exact LexesTo.of_next _ _ _ hn (by decide)

theorem LexesTo.return_ (tail : List Char) :
    LexesTo "return".data [⟨RETURN, "return"⟩] (' ' :: tail) := by
  have hn := NextToken_word 'r' ['e', 't', 'u', 'r', 'n'] (' ' :: tail) (by decide) (by decide)
    (fun d hd => by
      simp only [List.head?_cons, Option.some.injEq] at hd
      subst hd
      decide)
  exact LexesTo.of_next _ _ _ hn (by decide)

theorem Separated.of_safe (cs tail : List Char) (h : SafeTail tail) : Separated cs tail :=
  fun _ b _ hb => ⟨fun _ => (h b hb).1, fun _ => (h b hb).2⟩

/-- After a run of letters, a separated rest does not start with a letter. -/
theorem Separated.after_letters (c : Char) (w tail : List Char)
    (hall : ∀ d ∈ c :: w, isLetter d = true) (h : Separated (c :: w) tail) :
    ∀ d, tail.head? = some d → isLetter d = false :=
  fun d hd => (h ((c :: w).getLast (List.cons_ne_nil _ _)) d
    (List.getLast?_eq_getLast _ _) hd).1 (hall _ (List.getLast_mem _))

/-- After a run of digits, a separated rest does not start with a digit. -/
theorem Separated.after_digits (c : Char) (w tail : List Char)
    (hall : ∀ d ∈ c :: w, isDigit d = true) (h : Separated (c :: w) tail) :
    ∀ d, tail.head? = some d → isDigit d = false :=
  fun d hd => (h ((c :: w).getLast (List.cons_ne_nil _ _)) d
    (List.getLast?_eq_getLast _ _) hd).2 (hall _ (List.getLast_mem _))

end roundtrip

namespace roundtrip
open token ast lexer

theorem data_Prefix (t : Token) (op : String) (r : Expression) :
    (Expression.PrefixExpression t op r).String.data
      = ['('] ++ (op.data ++ (r.String.data ++ [')'])) := by
  simp only [Expression.String, String.data_append, List.append_assoc]

theorem data_Infix (t : Token) (op : String) (l r : Expression) :
    (Expression.InfixExpression t l r op).String.data
      = ['('] ++ (l.String.data ++ ((' ' :: (op.data ++ [' '])) ++ (r.String.data ++ [')']))) := by
  simp only [Expression.String, String.data_append, List.append_assoc, List.cons_append,
    List.singleton_append, List.nil_append]

theorem data_Index (t : Token) (l r : Expression) :
    (Expression.IndexExpression t l r).String.data
      = ['('] ++ (l.String.data ++ (['['] ++ (r.String.data ++ ([']'] ++ [')'])))) := by
  simp only [Expression.String, String.data_append, List.append_assoc]
  rfl

theorem data_foldl_Join (l : List String) (acc : String) :
    (l.foldl (fun b s => b ++ ", " ++ s) acc).data
      = acc.data ++ l.flatMap (fun s => ',' :: ' ' :: s.data) := by
  induction l generalizing acc with
  | nil => simp
  | cons a l ih =>
    simp only [List.foldl_cons, ih, String.data_append, List.flatMap_cons, List.append_assoc]
    rfl

/-- The characters of a comma-separated list of canonical strings. -/
theorem data_Join (es : List Expression) :
    (strings.Join (Expressions_Strings es) ", ").data
      = match es with
        | [] => []
        | e :: es => e.String.data ++ es.flatMap (fun x => ',' :: ' ' :: x.String.data) := by
  cases es with
  | nil => rfl
  | cons e es =>
    simp only [Expressions_Strings_eq_map, List.map_cons, strings.Join, data_foldl_Join,
      List.flatMap_map]

theorem data_Call (t : Token) (f : Expression) (args : List Expression) :
    (Expression.CallExpression t f args).String.data
      = f.String.data ++ (['('] ++ ((strings.Join (Expressions_Strings args) ", ").data ++ [')']))
    := by
  simp only [Expression.String, String.data_append, List.append_assoc]

theorem data_Array (t : Token) (es : List Expression) :
    (Expression.ArrayLiteral t es).String.data
      = ['['] ++ ((strings.Join (Expressions_Strings es) ", ").data ++ [']']) := by
  simp only [Expression.String, String.data_append, List.append_assoc]

theorem SafeTail.cons (c : Char) (cs : List Char) (h1 : isLetter c = false)
    (h2 : isDigit c = false) : SafeTail (c :: cs) := by
  intro d hd
  simp only [List.head?_cons, Option.some.injEq] at hd
  subst hd
  exact ⟨h1, h2⟩

theorem SafeTail.empty : SafeTail [] := by
  intro d hd
  cases hd

theorem SafeTail.before_commas (es : List Expression) (tail : List Char) (ht : SafeTail tail) :
    SafeTail (es.flatMap (fun x => ',' :: ' ' :: x.String.data) ++ tail) := by
  cases es with
  | nil => simpa using ht
  | cons e es =>
    simp only [List.flatMap_cons, List.cons_append]
    exact SafeTail.cons _ _ (by decide) (by decide)

theorem LexesTo.commas (es : List Expression)
    (h : ∀ e ∈ es, ∀ tail, SafeTail tail → LexesTo e.String.data (tokensOf e) tail)
    (tail : List Char) (ht : SafeTail tail) :
    LexesTo (es.flatMap (fun x => ',' :: ' ' :: x.String.data)) (commaTokens es) tail := by
  induction es with
  | nil => exact LexesTo.nil tail
  | cons e es ih =>
    have ih2 := ih (fun e' he' => h e' (List.mem_cons_of_mem _ he'))
    have he := h e (List.mem_cons_self _ _) _ (SafeTail.before_commas es tail ht)
    have h1 := LexesTo.COMMA (([' '] ++ (e.String.data
      ++ es.flatMap (fun x => ',' :: ' ' :: x.String.data))) ++ tail)
    have h2 := LexesTo.space ((e.String.data
      ++ es.flatMap (fun x => ',' :: ' ' :: x.String.data)) ++ tail)
    exact h1.append (h2.append (he.append ih2))

theorem LexesTo.list (es : List Expression)
    (h : ∀ e ∈ es, ∀ tail, SafeTail tail → LexesTo e.String.data (tokensOf e) tail)
    (tail : List Char) (ht : SafeTail tail) :
    LexesTo (strings.Join (Expressions_Strings es) ", ").data (listTokens es) tail := by
  rw [data_Join]
  cases es with
  | nil => exact LexesTo.nil tail
  | cons e es =>
    have he := h e (List.mem_cons_self _ _) _ (SafeTail.before_commas es tail ht)
    have hes := LexesTo.commas es (fun e' he' => h e' (List.mem_cons_of_mem _ he')) tail ht
    exact he.append hes

theorem Pairs_Strings_eq_map (ps : List (Expression × Expression)) :
    Pairs_Strings ps = ps.map (fun p => p.1.String ++ ":" ++ p.2.String) := by
  induction ps with
  | nil => simp only [Pairs_Strings, List.map_nil]
  | cons p ps ih =>
    obtain ⟨k, v⟩ := p
    simp only [Pairs_Strings, List.map_cons, ih]

/-- The characters of a comma-separated list of `key:value` strings. -/
theorem data_JoinPairs (ps : List (Expression × Expression)) :
    (strings.Join (Pairs_Strings ps) ", ").data
      = match ps with
        | [] => []
        | p :: ps => (p.1.String.data ++ ([':'] ++ p.2.String.data))
            ++ ps.flatMap (fun x => ',' :: ' ' :: (x.1.String.data ++ ([':'] ++ x.2.String.data)))
    := by
  cases ps with
  | nil => rfl
  | cons p ps =>
    simp only [Pairs_Strings_eq_map, List.map_cons, strings.Join, data_foldl_Join,
      List.flatMap_map, String.data_append, List.append_assoc]

theorem data_Hash (t : Token) (ps : List (Expression × Expression)) :
    (Expression.HashLiteral t ps).String.data
      = ['\x7b'] ++ ((strings.Join (Pairs_Strings ps) ", ").data ++ ['\x7d']) := by
  simp only [Expression.String, String.data_append, List.append_assoc]

theorem SafeTail.before_pairs (ps : List (Expression × Expression)) (tail : List Char)
    (ht : SafeTail tail) :
    SafeTail (ps.flatMap
      (fun x => ',' :: ' ' :: (x.1.String.data ++ ([':'] ++ x.2.String.data))) ++ tail) := by
  cases ps with
  | nil => simpa using ht
  | cons p ps =>
    simp only [List.flatMap_cons, List.cons_append]
    exact SafeTail.cons _ _ (by decide) (by decide)

theorem LexesTo.commaPairs (ps : List (Expression × Expression))
    (h : ∀ p ∈ ps, (∀ tail, SafeTail tail → LexesTo p.1.String.data (tokensOf p.1) tail)
      ∧ (∀ tail, SafeTail tail → LexesTo p.2.String.data (tokensOf p.2) tail))
    (tail : List Char) (ht : SafeTail tail) :
    LexesTo (ps.flatMap (fun x => ',' :: ' ' :: (x.1.String.data ++ ([':'] ++ x.2.String.data))))
      (commaPairTokens ps) tail := by
  induction ps with
  | nil => exact LexesTo.nil tail
  | cons p ps ih =>
    obtain ⟨k, v⟩ := p
    have ih2 := ih (fun p' hp' => h p' (List.mem_cons_of_mem _ hp'))
    have hp := h (k, v) (List.mem_cons_self _ _)
    have hv := hp.2 _ (SafeTail.before_pairs ps tail ht)
    have hk := hp.1 (([':'] ++ (v.String.data ++ ps.flatMap
      (fun x => ',' :: ' ' :: (x.1.String.data ++ ([':'] ++ x.2.String.data))))) ++ tail)
      (SafeTail.cons _ _ (by decide) (by decide))
    have h1 := LexesTo.COMMA (([' '] ++ (k.String.data ++ ([':'] ++ (v.String.data ++ ps.flatMap
      (fun x => ',' :: ' ' :: (x.1.String.data ++ ([':'] ++ x.2.String.data))))))) ++ tail)
    have h2 := LexesTo.space ((k.String.data ++ ([':'] ++ (v.String.data ++ ps.flatMap
      (fun x => ',' :: ' ' :: (x.1.String.data ++ ([':'] ++ x.2.String.data)))))) ++ tail)
    have h3 := LexesTo.COLON ((v.String.data ++ ps.flatMap
      (fun x => ',' :: ' ' :: (x.1.String.data ++ ([':'] ++ x.2.String.data)))) ++ tail)
    have hall := h1.append (h2.append (hk.append (h3.append (hv.append ih2))))
    simp only [List.flatMap_cons, commaPairTokens]
    simpa only [List.append_assoc, List.cons_append, List.nil_append, List.singleton_append]
      using hall

theorem LexesTo.pairs (ps : List (Expression × Expression))
    (h : ∀ p ∈ ps, (∀ tail, SafeTail tail → LexesTo p.1.String.data (tokensOf p.1) tail)
      ∧ (∀ tail, SafeTail tail → LexesTo p.2.String.data (tokensOf p.2) tail))
    (tail : List Char) (ht : SafeTail tail) :
    LexesTo (strings.Join (Pairs_Strings ps) ", ").data (pairTokens ps) tail := by
  rw [data_JoinPairs]
  cases ps with
  | nil => exact LexesTo.nil tail
  | cons p ps =>
    obtain ⟨k, v⟩ := p
    have hp := h (k, v) (List.mem_cons_self _ _)
    have hes := LexesTo.commaPairs ps (fun p' hp' => h p' (List.mem_cons_of_mem _ hp')) tail ht
    have hv := hp.2 _ (SafeTail.before_pairs ps tail ht)
    have hk := hp.1 (([':'] ++ (v.String.data ++ ps.flatMap
      (fun x => ',' :: ' ' :: (x.1.String.data ++ ([':'] ++ x.2.String.data))))) ++ tail)
      (SafeTail.cons _ _ (by decide) (by decide))
    have h3 := LexesTo.COLON ((v.String.data ++ ps.flatMap
      (fun x => ',' :: ' ' :: (x.1.String.data ++ ([':'] ++ x.2.String.data)))) ++ tail)
    have hall := hk.append (h3.append (hv.append hes))
    simp only [pairTokens]
    simpa only [List.append_assoc, List.cons_append, List.nil_append, List.singleton_append]
      using hall

end roundtrip

namespace roundtrip
open token ast lexer

/-- The canonical string of an expression of the fragment starts with a
character other than `=`, and with the bracket its first token names when that
token is an opening parenthesis or square bracket. -/
theorem data_head : ∀ (k : Nat) (e : Expression), fuelFor e ≤ k → okExpression e = true →
    ∃ c cs, e.String.data = c :: cs ∧ c ≠ '='
      ∧ ∀ t ts, tokensOf e = t :: ts →
          (t.Type_ = LPAREN → c = '(') ∧ (t.Type_ = LBRACKET → c = '[') := by
  intro k
  induction k with
  | zero =>
    intro e hk
    cases e <;> simp [fuelFor] at hk
  | succ k ih =>
    intro e hk hok
    cases e with
    | Identifier i =>
      simp only [okExpression, okIdentifier, okName, Bool.and_eq_true, Bool.not_eq_true',
        List.isEmpty_eq_false, List.all_eq_true, beq_iff_eq] at hok
      obtain ⟨htok, ⟨hne, hall⟩, -⟩ := hok
      obtain ⟨tok, ⟨cs⟩⟩ := i
      cases cs with
      | nil => exact absurd rfl hne
      | cons c w =>
        refine ⟨c, w, rfl, letter_ne c '=' (hall c (List.mem_cons_self _ _)) (by decide), ?_⟩
        intro t ts h
        simp only [tokensOf, List.cons.injEq] at h
        obtain ⟨rfl, -⟩ := h
        simp only at htok
        subst htok
        exact ⟨fun h => absurd h (show IDENT ≠ LPAREN by decide),
          fun h => absurd h (show IDENT ≠ LBRACKET by decide)⟩
    | IntegerLiteral t v =>
      simp only [okExpression, Bool.and_eq_true, Bool.not_eq_true', List.all_eq_true,
        beq_iff_eq] at hok
      obtain ⟨⟨⟨hty, hne⟩, hall⟩, -⟩ := hok
      obtain ⟨ty, ⟨cs⟩⟩ := t
      cases cs with
      | nil => simp at hne
      | cons c w =>
        refine ⟨c, w, rfl, digit_ne c '=' (hall c (List.mem_cons_self _ _)) (by decide), ?_⟩
        intro t ts h
        simp only [tokensOf, List.cons.injEq] at h
        obtain ⟨rfl, -⟩ := h
        simp only at hty
        subst hty
        exact ⟨fun h => absurd h (show INT ≠ LPAREN by decide),
          fun h => absurd h (show INT ≠ LBRACKET by decide)⟩
    | Boolean t v =>
      simp only [okExpression, Bool.or_eq_true, Bool.and_eq_true, beq_iff_eq] at hok
      rcases hok with ⟨rfl, -⟩ | ⟨rfl, -⟩
      · refine ⟨'t', ['r', 'u', 'e'], rfl, by decide, ?_⟩
        intro t ts h
        simp only [tokensOf, List.cons.injEq] at h
        obtain ⟨rfl, -⟩ := h
        exact ⟨fun h => absurd h (by decide), fun h => absurd h (by decide)⟩
      · refine ⟨'f', ['a', 'l', 's', 'e'], rfl, by decide, ?_⟩
        intro t ts h
        simp only [tokensOf, List.cons.injEq] at h
        obtain ⟨rfl, -⟩ := h
        exact ⟨fun h => absurd h (by decide), fun h => absurd h (by decide)⟩
    | PrefixExpression t op r =>
      refine ⟨'(', _, by rw [data_Prefix]; rfl, by decide, ?_⟩
      intro t2 ts h
      simp only [tokensOf, List.cons.injEq] at h
      obtain ⟨rfl, -⟩ := h
      exact ⟨fun _ => rfl, fun h => absurd h (by decide)⟩
    | InfixExpression t l r op =>
      refine ⟨'(', _, by rw [data_Infix]; rfl, by decide, ?_⟩
      intro t2 ts h
      simp only [tokensOf, List.cons.injEq] at h
      obtain ⟨rfl, -⟩ := h
      exact ⟨fun _ => rfl, fun h => absurd h (by decide)⟩
    | IndexExpression t l r =>
      refine ⟨'(', _, by rw [data_Index]; rfl, by decide, ?_⟩
      intro t2 ts h
      simp only [tokensOf, List.cons.injEq] at h
      obtain ⟨rfl, -⟩ := h
      exact ⟨fun _ => rfl, fun h => absurd h (by decide)⟩
    | CallExpression t f args =>
      simp only [okExpression, Bool.and_eq_true] at hok
      simp only [fuelFor] at hk
      obtain ⟨c, cs, h1, h2, h3⟩ := ih f (by omega) hok.1.2
      obtain ⟨t1, ts1, h4, -⟩ := tokensOf_head_mem (fuelFor f) f (Nat.le_refl _) hok.1.2
      refine ⟨c, _, by rw [data_Call, h1]; rfl, h2, ?_⟩
      intro t2 ts h
      simp only [tokensOf, h4, List.cons_append, List.cons.injEq] at h
      obtain ⟨rfl, -⟩ := h
      exact h3 t1 ts1 h4
    | ArrayLiteral t es =>
      simp only [okExpression, Bool.and_eq_true, beq_iff_eq] at hok
      obtain ⟨rfl, -⟩ := hok
      refine ⟨'[', _, by rw [data_Array]; rfl, by decide, ?_⟩
      intro t2 ts h
      simp only [tokensOf, List.cons.injEq] at h
      obtain ⟨rfl, -⟩ := h
      exact ⟨fun h => absurd h (by decide), fun _ => rfl⟩
    | HashLiteral t ps =>
      simp only [okExpression, Bool.and_eq_true, beq_iff_eq] at hok
      obtain ⟨rfl, -⟩ := hok
      refine ⟨'\x7b', _, by rw [data_Hash]; rfl, by decide, ?_⟩
      intro t2 ts h
      simp only [tokensOf, List.cons.injEq] at h
      obtain ⟨rfl, -⟩ := h
      exact ⟨fun h => absurd h (by decide), fun h => absurd h (by decide)⟩
    | IfExpression _ _ _ _ => simp [okExpression] at hok
    | FunctionLiteral _ _ _ => simp [okExpression] at hok
    | StringLiteral _ _ => simp [okExpression] at hok

theorem lexes_aux : ∀ (k : Nat) (e : Expression), fuelFor e ≤ k → okExpression e = true →
    ∀ tail, Separated e.String.data tail → LexesTo e.String.data (tokensOf e) tail := by
  intro k
  induction k with
  | zero =>
    intro e hk
    cases e <;> simp [fuelFor] at hk
  | succ k ih =>
    intro e hk hok tail ht
    cases e with
    | Identifier i =>
      obtain ⟨tok, val⟩ := i
      simp only [okExpression, okIdentifier, Bool.and_eq_true, beq_iff_eq] at hok
      obtain ⟨rfl, hname⟩ := hok
      have hname2 := hname
      simp only [okName, Bool.and_eq_true, Bool.not_eq_true', List.isEmpty_eq_false,
        List.all_eq_true, beq_iff_eq] at hname2
      obtain ⟨⟨hne, hall⟩, -⟩ := hname2
      obtain ⟨cs⟩ := val
      cases cs with
      | nil => exact absurd rfl hne
      | cons c w =>
        exact LexesTo.name _ hname tail (Separated.after_letters c w tail hall ht)
    | IntegerLiteral t v =>
      simp only [okExpression, Bool.and_eq_true, Bool.not_eq_true', beq_iff_eq] at hok
      obtain ⟨⟨⟨h1, h2⟩, h3⟩, -⟩ := hok
      obtain ⟨ty, ⟨cs⟩⟩ := t
      cases cs with
      | nil => simp at h2
      | cons c w =>
        exact LexesTo.digits _ h1 h2 h3 tail
          (Separated.after_digits c w tail (by simpa [List.all_eq_true] using h3) ht)
    | Boolean t v =>
      simp only [okExpression, Bool.or_eq_true, Bool.and_eq_true, beq_iff_eq] at hok
      rcases hok with ⟨rfl, -⟩ | ⟨rfl, -⟩
      · exact LexesTo.true_ tail
          (Separated.after_letters 't' ['r', 'u', 'e'] tail (by decide) ht)
      · exact LexesTo.false_ tail
          (Separated.after_letters 'f' ['a', 'l', 's', 'e'] tail (by decide) ht)
    | PrefixExpression t op r =>
      simp only [okExpression, Bool.or_eq_true, Bool.and_eq_true, beq_iff_eq] at hok
      obtain ⟨⟨ht2, rfl⟩, hr⟩ := hok
      simp only [fuelFor] at hk
      have hR := ih r (by omega) hr (([')']) ++ tail)
        (Separated.of_safe _ _ (SafeTail.cons _ _ (by decide) (by decide)))
      obtain ⟨c, cs, hc1, hc2, -⟩ := data_head (fuelFor r) r (Nat.le_refl _) hr
      rw [data_Prefix]
      have hop : LexesTo t.Literal.data [t] ((r.String.data ++ [')']) ++ tail) := by
        rcases ht2 with rfl | rfl
        · rw [hc1]
          exact LexesTo.BANG c _ hc2
        · exact LexesTo.MINUS _
      exact (LexesTo.LPAREN _).append (hop.append (hR.append (LexesTo.RPAREN tail)))
    | InfixExpression t l r op =>
      simp only [okExpression, Bool.and_eq_true, beq_iff_eq] at hok
      obtain ⟨⟨⟨ht2, rfl⟩, hl⟩, hr⟩ := hok
      simp only [fuelFor] at hk
      have hR := ih r (by omega) hr (([')']) ++ tail)
        (Separated.of_safe _ _ (SafeTail.cons _ _ (by decide) (by decide)))
      have hL := ih l (by omega) hl
        (((' ' :: (t.Literal.data ++ [' '])) ++ (r.String.data ++ [')'])) ++ tail)
        (Separated.of_safe _ _ (SafeTail.cons _ _ (by decide) (by decide)))
      rw [data_Infix]
      exact (LexesTo.LPAREN _).append (hL.append ((LexesTo.operator t ht2 _).append
        (hR.append (LexesTo.RPAREN tail))))
    | IndexExpression t l r =>
      simp only [okExpression, Bool.and_eq_true, beq_iff_eq] at hok
      obtain ⟨⟨rfl, hl⟩, hr⟩ := hok
      simp only [fuelFor] at hk
      have hR := ih r (by omega) hr (([']'] ++ [')']) ++ tail)
        (Separated.of_safe _ _ (SafeTail.cons _ _ (by decide) (by decide)))
      have hL := ih l (by omega) hl ((['['] ++ (r.String.data ++ ([']'] ++ [')']))) ++ tail)
        (Separated.of_safe _ _ (SafeTail.cons _ _ (by decide) (by decide)))
      rw [data_Index]
      exact (LexesTo.LPAREN _).append (hL.append ((LexesTo.LBRACKET _).append
        (hR.append ((LexesTo.RBRACKET _).append (LexesTo.RPAREN tail)))))
    | CallExpression t f args =>
      simp only [okExpression, Bool.and_eq_true, beq_iff_eq] at hok
      obtain ⟨⟨rfl, hf⟩, hargs⟩ := hok
      simp only [fuelFor] at hk
      have hF := ih f (by omega) hf
        ((['('] ++ ((strings.Join (Expressions_Strings args) ", ").data ++ [')'])) ++ tail)
        (Separated.of_safe _ _ (SafeTail.cons _ _ (by decide) (by decide)))
      have hA := LexesTo.list args (fun e he tl htl =>
        ih e (by have := fuelFor_le_listFuel args e he; omega)
          (okExpressions_mem args hargs e he) tl (Separated.of_safe _ _ htl)) (([')']) ++ tail)
        (SafeTail.cons _ _ (by decide) (by decide))
      rw [data_Call]
      exact hF.append ((LexesTo.LPAREN _).append (hA.append (LexesTo.RPAREN tail)))
    | ArrayLiteral t es =>
      simp only [okExpression, Bool.and_eq_true, beq_iff_eq] at hok
      obtain ⟨rfl, hes⟩ := hok
      simp only [fuelFor] at hk
      have hA := LexesTo.list es (fun e he tl htl =>
        ih e (by have := fuelFor_le_listFuel es e he; omega)
          (okExpressions_mem es hes e he) tl (Separated.of_safe _ _ htl)) (([']']) ++ tail)
        (SafeTail.cons _ _ (by decide) (by decide))
      rw [data_Array]
      exact (LexesTo.LBRACKET _).append (hA.append (LexesTo.RBRACKET tail))
    | IfExpression _ _ _ _ => simp [okExpression] at hok
    | FunctionLiteral _ _ _ => simp [okExpression] at hok
    | StringLiteral _ _ => simp [okExpression] at hok
    | HashLiteral t ps =>
      simp only [okExpression, Bool.and_eq_true, beq_iff_eq] at hok
      obtain ⟨rfl, hps⟩ := hok
      simp only [fuelFor] at hk
      have hmem := okPairs_mem ps hps
      have hfu := fuelFor_le_pairsFuel ps
      have hA := LexesTo.pairs ps (fun p hp =>
        ⟨fun tl htl => ih p.1 (by have := hfu p hp; omega) (hmem p hp).1 tl
            (Separated.of_safe _ _ htl),
          fun tl htl => ih p.2 (by have := hfu p hp; omega) (hmem p hp).2 tl
            (Separated.of_safe _ _ htl)⟩) ((['\x7d']) ++ tail)
        (SafeTail.cons _ _ (by decide) (by decide))
      rw [data_Hash, tokensOf]
      exact (LexesTo.LBRACE _).append (hA.append (LexesTo.RBRACE tail))

/-- The canonical string of an expression of the fragment, in front of a rest
it is separated from, is lexed into the tokens of the expression. -/
theorem lexes_separated (e : Expression) (hok : okExpression e = true) (tail : List Char)
    (ht : Separated e.String.data tail) : LexesTo e.String.data (tokensOf e) tail :=
  lexes_aux (fuelFor e) e (Nat.le_refl _) hok tail ht

/-- The canonical string of an expression of the fragment, in front of a safe
rest, is lexed into the tokens of the expression. -/
theorem lexes (e : Expression) (hok : okExpression e = true) (tail : List Char)
    (ht : SafeTail tail) : LexesTo e.String.data (tokensOf e) tail :=
  lexes_separated e hok tail (Separated.of_safe _ _ ht)

end roundtrip

namespace roundtrip
open token ast parser

theorem listFuel_le (es : List Expression)
    (h : ∀ e ∈ es, callDepth e + fuelFor e ≤ 4 * (tokensOf e).length) :
    listFuel es ≤ 4 * (commaTokens es).length + 1
      ∧ listFuel es ≤ 4 * (listTokens es).length + 2 := by
  have h1 : ∀ es : List Expression,
      (∀ e ∈ es, callDepth e + fuelFor e ≤ 4 * (tokensOf e).length) →
      listFuel es ≤ 4 * (commaTokens es).length + 1 := by
    intro es
    induction es with
    | nil => intro _; simp [listFuel, commaTokens]
    | cons e es ih =>
      intro h
      have he := h e (List.mem_cons_self _ _)
      have hes := ih (fun e' he' => h e' (List.mem_cons_of_mem _ he'))
      simp only [listFuel, commaTokens, List.length_cons, List.length_append]
      omega
  refine ⟨h1 es h, ?_⟩
  cases es with
  | nil => simp [listFuel, listTokens]
  | cons e es =>
    have he := h e (List.mem_cons_self _ _)
    have hes := h1 es (fun e' he' => h e' (List.mem_cons_of_mem _ he'))
    simp only [listFuel, listTokens, List.length_append]
    omega

theorem pairsFuel_le (ps : List (Expression × Expression))
    (h : ∀ p ∈ ps, callDepth p.1 + fuelFor p.1 ≤ 4 * (tokensOf p.1).length
      ∧ callDepth p.2 + fuelFor p.2 ≤ 4 * (tokensOf p.2).length) :
    pairsFuel ps ≤ 4 * (commaPairTokens ps).length + 1
      ∧ pairsFuel ps ≤ 4 * (pairTokens ps).length + 2 := by
  have h1 : ∀ ps : List (Expression × Expression),
      (∀ p ∈ ps, callDepth p.1 + fuelFor p.1 ≤ 4 * (tokensOf p.1).length
        ∧ callDepth p.2 + fuelFor p.2 ≤ 4 * (tokensOf p.2).length) →
      pairsFuel ps ≤ 4 * (commaPairTokens ps).length + 1 := by
    intro ps
    induction ps with
    | nil => intro _; simp [pairsFuel, commaPairTokens]
    | cons p ps ih =>
      obtain ⟨k, v⟩ := p
      intro h
      have hp := h (k, v) (List.mem_cons_self _ _)
      have hk : callDepth k + fuelFor k ≤ 4 * (tokensOf k).length := hp.1
      have hv : callDepth v + fuelFor v ≤ 4 * (tokensOf v).length := hp.2
      have hps := ih (fun p' hp' => h p' (List.mem_cons_of_mem _ hp'))
      simp only [pairsFuel, commaPairTokens, List.length_cons, List.length_append]
      omega
  refine ⟨h1 ps h, ?_⟩
  cases ps with
  | nil => simp [pairsFuel, pairTokens]
  | cons p ps =>
    obtain ⟨k, v⟩ := p
    have hp := h (k, v) (List.mem_cons_self _ _)
    have hk : callDepth k + fuelFor k ≤ 4 * (tokensOf k).length := hp.1
    have hv : callDepth v + fuelFor v ≤ 4 * (tokensOf v).length := hp.2
    have hps := h1 ps (fun p' hp' => h p' (List.mem_cons_of_mem _ hp'))
    simp only [pairsFuel, pairTokens, List.length_cons, List.length_append]
    omega

/-- The fuel an expression of the fragment asks for is linear in the number of
its tokens. -/
theorem fuelFor_le : ∀ (k : Nat) (e : Expression), fuelFor e ≤ k → okExpression e = true →
    callDepth e + fuelFor e ≤ 4 * (tokensOf e).length := by
  intro k
  induction k with
  | zero =>
    intro e hk
    cases e <;> simp [fuelFor] at hk
  | succ k ih =>
    intro e hk hok
    cases e with
    | Identifier i => simp [callDepth, fuelFor, tokensOf]
    | IntegerLiteral t v => simp [callDepth, fuelFor, tokensOf]
    | Boolean t v => simp [callDepth, fuelFor, tokensOf]
    | PrefixExpression t op r =>
      simp only [okExpression, Bool.and_eq_true] at hok
      simp only [fuelFor] at hk
      have hr := ih r (by omega) hok.2
      simp only [callDepth, fuelFor, tokensOf, List.length_cons, List.length_append,
        List.length_nil]
      omega
    | InfixExpression t l r op =>
      simp only [okExpression, Bool.and_eq_true] at hok
      simp only [fuelFor] at hk
      have hl := ih l (by omega) hok.1.2
      have hr := ih r (by omega) hok.2
      simp only [callDepth, fuelFor, tokensOf, List.length_cons, List.length_append,
        List.length_nil]
      omega
    | IndexExpression t l r =>
      simp only [okExpression, Bool.and_eq_true] at hok
      simp only [fuelFor] at hk
      have hl := ih l (by omega) hok.1.2
      have hr := ih r (by omega) hok.2
      simp only [callDepth, fuelFor, tokensOf, List.length_cons, List.length_append,
        List.length_nil]
      omega
    | CallExpression t f args =>
      simp only [okExpression, Bool.and_eq_true] at hok
      simp only [fuelFor] at hk
      have hf := ih f (by omega) hok.1.2
      have ha := (listFuel_le args (fun e he =>
        ih e (by have := fuelFor_le_listFuel args e he; omega)
          (okExpressions_mem args hok.2 e he))).2
      simp only [callDepth, fuelFor, tokensOf, List.length_cons, List.length_append,
        List.length_nil]
      omega
    | ArrayLiteral t es =>
      simp only [okExpression, Bool.and_eq_true] at hok
      simp only [fuelFor] at hk
      have ha := (listFuel_le es (fun e he =>
        ih e (by have := fuelFor_le_listFuel es e he; omega)
          (okExpressions_mem es hok.2 e he))).2
      simp only [callDepth, fuelFor, tokensOf, List.length_cons, List.length_append,
        List.length_nil]
      omega
    | IfExpression _ _ _ _ => simp [okExpression] at hok
    | FunctionLiteral _ _ _ => simp [okExpression] at hok
    | StringLiteral _ _ => simp [okExpression] at hok
    | HashLiteral t ps =>
      simp only [okExpression, Bool.and_eq_true] at hok
      simp only [fuelFor] at hk
      have ha := (pairsFuel_le ps (fun p hp =>
        ⟨ih p.1 (by have := fuelFor_le_pairsFuel ps p hp; omega) (okPairs_mem ps hok.2 p hp).1,
          ih p.2 (by have := fuelFor_le_pairsFuel ps p hp; omega)
            (okPairs_mem ps hok.2 p hp).2⟩)).2
      simp only [callDepth, fuelFor, tokensOf, List.length_cons, List.length_append,
        List.length_nil]
      omega

/-- A statement of the fragment is read back by `parseStatement` from its
tokens, which leaves the last token of the statement as the current token. What
follows an expression statement must be a token at which the operator loop
stops. -/
theorem parseStatement_ok (s : Statement) (hok : okStatement s = true) (fuel : Nat)
    (rest : List Token) (errs : List String)
    (hfuel : 4 * (statementTokens s).length ≤ fuel)
    (hrest : ∀ t e, s = .ExpressionStatement t e →
      ∃ b ts, rest = b :: ts ∧ b.Type_ ≠ SEMICOLON ∧ precedences b.Type_ ≤ LOWEST) :
    ∃ x, parseStatement (fuel + 1) ⟨statementTokens s ++ rest, errs⟩
      = (some s, ⟨x :: rest, errs⟩) := by
  cases s with
  | LetStatement t n v =>
    cases v with
    | none => simp [okStatement] at hok
    | some v =>
      obtain ⟨tok, val⟩ := n
      simp only [okStatement, okIdentifier, Bool.and_eq_true, beq_iff_eq] at hok
      obtain ⟨⟨rfl, ⟨rfl, -⟩⟩, hv⟩ := hok
      have hb := fuelFor_le (fuelFor v) v (Nat.le_refl _) hv
      simp only [statementTokens, List.length_cons, List.length_append, List.length_nil]
        at hfuel
      obtain ⟨m, rfl⟩ : ∃ m, fuel = m + callDepth v := ⟨fuel - callDepth v, by omega⟩
      have hR := (reparses v hv m (by omega)).stop LOWEST (by decide) ⟨SEMICOLON, ";"⟩ rest errs
        (Or.inl rfl)
      refine ⟨⟨SEMICOLON, ";"⟩, ?_⟩
      rw [parseStatement]
      simp only [statementTokens, List.cons_append, List.append_assoc, List.singleton_append,
        List.nil_append, curToken_cons, expectPeek_cons _ _ _ _ _ rfl, nextToken_cons, hR,
        peekToken_cons, if_true]
  | ReturnStatement t v =>
    cases v with
    | none =>
      simp only [okStatement, beq_iff_eq] at hok
      subst hok
      have hLET : ¬ (RETURN = LET) := by decide
      refine ⟨⟨SEMICOLON, ";"⟩, ?_⟩
      rw [parseStatement]
      simp only [statementTokens, List.cons_append, List.nil_append, curToken_cons, hLET,
        peekToken_cons, if_true, if_false, nextToken_cons]
    | some v =>
      simp only [okStatement, Bool.and_eq_true, beq_iff_eq] at hok
      obtain ⟨rfl, hv⟩ := hok
      have hb := fuelFor_le (fuelFor v) v (Nat.le_refl _) hv
      simp only [statementTokens, List.length_cons, List.length_append, List.length_nil]
        at hfuel
      obtain ⟨m, rfl⟩ : ∃ m, fuel = m + callDepth v := ⟨fuel - callDepth v, by omega⟩
      have hR := (reparses v hv m (by omega)).stop LOWEST (by decide) ⟨SEMICOLON, ";"⟩ rest errs
        (Or.inl rfl)
      obtain ⟨t1, ts, ht, -, -, hsemi, -⟩ := tokensOf_head (fuelFor v) v (Nat.le_refl _) hv
      have hpeek : (Parser.mk (⟨RETURN, "return"⟩ :: (tokensOf v ++ ⟨SEMICOLON, ";"⟩ :: rest))
          errs).peekToken.Type_ ≠ SEMICOLON := by
        rw [ht]
        exact hsemi
      have hLET : ¬ (RETURN = LET) := by decide
      refine ⟨⟨SEMICOLON, ";"⟩, ?_⟩
      rw [parseStatement]
      simp only [statementTokens, List.cons_append, List.append_assoc, List.singleton_append,
        List.nil_append, curToken_cons, nextToken_cons, hR, hpeek, hLET, peekToken_cons, if_true,
        if_false]
  | ExpressionStatement t e =>
    cases e with
    | none => simp [okStatement] at hok
    | some e =>
      simp only [okStatement, Bool.and_eq_true, beq_iff_eq] at hok
      obtain ⟨he, htok⟩ := hok
      obtain ⟨b, ts, rfl, hb1, hb2⟩ := hrest t (some e) rfl
      have hb := fuelFor_le (fuelFor e) e (Nat.le_refl _) he
      simp only [statementTokens] at hfuel
      obtain ⟨m, rfl⟩ : ∃ m, fuel = m + callDepth e := ⟨fuel - callDepth e, by omega⟩
      have hR := (reparses e he m (by omega)).stop LOWEST (by decide) b ts errs (Or.inr hb2)
      obtain ⟨t1, ts1, ht, -, -, -, -, hlet, hret, -⟩ :=
        tokensOf_head (fuelFor e) e (Nat.le_refl _) he
      rw [ht, List.head?_cons, Option.some.injEq] at htok
      subst htok
      have hcur : (Parser.mk (tokensOf e ++ b :: ts) errs).curToken = t1 := by
        rw [ht]
        rfl
      refine ⟨lastToken e, ?_⟩
      rw [parseStatement]
      simp only [statementTokens, hcur, hlet, hret, if_false, hR, peekToken_cons, hb1]
  | BlockStatement _ => simp [okStatement] at hok

end roundtrip

namespace roundtrip
open token ast parser

/-- The first character and the first token of a statement of the fragment:
unless the character is an opening parenthesis or square bracket, the operator
loop of a preceding expression statement stops at the token. -/
theorem statement_head (s : Statement) (hok : okStatement s = true) :
    ∃ c cs t ts, s.String.data = c :: cs ∧ statementTokens s = t :: ts ∧ t.Type_ ≠ EOF
      ∧ (c ≠ '(' → c ≠ '[' → t.Type_ ≠ SEMICOLON ∧ precedences t.Type_ ≤ LOWEST) := by
  cases s with
  | LetStatement t n v =>
    cases v with
    | none => simp [okStatement] at hok
    | some v =>
      simp only [okStatement, Bool.and_eq_true, beq_iff_eq] at hok
      obtain ⟨⟨rfl, -⟩, -⟩ := hok
      refine ⟨'l', ['e', 't', ' '] ++ (n.String.data ++ ([' ', '=', ' '] ++ (v.String.data
        ++ [';']))), ⟨LET, "let"⟩, _, ?_, rfl, by decide, fun _ _ => ⟨by decide, by decide⟩⟩
      simp only [Statement.String, Value_String, String.data_append, List.append_assoc]
      rfl
  | ReturnStatement t v =>
    cases v with
    | none =>
      simp only [okStatement, beq_iff_eq] at hok
      subst hok
      exact ⟨'r', _, ⟨RETURN, "return"⟩, _, rfl, rfl, by decide,
        fun _ _ => ⟨by decide, by decide⟩⟩
    | some v =>
      simp only [okStatement, Bool.and_eq_true, beq_iff_eq] at hok
      obtain ⟨rfl, -⟩ := hok
      refine ⟨'r', ['e', 't', 'u', 'r', 'n', ' '] ++ (v.String.data ++ [';']),
        ⟨RETURN, "return"⟩, _, ?_, rfl, by decide, fun _ _ => ⟨by decide, by decide⟩⟩
      simp only [Statement.String, Value_String, String.data_append, List.append_assoc]
      rfl
  | ExpressionStatement t e =>
    cases e with
    | none => simp [okStatement] at hok
    | some e =>
      simp only [okStatement, Bool.and_eq_true, beq_iff_eq] at hok
      obtain ⟨he, -⟩ := hok
      obtain ⟨c, cs, h1, -, h3⟩ := data_head (fuelFor e) e (Nat.le_refl _) he
      obtain ⟨t1, ts1, h4, h5⟩ := tokensOf_head_mem (fuelFor e) e (Nat.le_refl _) he
      have h6 := (firstType_facts _ h5).2.2.2.2.2.2
      refine ⟨c, cs, t1, ts1, h1, h4, h6, ?_⟩
      intro hc1 hc2
      have h7 := h3 t1 ts1 h4
      have h8 : t1.Type_ ≠ LPAREN := fun h => hc1 (h7.1 h)
      have h9 : t1.Type_ ≠ LBRACKET := fun h => hc2 (h7.2 h)
      simp only [List.mem_cons, List.mem_singleton, List.not_mem_nil, or_false] at h5
      rcases h5 with h | h | h | h | h | h | h
      · rw [h]; exact ⟨by decide, by decide⟩
      · rw [h]; exact ⟨by decide, by decide⟩
      · rw [h]; exact ⟨by decide, by decide⟩
      · rw [h]; exact ⟨by decide, by decide⟩
      · exact absurd h h8
      · exact absurd h h9
      · rw [h]; exact ⟨by decide, by decide⟩
  | BlockStatement _ => simp [okStatement] at hok

/-- What `canFollow` says about the characters at the seam of two statements. -/
theorem canFollow_chars (t : Token) (e : Option Expression) (next : Statement)
    (h : canFollow (.ExpressionStatement t e) next = true) :
    ∃ a b, (Statement.ExpressionStatement t e).String.data.getLast? = some a
      ∧ next.String.data.head? = some b ∧ separable a b = true := by
  simp only [canFollow] at h
  split at h
  · rename_i a b h1 h2
    exact ⟨a, b, h1, h2, h⟩
  · cases h

theorem separable_facts (a b : Char) (h : separable a b = true) :
    b ≠ '(' ∧ b ≠ '[' ∧ (lexer.isLetter a = true → lexer.isLetter b = false)
      ∧ (lexer.isDigit a = true → lexer.isDigit b = false) := by
  simp only [separable, Bool.and_eq_true, bne_iff_ne, ne_eq, Bool.not_eq_true',
    Bool.and_eq_false_iff] at h
  obtain ⟨⟨⟨h1, h2⟩, h3⟩, h4⟩ := h
  refine ⟨h1, h2, ?_, ?_⟩
  · intro ha
    rcases h3 with h3 | h3
    · rw [ha] at h3; cases h3
    · exact h3
  · intro ha
    rcases h4 with h4 | h4
    · rw [ha] at h4; cases h4
    · exact h4

/-- The token after an expression statement of an `okStatements` list stops the
operator loop. -/
theorem okStatements_next (s : Statement) (ss : List Statement)
    (hok : okStatements (s :: ss) = true) :
    ∀ t e, s = .ExpressionStatement t e →
      ∃ b ts, programTokens ss ++ [(⟨EOF, ""⟩ : Token)] = b :: ts ∧ b.Type_ ≠ SEMICOLON
        ∧ precedences b.Type_ ≤ LOWEST := by
  intro t e hs
  subst hs
  cases ss with
  | nil => exact ⟨⟨EOF, ""⟩, [], rfl, by decide, by decide⟩
  | cons next ss =>
    simp only [okStatements, Bool.and_eq_true] at hok
    obtain ⟨⟨-, ⟨⟨hn, -⟩, -⟩⟩, hf⟩ := hok
    obtain ⟨a, b, -, hb, hsep⟩ := canFollow_chars t e next hf
    obtain ⟨c, cs, t1, ts1, h1, h2, -, h4⟩ := statement_head next hn
    rw [h1, List.head?_cons, Option.some.injEq] at hb
    subst hb
    obtain ⟨hc1, hc2, -, -⟩ := separable_facts a c hsep
    obtain ⟨h5, h6⟩ := h4 hc1 hc2
    exact ⟨t1, ts1 ++ (programTokens ss ++ [⟨EOF, ""⟩]),
      by simp only [programTokens, h2, List.cons_append, List.append_assoc], h5, h6⟩

theorem okStatements_all (ss : List Statement) (hok : okStatements ss = true) :
    ∀ s ∈ ss, okStatement s = true := by
  induction ss with
  | nil => intro s hs; cases hs
  | cons s ss ih =>
    simp only [okStatements, Bool.and_eq_true] at hok
    intro s' hs'
    rcases List.mem_cons.mp hs' with rfl | hs'
    · exact hok.1.1
    · exact ih hok.1.2 s' hs'

theorem okStatements_tail (s : Statement) (ss : List Statement)
    (hok : okStatements (s :: ss) = true) : okStatements ss = true := by
  simp only [okStatements, Bool.and_eq_true] at hok
  exact hok.1.2

theorem parseProgramLoop_ok (ss : List Statement) :
    okStatements ss = true →
    ∀ (fuel : Nat) (acc : List Statement) (errs : List String), ss.length + 1 ≤ fuel →
      parseProgramLoop fuel acc ⟨programTokens ss ++ [⟨EOF, ""⟩], errs⟩
        = (acc ++ ss, ⟨[⟨EOF, ""⟩], errs⟩) := by
  induction ss with
  | nil =>
    intro _ fuel acc errs hf
    obtain ⟨f, rfl⟩ : ∃ f, fuel = f + 1 := ⟨fuel - 1, by omega⟩
    rw [parseProgramLoop]
    simp [programTokens]
  | cons s ss ih =>
    intro hok fuel acc errs hf
    simp only [List.length_cons] at hf
    obtain ⟨f, rfl⟩ : ∃ f, fuel = f + 1 := ⟨fuel - 1, by omega⟩
    have hs := okStatements_all _ hok s (List.mem_cons_self _ _)
    obtain ⟨-, -, t, ts, -, ht, hne, -⟩ := statement_head s hs
    have hcur : (Parser.mk (programTokens (s :: ss) ++ [⟨EOF, ""⟩]) errs).curToken.Type_
        ≠ EOF := by
      simp only [programTokens, ht, List.cons_append, curToken_cons]
      exact hne
    obtain ⟨x, hx⟩ := parseStatement_ok s hs
      (4 * (Parser.mk (programTokens (s :: ss) ++ [⟨EOF, ""⟩]) errs).tokens.length + 3)
      (programTokens ss ++ [⟨EOF, ""⟩]) errs
      (by simp only [programTokens, List.length_append]; omega)
      (okStatements_next s ss hok)
    have hstmt : parseStatement
          (4 * (Parser.mk (programTokens (s :: ss) ++ [⟨EOF, ""⟩]) errs).tokens.length + 4)
          (Parser.mk (programTokens (s :: ss) ++ [⟨EOF, ""⟩]) errs)
        = (some s, ⟨x :: (programTokens ss ++ [⟨EOF, ""⟩]), errs⟩) := by
      simp only [programTokens, List.append_assoc] at hx ⊢
      exact hx
    rw [parseProgramLoop]
    simp only [hcur, if_false, hstmt, nextToken_cons]
    rw [ih (okStatements_tail s ss hok) f (acc ++ [s]) errs (by omega)]
    simp

theorem length_le_programTokens (ss : List Statement) (hok : ∀ s ∈ ss, okStatement s = true) :
    ss.length ≤ (programTokens ss).length := by
  induction ss with
  | nil => simp
  | cons s ss ih =>
    obtain ⟨-, -, t, ts, -, ht, -⟩ := statement_head s (hok s (List.mem_cons_self _ _))
    have := ih (fun s' hs' => hok s' (List.mem_cons_of_mem _ hs'))
    simp only [programTokens, List.length_append, List.length_cons, ht]
    omega

/-- The parser reads the tokens of a program of the fragment back as that
program, without errors. -/
theorem ParseProgram_programTokens (p : Program) (hok : okProgram p = true) :
    ParseProgram (programTokens p.Statements ++ [⟨EOF, ""⟩]) = (p, []) := by
  have hlen := length_le_programTokens p.Statements (okStatements_all _ hok)
  have hfuel : p.Statements.length + 1
      ≤ (programTokens p.Statements ++ [(⟨EOF, ""⟩ : Token)]).length + 1 := by
    simp only [List.length_append, List.length_singleton]
    omega
  simp only [ParseProgram]
  rw [parseProgramLoop_ok p.Statements hok _ [] [] hfuel]
  simp

end roundtrip

namespace roundtrip
open token ast lexer

theorem length_dropWhile_le (p : Char → Bool) (l : List Char) :
    (l.dropWhile p).length ≤ l.length := by
  induction l with
  | nil => simp
  | cons a l ih =>
    simp only [List.dropWhile]
    split
    · simp only [List.length_cons]; omega
    · simp

theorem ite_snd_length_le {c : Prop} [Decidable c] (a b : Token × List Char) (n : Nat)
    (ha : c → a.2.length ≤ n) (hb : ¬ c → b.2.length ≤ n) :
    (if c then a else b).2.length ≤ n := by
  split
  · exact ha (by assumption)
  · exact hb (by assumption)

theorem readToken_length (c : Char) (rest : List Char) :
    (readToken c rest).2.length ≤ rest.length := by
  have hstr := length_dropWhile_le (fun d => d != '"') rest
  have hlet := length_dropWhile_le isLetter rest
  have hdig := length_dropWhile_le isDigit rest
  have htail : ((rest.dropWhile (fun d => d != '"')).tail).length ≤ rest.length := by
    rw [List.length_tail]
    omega
  unfold readToken
  repeat' (refine ite_snd_length_le _ _ _ (fun h => ?_) (fun h => ?_))
  all_goals first
    | exact Nat.le_refl _
    | exact htail
    | (split <;> first | exact Nat.le_refl _ | (simp only [List.length_cons]; omega))
    | (simp only [List.dropWhile, h]; first | exact hlet | exact hdig)

/-- Every token before `EOF` consumes at least one character. -/
theorem NextToken_consumes (cs : List Char) (h : (NextToken cs).1.Type_ ≠ EOF) :
    (NextToken cs).2.length < cs.length := by
  have hd := length_dropWhile_le isWhitespace cs
  unfold NextToken at h ⊢
  split
  · rename_i heq
    rw [heq] at h
    exact absurd rfl h
  · rename_i c rest heq
    rw [heq] at hd
    simp only [List.length_cons] at hd
    have := readToken_length c rest
    omega

/-- The lexer emits at most one token per character, and the closing `EOF`. -/
theorem Tokens_length (n : Nat) : ∀ cs : List Char, (Tokens n cs).length ≤ cs.length + 1 := by
  induction n with
  | zero => intro cs; simp [Tokens]
  | succ n ih =>
    intro cs
    simp only [Tokens]
    split
    · simp
    · rename_i h
      have h1 := NextToken_consumes cs h
      have h2 := ih (NextToken cs).2
      simp only [List.length_cons]
      omega

/-- Characters that are lexed into the tokens `toks` are at least as many as
the tokens, so `Lex` reads them with fuel to spare. -/
theorem LexesTo.toLex {s : String} {toks : List Token} (h : LexesTo s.data toks []) :
    lexer.Lex s = toks ++ [⟨EOF, ""⟩] := by
  have h0 := h 0
  simp only [Nat.zero_add, List.append_nil] at h0
  have hlen := Tokens_length toks.length s.data
  rw [h0] at hlen
  simp only [List.length_append, List.length_singleton, Tokens] at hlen
  obtain ⟨n, hn⟩ : ∃ n, s.data.length + 1 = n + 1 + toks.length :=
    ⟨s.data.length - toks.length, by omega⟩
  have h1 := h (n + 1)
  simp only [List.append_nil] at h1
  rw [lexer.Lex, hn, h1]
  rfl

end roundtrip

namespace roundtrip
open token ast lexer

/-- The canonical string of a statement of the fragment is lexed into the
tokens of the statement, whatever follows a let or return statement; what
follows an expression statement must be separated from it. -/
theorem lexes_statement (s : Statement) (hok : okStatement s = true) (tail : List Char)
    (hsep : ∀ t e, s = .ExpressionStatement t e → Separated s.String.data tail) :
    LexesTo s.String.data (statementTokens s) tail := by
  cases s with
  | LetStatement t n v =>
    cases v with
    | none => simp [okStatement] at hok
    | some v =>
      obtain ⟨tok, val⟩ := n
      simp only [okStatement, okIdentifier, Bool.and_eq_true, beq_iff_eq] at hok
      obtain ⟨⟨rfl, ⟨rfl, hname⟩⟩, hv⟩ := hok
      have hd : (Statement.LetStatement ⟨LET, "let"⟩ ⟨⟨IDENT, val⟩, val⟩ (some v)).String.data
          = "let".data ++ ([' '] ++ (val.data ++ ([' '] ++ (['='] ++ ([' '] ++ (v.String.data
              ++ [';'])))))) := by
        simp only [Statement.String, Value_String, Identifier.String, String.data_append,
          List.append_assoc]
        rfl
      rw [hd]
      have h1 := LexesTo.let_ ((val.data ++ ([' '] ++ (['='] ++ ([' '] ++ (v.String.data
        ++ [';']))))) ++ tail)
      have h2 := LexesTo.space ((val.data ++ ([' '] ++ (['='] ++ ([' '] ++ (v.String.data
        ++ [';']))))) ++ tail)
      have h3 := LexesTo.name val hname
        (([' '] ++ (['='] ++ ([' '] ++ (v.String.data ++ [';'])))) ++ tail)
        (fun d hd => by
          simp only [List.singleton_append, List.cons_append, List.head?_cons,
            Option.some.injEq] at hd
          subst hd
          decide)
      have h4 := LexesTo.space ((['='] ++ ([' '] ++ (v.String.data ++ [';']))) ++ tail)
      have h5 := LexesTo.ASSIGN ((v.String.data ++ [';']) ++ tail)
      have h6 := LexesTo.space ((v.String.data ++ [';']) ++ tail)
      have h7 := lexes v hv ([';'] ++ tail) (SafeTail.cons _ _ (by decide) (by decide))
      have h8 := LexesTo.SEMICOLON tail
      exact h1.append (h2.append (h3.append (h4.append (h5.append (h6.append
        (h7.append h8))))))
  | ReturnStatement t v =>
    cases v with
    | none =>
      simp only [okStatement, beq_iff_eq] at hok
      subst hok
      have hd : (Statement.ReturnStatement ⟨RETURN, "return"⟩ none).String.data
          = "return".data ++ ([' '] ++ [';']) := by
        decide
      rw [hd]
      have h1 := LexesTo.return_ ([';'] ++ tail)
      have h2 := LexesTo.space ([';'] ++ tail)
      have h8 := LexesTo.SEMICOLON tail
      exact h1.append (h2.append h8)
    | some v =>
      simp only [okStatement, Bool.and_eq_true, beq_iff_eq] at hok
      obtain ⟨rfl, hv⟩ := hok
      have hd : (Statement.ReturnStatement ⟨RETURN, "return"⟩ (some v)).String.data
          = "return".data ++ ([' '] ++ (v.String.data ++ [';'])) := by
        simp only [Statement.String, Value_String, String.data_append, List.append_assoc]
      rw [hd]
      have h1 := LexesTo.return_ ((v.String.data ++ [';']) ++ tail)
      have h2 := LexesTo.space ((v.String.data ++ [';']) ++ tail)
      have h7 := lexes v hv ([';'] ++ tail) (SafeTail.cons _ _ (by decide) (by decide))
      have h8 := LexesTo.SEMICOLON tail
      exact h1.append (h2.append (h7.append h8))
  | ExpressionStatement t e =>
    cases e with
    | none => simp [okStatement] at hok
    | some e =>
      simp only [okStatement, Bool.and_eq_true, beq_iff_eq] at hok
      have h := hsep t (some e) rfl
      simp only [Statement.String, Value_String, statementTokens] at h ⊢
      exact lexes_separated e hok.1 tail h
  | BlockStatement _ => simp [okStatement] at hok

/-- An expression statement of an `okStatements` list is separated from the
canonical string of the statements after it. -/
theorem okStatements_separated (s : Statement) (ss : List Statement)
    (hok : okStatements (s :: ss) = true) :
    ∀ t e, s = .ExpressionStatement t e →
      Separated s.String.data ((Statements_String ss).data ++ []) := by
  intro t e hs
  subst hs
  cases ss with
  | nil =>
    intro a b _ hb
    simp [Statements_String] at hb
  | cons next ss =>
    simp only [okStatements, Bool.and_eq_true] at hok
    obtain ⟨a, b, ha, hb, hsep⟩ := canFollow_chars t e next hok.2
    obtain ⟨-, -, h3, h4⟩ := separable_facts a b hsep
    intro a2 b2 ha2 hb2
    rw [ha, Option.some.injEq] at ha2
    subst ha2
    have hd : ((Statements_String (next :: ss)).data ++ []).head? = some b := by
      simp only [Statements_String, String.data_append, List.append_nil]
      cases hn : next.String.data with
      | nil => rw [hn] at hb; cases hb
      | cons c cs =>
        rw [hn] at hb
        simpa using hb
    rw [hd, Option.some.injEq] at hb2
    subst hb2
    exact ⟨h3, h4⟩

theorem lexes_statements (ss : List Statement) (hok : okStatements ss = true) :
    LexesTo (Statements_String ss).data (programTokens ss) [] := by
  induction ss with
  | nil => exact LexesTo.nil []
  | cons s ss ih =>
    have hd : (Statements_String (s :: ss)).data = s.String.data ++ (Statements_String ss).data
        := by
      simp only [Statements_String, String.data_append]
    rw [hd]
    exact (lexes_statement s (okStatements_all _ hok s (List.mem_cons_self _ _)) _
      (okStatements_separated s ss hok)).append (ih (okStatements_tail s ss hok))

/-- Parsing the canonical string of a program of the fragment gives the program
back, without errors. -/
theorem Parse_String (p : Program) (hok : okProgram p = true) :
    parser.Parse p.String = (p, []) := by
  have hlex : lexer.Lex p.String = programTokens p.Statements ++ [⟨EOF, ""⟩] :=
    LexesTo.toLex (lexes_statements p.Statements hok)
  rw [parser.Parse, hlex]
  exact ParseProgram_programTokens p hok

/-- Two parse results with different numbers of statements differ. -/
theorem ne_of_length (r1 r2 : Program × List String) (n1 n2 : Nat)
    (h1 : r1.1.Statements.length = n1) (h2 : r2.1.Statements.length = n2) (h : n1 ≠ n2) :
    r1 ≠ r2 := by
  rintro rfl
  exact h (h1.symm.trans h2)

/-- Two parse results with different numbers of errors differ. -/
theorem ne_of_errors (r1 r2 : Program × List String) (n1 n2 : Nat)
    (h1 : r1.2.length = n1) (h2 : r2.2.length = n2) (h : n1 ≠ n2) : r1 ≠ r2 := by
  rintro rfl
  exact h (h1.symm.trans h2)

/-- Two parse results of which one is in the fragment and the other is not
differ. -/
theorem ne_of_okProgram (r1 r2 : Program × List String) (h1 : okProgram r1.1 = true)
    (h2 : okProgram r2.1 = false) : r1 ≠ r2 := by
  rintro rfl
  rw [h1] at h2
  cases h2

/-- The fragment contains the programs of these error-free sources: a lone
identifier, a call, a let statement followed by an identifier, and let
statements whose values are a hash literal with pairs and an empty one. -/
theorem okProgram_examples :
    ((parser.Parse "a").2 = [] ∧ okProgram (parser.Parse "a").1 = true)
    ∧ ((parser.Parse "f(x)").2 = [] ∧ okProgram (parser.Parse "f(x)").1 = true)
    ∧ ((parser.Parse "let x = 5; x").2 = [] ∧ okProgram (parser.Parse "let x = 5; x").1 = true)
    ∧ ((parser.Parse "let h = \x7ba: 1, b: 2\x7d;").2 = []
        ∧ okProgram (parser.Parse "let h = \x7ba: 1, b: 2\x7d;").1 = true)
    ∧ ((parser.Parse "let e = \x7b\x7d;").2 = []
        ∧ okProgram (parser.Parse "let e = \x7b\x7d;").1 = true)
    ∧ ((parser.Parse "5; let x = 1; a; 5").2 = []
        ∧ okProgram (parser.Parse "5; let x = 1; a; 5").1 = true) :=
  ⟨⟨by rfl, by rfl⟩, ⟨by rfl, by rfl⟩, ⟨by rfl, by rfl⟩, ⟨by rfl, by rfl⟩, ⟨by rfl, by rfl⟩,
    ⟨by rfl, by rfl⟩⟩

/-- C14 as stated fails. Each of these sources parses without errors, and
parsing the canonical string of its program yields something else. Two
expression statements run together: `a; b` renders as `ab`, one identifier;
`1; 2` renders as `12`, one integer; `a; (b + c)` renders as `a(b + c)`, a
call; `a; [1]` renders as `a[1]`, an index expression. The expression statement
`a + b` carries the token `a` and renders as `(a + b)`, whose statement carries
the token `(`. The string literal of `let s = "a";` renders without quotes and
is read back as an identifier. The function literal and the if expression
render their blocks without braces, and their canonical strings do not parse. -/
theorem roundtrip_fails_outside_fragment :
    ((parser.Parse "a; b").2 = []
      ∧ (parser.Parse "a; b").1.String = "ab"
      ∧ (parser.Parse "a; b").1.Statements.length = 2
      ∧ (parser.Parse (parser.Parse "a; b").1.String).1.Statements.length = 1
      ∧ parser.Parse (parser.Parse "a; b").1.String ≠ parser.Parse "a; b")
    ∧ ((parser.Parse "1; 2").2 = []
      ∧ (parser.Parse "1; 2").1.String = "12"
      ∧ parser.Parse (parser.Parse "1; 2").1.String ≠ parser.Parse "1; 2")
    ∧ ((parser.Parse "a; (b + c)").2 = []
      ∧ (parser.Parse "a; (b + c)").1.String = "a(b + c)"
      ∧ parser.Parse (parser.Parse "a; (b + c)").1.String ≠ parser.Parse "a; (b + c)")
    ∧ ((parser.Parse "a; [1]").2 = []
      ∧ (parser.Parse "a; [1]").1.String = "a[1]"
      ∧ parser.Parse (parser.Parse "a; [1]").1.String ≠ parser.Parse "a; [1]")
    ∧ ((parser.Parse "a + b").2 = []
      ∧ (parser.Parse "a + b").1.String = "(a + b)"
      ∧ parser.Parse (parser.Parse "a + b").1.String ≠ parser.Parse "a + b")
    ∧ ((parser.Parse "let s = \"a\";").2 = []
      ∧ (parser.Parse "let s = \"a\";").1.String = "let s = a;"
      ∧ parser.Parse (parser.Parse "let s = \"a\";").1.String ≠ parser.Parse "let s = \"a\";")
    ∧ ((parser.Parse "let f = fn(x) \x7b x \x7d;").2 = []
      ∧ (parser.Parse "let f = fn(x) \x7b x \x7d;").1.String = "let f = fn(x)x;"
      ∧ (parser.Parse (parser.Parse "let f = fn(x) \x7b x \x7d;").1.String).2 ≠ []
      ∧ parser.Parse (parser.Parse "let f = fn(x) \x7b x \x7d;").1.String
          ≠ parser.Parse "let f = fn(x) \x7b x \x7d;")
    ∧ ((parser.Parse "if (a < b) \x7b c \x7d").2 = []
      ∧ (parser.Parse "if (a < b) \x7b c \x7d").1.String = "if(a < b) c"
      ∧ (parser.Parse (parser.Parse "if (a < b) \x7b c \x7d").1.String).2 ≠ []
      ∧ parser.Parse (parser.Parse "if (a < b) \x7b c \x7d").1.String
          ≠ parser.Parse "if (a < b) \x7b c \x7d") := by
  have e7 : (parser.Parse (parser.Parse "let f = fn(x) \x7b x \x7d;").1.String).2.length = 1 := by
    rfl
  have e8 : (parser.Parse (parser.Parse "if (a < b) \x7b c \x7d").1.String).2.length = 1 := by
    rfl
  refine ⟨⟨by rfl, by rfl, by rfl, by rfl, ?_⟩, ⟨by rfl, by rfl, ?_⟩, ⟨by rfl, by rfl, ?_⟩,
    ⟨by rfl, by rfl, ?_⟩, ⟨by rfl, by rfl, ?_⟩, ⟨by rfl, by rfl, ?_⟩,
    ⟨by rfl, by rfl, ?_, ?_⟩, ⟨by rfl, by rfl, ?_, ?_⟩⟩
  · exact ne_of_length _ _ 1 2 (by rfl) (by rfl) (by decide)
  · exact ne_of_length _ _ 1 2 (by rfl) (by rfl) (by decide)
  · exact ne_of_length _ _ 1 2 (by rfl) (by rfl) (by decide)
  · exact ne_of_length _ _ 1 2 (by rfl) (by rfl) (by decide)
  · exact ne_of_okProgram _ _ (by rfl) (by rfl)
  · exact ne_of_okProgram _ _ (by rfl) (by rfl)
  · intro h
    rw [h] at e7
    cases e7
  · exact ne_of_errors _ _ 1 0 e7 (by rfl) (by decide)
  · intro h
    rw [h] at e8
    cases e8
  · exact ne_of_errors _ _ 1 0 e8 (by rfl) (by decide)

/-- C14 amended: for every source that parses without errors into a program of
the fragment `okProgram`, parsing the canonical string of the parsed program
yields the parsed program again, without errors. The fragment: the statements
are let statements, return statements with or without a value, and expression
statements whose token is the first token of their canonical string; the
expressions are built from identifiers, integer and boolean literals, prefix,
infix, index and call expressions, array literals and hash literals, the pairs
of a hash literal in the order the model keeps them; and after an expression
statement the next statement starts neither with `(` or `[` nor with a letter
after a letter or a digit after a digit. -/
theorem roundtrip_on_fragment (P : String) (herr : (parser.Parse P).2 = [])
    (hfrag : okProgram (parser.Parse P).1 = true) :
    parser.Parse (parser.Parse P).1.String = parser.Parse P := by
  rw [Parse_String _ hfrag, ← herr]

/-- Witness of C14 amended at a source with let and return statements, hash
literals, and expression statements that follow each other. -/
theorem roundtrip_on_fragment_witness :
    ((parser.Parse
        "let x = -f(a, 1)[0] * b; let h = \x7ba: 1, b: [x, true]\x7d; return \x7b\x7d; f(x); 5; a").2
          = []
      ∧ okProgram (parser.Parse
        "let x = -f(a, 1)[0] * b; let h = \x7ba: 1, b: [x, true]\x7d; return \x7b\x7d; f(x); 5; a").1
          = true)
    ∧ parser.Parse (parser.Parse
        "let x = -f(a, 1)[0] * b; let h = \x7ba: 1, b: [x, true]\x7d; return \x7b\x7d; f(x); 5; a").1.String
        = parser.Parse
        "let x = -f(a, 1)[0] * b; let h = \x7ba: 1, b: [x, true]\x7d; return \x7b\x7d; f(x); 5; a" :=
  ⟨⟨by rfl, by rfl⟩,
   roundtrip_on_fragment
     "let x = -f(a, 1)[0] * b; let h = \x7ba: 1, b: [x, true]\x7d; return \x7b\x7d; f(x); 5; a"
     (by rfl) (by rfl)⟩

end roundtrip
